import Mathlib

/-!
# Water molecule rendezvous (`main.c`)

A shallow embedding of the pthread program `main.c`: hydrogen and oxygen
producer threads running `produceAtoms`, and the assembler running the loop
of `main` (`require`, `gather`, `++count`, broadcast).

The program is modelled as an interleaving transition system.  Every thread
has a program location (named after the source line it is about to execute);
one step of the system executes one statement of one thread.  Mutexes are a
map from mutex index to owner, a thread blocked in `pthread_cond_wait` sits at
a `wait…` location (membership in the wait set of the condition variable is
exactly "being at that location"), and a woken thread sits at a `woken…`
location until it re-acquires the mutex.  `printf` and `sleep` have no effect
on the shared state and are skipped.  `int` arithmetic is modelled on `Int`
with the C rule that signed overflow is undefined: `++` at `INT_MAX` and `--`
at `INT_MIN` have no successor state.
-/

namespace WaterMolecule

/-! ## Data model -/

/-- The resource kinds, `#define HYDROGEN 0` and `#define OXYGEN 1`. -/
inductive Atom where
  | HYDROGEN
  | OXYGEN
  deriving DecidableEq, Repr

/-- The indices of `pthread_mutex_t mutex[3]`: one per atom kind, and `FINISHED`. -/
inductive Mx where
  | atom (k : Atom)
  | FINISHED
  deriving DecidableEq, Repr

/-- Thread identities: the assembler (the thread running `main`) and the
producers, numbered by their position in the producer table. -/
inductive Tid where
  | main
  | producer (i : Nat)
  deriving DecidableEq, Repr

/-- Program locations of `produceAtoms` (source lines 51-77). -/
inductive PLoc where
  /-- lines 52-54: printing and `sleep`. -/
  | produce
  /-- line 56: `lock(this->atom)`. -/
  | lockAtom
  /-- line 59: the test `!required[this->atom]`. -/
  | checkReq
  /-- line 59: blocked inside `WAIT(this->atom)`. -/
  | waitAtom
  /-- line 59: woken inside `WAIT(this->atom)`, re-acquiring the mutex. -/
  | wokenAtom
  /-- line 60: `required[this->atom]--`. -/
  | decr
  /-- line 63: `int currentCount = count`. -/
  | snap
  /-- line 70: `if (!required[this->atom]) sendSignal(READY)`. -/
  | checkLast
  /-- line 71: `unlock(this->atom)`. -/
  | unlockAtom
  /-- line 73: `lock(FINISHED)`. -/
  | lockFin
  /-- line 75: the test `currentCount == count`. -/
  | checkFin
  /-- line 75: blocked inside `WAIT(FINISHED)`. -/
  | waitFin
  /-- line 75: woken inside `WAIT(FINISHED)`, re-acquiring the mutex. -/
  | wokenFin
  /-- line 76: `unlock(FINISHED)`. -/
  | unlockFin
  deriving DecidableEq, Repr

/-- Program locations of the assembler: the statements of the loop of `main`
(lines 151-161) and of the bodies of `require` (137-143) and `gather` (130-133). -/
inductive ALoc where
  /-- line 151: `require(HYDROGEN, 2)`. -/
  | call151
  /-- line 152: `require(OXYGEN, 1)`. -/
  | call152
  /-- line 154: `gather(HYDROGEN)`. -/
  | call154
  /-- line 155: `gather(OXYGEN)`. -/
  | call155
  /-- line 137: `lock(atom)` in `require`. -/
  | rLock
  /-- line 138: `required[atom] = amount`. -/
  | rSet
  /-- line 142: `while (amount--) sendSignal(atom)`. -/
  | rLoop
  /-- line 143: `unlock(atom)` in `require`, then return. -/
  | rUnlock
  /-- line 130: `lock(atom)` in `gather`. -/
  | gLock
  /-- line 132: the test `required[atom]`. -/
  | gCheck
  /-- line 132: blocked inside `wait(READY, atom)`. -/
  | gWait
  /-- line 132: woken inside `wait(READY, atom)`, re-acquiring the mutex. -/
  | gWoken
  /-- line 133: `unlock(atom)` in `gather`, then return. -/
  | gUnlock
  /-- line 157: `lock(FINISHED)`. -/
  | fLock
  /-- line 158: `++count`. -/
  | fInc
  /-- line 160: `broadcastSignal(FINISHED)`. -/
  | fBcast
  /-- line 161: `unlock(FINISHED)`. -/
  | fUnlock
  deriving DecidableEq, Repr

/-- A producer thread: `struct producer` (its `atom`; the `ID` is its index in
the table), its location, and its local `currentCount`. -/
structure Producer where
  atom : Atom
  pc : PLoc
  currentCount : Int
  deriving DecidableEq, Repr

/-- The assembler thread: its location, the arguments `atom` and `amount` of
the call of `require`/`gather` in progress, and the location in `main` to
return to. -/
structure Assembler where
  pc : ALoc
  atom : Atom
  amount : Int
  ret : ALoc
  deriving DecidableEq, Repr

/-- Observable events, recorded in program order (history variable; the
newest event is the head of the list). -/
inductive Event where
  /-- line 138: `required[k] = amount`. -/
  | require (k : Atom) (amount : Int)
  /-- line 142: one `sendSignal(k)`, with the producer it woke, if any. -/
  | signal (k : Atom) (woken : Option Nat)
  /-- line 60: producer `i` decremented `required[k]`. -/
  | deliver (i : Nat) (k : Atom)
  /-- line 70: producer `i` of kind `k` executed `sendSignal(READY)`. -/
  | ready (i : Nat) (k : Atom)
  /-- line 158: `++count`. -/
  | finalize
  /-- line 160: `broadcastSignal(FINISHED)`. -/
  | broadcast
  deriving DecidableEq, Repr

/-- The shared memory (`required`, `count`, the mutexes), the threads, and the
history of events. -/
structure State where
  required : Atom → Int
  count : Int
  mutex : Mx → Option Tid
  main : Assembler
  producers : List Producer
  trace : List Event

/-- Upper end of `int`. -/
def INT_MAX : Int := 2147483647

/-- Lower end of `int`. -/
def INT_MIN : Int := -2147483648

/-- The value of `x + 1` for an `int`; undefined (signed overflow) at `INT_MAX`. -/
def intInc (x : Int) : Option Int := if x < INT_MAX then some (x + 1) else none

/-- The value of `x - 1` for an `int`; undefined (signed overflow) at `INT_MIN`. -/
def intDec (x : Int) : Option Int := if INT_MIN < x then some (x - 1) else none

/-! ## Primitive operations -/

/-- Store into `required[k]`. -/
def setRequired (r : Atom → Int) (k : Atom) (v : Int) : Atom → Int :=
  fun a => if a = k then v else r a

/-- Store into `mutex[m]` (its owner). -/
def setMutex (mu : Mx → Option Tid) (m : Mx) (o : Option Tid) : Mx → Option Tid :=
  fun a => if a = m then o else mu a

/-- Whether producer `q` is blocked in `WAIT(k)`. -/
def waitsOn (k : Atom) (q : Producer) : Bool :=
  decide (q.pc = PLoc.waitAtom) && decide (q.atom = k)

/-- The wake-up of one producer blocked in `WAIT(FINISHED)`. -/
def wakeFin (q : Producer) : Producer :=
  if q.pc = PLoc.waitFin then { q with pc := PLoc.wokenFin } else q

/-- Signal `sendSignal(READY)`: the only thread that ever waits on `READY` is the
assembler, inside `gather`. -/
def wakeMain (a : Assembler) : Assembler :=
  if a.pc = ALoc.gWait then { a with pc := ALoc.gWoken } else a

/-- Scheduler choices.  `main w`: the assembler executes its next statement;
when that statement is a `sendSignal(atom)`, `w` is the producer it wakes
(`none` when no producer waits on that condition).  `producer i`: producer `i`
executes its next statement.  `spurious t`: thread `t`, blocked in
`pthread_cond_wait`, wakes up without a signal. -/
inductive Label where
  | main (w : Option Nat)
  | producer (i : Nat)
  | spurious (t : Tid)
  deriving DecidableEq, Repr

/-! ## `produceAtoms` -/

/-- One statement of `produceAtoms` executed by producer `i` (lines 51-77).
`none` when the producer is blocked: the mutex it wants is taken, or it is
inside `pthread_cond_wait` and has not been woken. -/
def produceAtoms (i : Nat) (s : State) : Option State :=
  match s.producers[i]? with
  | none => none
  | some p =>
    match p.pc with
    | PLoc.produce =>
      some { s with producers := s.producers.set i { p with pc := PLoc.lockAtom } }
    | PLoc.lockAtom =>
      if s.mutex (Mx.atom p.atom) = none then
        some { s with
          mutex := setMutex s.mutex (Mx.atom p.atom) (some (Tid.producer i))
          producers := s.producers.set i { p with pc := PLoc.checkReq } }
      else none
    | PLoc.checkReq =>
      if s.required p.atom = 0 then
        some { s with
          mutex := setMutex s.mutex (Mx.atom p.atom) none
          producers := s.producers.set i { p with pc := PLoc.waitAtom } }
      else
        some { s with producers := s.producers.set i { p with pc := PLoc.decr } }
    | PLoc.waitAtom => none
    | PLoc.wokenAtom =>
      if s.mutex (Mx.atom p.atom) = none then
        some { s with
          mutex := setMutex s.mutex (Mx.atom p.atom) (some (Tid.producer i))
          producers := s.producers.set i { p with pc := PLoc.checkReq } }
      else none
    | PLoc.decr =>
      match intDec (s.required p.atom) with
      | none => none
      | some r =>
        some { s with
          required := setRequired s.required p.atom r
          producers := s.producers.set i { p with pc := PLoc.snap }
          trace := Event.deliver i p.atom :: s.trace }
    | PLoc.snap =>
      some { s with
        producers := s.producers.set i { p with pc := PLoc.checkLast, currentCount := s.count } }
    | PLoc.checkLast =>
      if s.required p.atom = 0 then
        some { s with
          main := wakeMain s.main
          producers := s.producers.set i { p with pc := PLoc.unlockAtom }
          trace := Event.ready i p.atom :: s.trace }
      else
        some { s with producers := s.producers.set i { p with pc := PLoc.unlockAtom } }
    | PLoc.unlockAtom =>
      some { s with
        mutex := setMutex s.mutex (Mx.atom p.atom) none
        producers := s.producers.set i { p with pc := PLoc.lockFin } }
    | PLoc.lockFin =>
      if s.mutex Mx.FINISHED = none then
        some { s with
          mutex := setMutex s.mutex Mx.FINISHED (some (Tid.producer i))
          producers := s.producers.set i { p with pc := PLoc.checkFin } }
      else none
    | PLoc.checkFin =>
      if p.currentCount = s.count then
        some { s with
          mutex := setMutex s.mutex Mx.FINISHED none
          producers := s.producers.set i { p with pc := PLoc.waitFin } }
      else
        some { s with producers := s.producers.set i { p with pc := PLoc.unlockFin } }
    | PLoc.waitFin => none
    | PLoc.wokenFin =>
      if s.mutex Mx.FINISHED = none then
        some { s with
          mutex := setMutex s.mutex Mx.FINISHED (some (Tid.producer i))
          producers := s.producers.set i { p with pc := PLoc.checkFin } }
      else none
    | PLoc.unlockFin =>
      some { s with
        mutex := setMutex s.mutex Mx.FINISHED none
        producers := s.producers.set i { p with pc := PLoc.produce } }

/-! ## `require`, `gather` and the loop of `main` -/

/-- The effect of one `sendSignal(k)` (`pthread_cond_signal`) on the producers:
`w = some j` wakes producer `j`, which must be blocked in `WAIT(k)`; `w = none`
is the signal that finds no waiter and does nothing. -/
def sendSignal (k : Atom) (w : Option Nat) (ps : List Producer) : Option (List Producer) :=
  match w with
  | some j =>
    match ps[j]? with
    | none => none
    | some q => if waitsOn k q then some (ps.set j { q with pc := PLoc.wokenAtom }) else none
  | none => if ps.any (waitsOn k) then none else some ps

/-- The effect of `broadcastSignal(FINISHED)` (`pthread_cond_broadcast`) on the
producers: every producer blocked in `WAIT(FINISHED)` is woken. -/
def broadcastSignal (ps : List Producer) : List Producer := ps.map wakeFin

/-- One statement of the body of `require(atom, amount)` (lines 137-143),
executed by the assembler; `atom` and `amount` are the arguments of the call
in progress, `w` the producer woken when the statement is a signal. -/
def require (w : Option Nat) (s : State) : Option State :=
  let a := s.main
  match a.pc with
  | ALoc.rLock =>
    if s.mutex (Mx.atom a.atom) = none then
      some { s with
        mutex := setMutex s.mutex (Mx.atom a.atom) (some Tid.main)
        main := { a with pc := ALoc.rSet } }
    else none
  | ALoc.rSet =>
    some { s with
      required := setRequired s.required a.atom a.amount
      main := { a with pc := ALoc.rLoop }
      trace := Event.require a.atom a.amount :: s.trace }
  | ALoc.rLoop =>
    match intDec a.amount with
    | none => none
    | some n =>
      if a.amount = 0 then
        some { s with main := { a with pc := ALoc.rUnlock, amount := n } }
      else
        match sendSignal a.atom w s.producers with
        | none => none
        | some ps =>
          some { s with
            main := { a with amount := n }
            producers := ps
            trace := Event.signal a.atom w :: s.trace }
  | ALoc.rUnlock =>
    some { s with
      mutex := setMutex s.mutex (Mx.atom a.atom) none
      main := { a with pc := a.ret } }
  | _ => none

/-- One statement of the body of `gather(atom)` (lines 130-133), executed by
the assembler; `none` while it is blocked. -/
def gather (s : State) : Option State :=
  let a := s.main
  match a.pc with
  | ALoc.gLock =>
    if s.mutex (Mx.atom a.atom) = none then
      some { s with
        mutex := setMutex s.mutex (Mx.atom a.atom) (some Tid.main)
        main := { a with pc := ALoc.gCheck } }
    else none
  | ALoc.gCheck =>
    if s.required a.atom = 0 then
      some { s with main := { a with pc := ALoc.gUnlock } }
    else
      some { s with
        mutex := setMutex s.mutex (Mx.atom a.atom) none
        main := { a with pc := ALoc.gWait } }
  | ALoc.gWoken =>
    if s.mutex (Mx.atom a.atom) = none then
      some { s with
        mutex := setMutex s.mutex (Mx.atom a.atom) (some Tid.main)
        main := { a with pc := ALoc.gCheck } }
    else none
  | ALoc.gUnlock =>
    some { s with
      mutex := setMutex s.mutex (Mx.atom a.atom) none
      main := { a with pc := a.ret } }
  | _ => none

/-- One statement of the assembler: a statement of the loop of `main` (lines
151-161), or of the call of `require` or `gather` in progress. -/
def main (w : Option Nat) (s : State) : Option State :=
  let a := s.main
  match a.pc with
  | ALoc.call151 =>
    some { s with main := { pc := ALoc.rLock, atom := Atom.HYDROGEN, amount := 2, ret := ALoc.call152 } }
  | ALoc.call152 =>
    some { s with main := { pc := ALoc.rLock, atom := Atom.OXYGEN, amount := 1, ret := ALoc.call154 } }
  | ALoc.call154 =>
    some { s with main := { a with pc := ALoc.gLock, atom := Atom.HYDROGEN, ret := ALoc.call155 } }
  | ALoc.call155 =>
    some { s with main := { a with pc := ALoc.gLock, atom := Atom.OXYGEN, ret := ALoc.fLock } }
  | ALoc.rLock | ALoc.rSet | ALoc.rLoop | ALoc.rUnlock => require w s
  | ALoc.gLock | ALoc.gCheck | ALoc.gWait | ALoc.gWoken | ALoc.gUnlock => gather s
  | ALoc.fLock =>
    if s.mutex Mx.FINISHED = none then
      some { s with
        mutex := setMutex s.mutex Mx.FINISHED (some Tid.main)
        main := { a with pc := ALoc.fInc } }
    else none
  | ALoc.fInc =>
    match intInc s.count with
    | none => none
    | some c =>
      some { s with
        count := c
        main := { a with pc := ALoc.fBcast }
        trace := Event.finalize :: s.trace }
  | ALoc.fBcast =>
    some { s with
      main := { a with pc := ALoc.fUnlock }
      producers := broadcastSignal s.producers
      trace := Event.broadcast :: s.trace }
  | ALoc.fUnlock =>
    some { s with
      mutex := setMutex s.mutex Mx.FINISHED none
      main := { a with pc := ALoc.call151 } }

/-- A wake-up of thread `t` out of `pthread_cond_wait` without a signal. -/
def spuriousWakeup (t : Tid) (s : State) : Option State :=
  match t with
  | Tid.main =>
    if s.main.pc = ALoc.gWait then some { s with main := { s.main with pc := ALoc.gWoken } }
    else none
  | Tid.producer i =>
    match s.producers[i]? with
    | none => none
    | some p =>
      match p.pc with
      | PLoc.waitAtom =>
        some { s with producers := s.producers.set i { p with pc := PLoc.wokenAtom } }
      | PLoc.waitFin =>
        some { s with producers := s.producers.set i { p with pc := PLoc.wokenFin } }
      | _ => none

/-! ## The system -/

/-- One step of the system under scheduler choice `l`; `none` when the chosen
thread cannot move (blocked, or the statement is undefined). -/
def step (l : Label) (s : State) : Option State :=
  match l with
  | Label.main w => main w s
  | Label.producer i => produceAtoms i s
  | Label.spurious t => spuriousWakeup t s

/-- Execution of a schedule. -/
def run : List Label → State → Option State
  | [], s => some s
  | l :: ls, s =>
    match step l s with
    | none => none
    | some t => run ls t

/-- The state when `main` enters its loop: `startProducers` has created `nH`
hydrogen producers and `nO` oxygen producers, the globals `required` and
`count` are zero, no mutex is held. -/
def init (nH nO : Nat) : State :=
  { required := fun _ => 0
    count := 0
    mutex := fun _ => none
    main := { pc := ALoc.call151, atom := Atom.HYDROGEN, amount := 0, ret := ALoc.call151 }
    producers :=
      List.replicate nH { atom := Atom.HYDROGEN, pc := PLoc.produce, currentCount := 0 } ++
      List.replicate nO { atom := Atom.OXYGEN, pc := PLoc.produce, currentCount := 0 }
    trace := [] }

/-- The states the system with `nH` hydrogen and `nO` oxygen producers can be in. -/
def Reachable (nH nO : Nat) (s : State) : Prop :=
  ∃ ls, run ls (init nH nO) = some s


/-! ## Invariant vocabulary -/

/-- The amounts `main` passes to `require`: `require(HYDROGEN, 2)` (line 151)
and `require(OXYGEN, 1)` (line 152). -/
def recipe : Atom → Int
  | Atom.HYDROGEN => 2
  | Atom.OXYGEN => 1

/-- The mutex a producer holds according to its location: `mutex[atom]` from
line 59 to line 71 (not while blocked in `WAIT`), `mutex[FINISHED]` at lines
75-76 (not while blocked in `WAIT`). -/
def holdsP (p : Producer) : Option Mx :=
  match p.pc with
  | PLoc.checkReq | PLoc.decr | PLoc.snap | PLoc.checkLast | PLoc.unlockAtom => some (Mx.atom p.atom)
  | PLoc.checkFin | PLoc.unlockFin => some Mx.FINISHED
  | _ => none

/-- The mutex the assembler holds according to its location. -/
def holdsA (a : Assembler) : Option Mx :=
  match a.pc with
  | ALoc.rSet | ALoc.rLoop | ALoc.rUnlock | ALoc.gCheck | ALoc.gUnlock => some (Mx.atom a.atom)
  | ALoc.fInc | ALoc.fBcast | ALoc.fUnlock => some Mx.FINISHED
  | _ => none

/-- The mutex thread `t` holds according to its location. -/
def held (s : State) (t : Tid) : Option Mx :=
  match t with
  | Tid.main => holdsA s.main
  | Tid.producer i =>
    match s.producers[i]? with
    | none => none
    | some p => holdsP p

/-- Sum of a per-producer quantity over the producer table. -/
def total (f : Producer → Nat) : List Producer → Nat
  | [] => 0
  | p :: ps => f p + total f ps

/-- Locations after the snapshot of `count` and before leaving the
`FINISHED` loop (lines 70-75). -/
def PLoc.afterSnap : PLoc → Bool
  | PLoc.checkLast | PLoc.unlockAtom | PLoc.lockFin | PLoc.checkFin | PLoc.waitFin
  | PLoc.wokenFin => true
  | _ => false

/-- Locations between passing the test of line 59 and `unlock(atom)`. -/
def PLoc.busy : PLoc → Bool
  | PLoc.decr | PLoc.snap | PLoc.checkLast | PLoc.unlockAtom => true
  | _ => false

/-- Producer `p` has delivered an atom into the cycle numbered `c`: it has
decremented `required` and its snapshot, once taken, is `c`. -/
def hasDelivered (c : Int) (p : Producer) : Bool :=
  decide (p.pc = PLoc.snap) || (p.pc.afterSnap && decide (p.currentCount = c))

/-- Indicator: producer of kind `k`. -/
def isKind (k : Atom) (p : Producer) : Nat := if p.atom = k then 1 else 0

/-- Indicator: producer of kind `k` blocked in `WAIT(k)`. -/
def waiting (k : Atom) (p : Producer) : Nat := if waitsOn k p then 1 else 0

/-- Indicator: producer of kind `k` that has delivered into cycle `c`. -/
def delivered (k : Atom) (c : Int) (p : Producer) : Nat :=
  if p.atom = k ∧ hasDelivered c p then 1 else 0

/-- Indicator: producer of kind `k` that is neither blocked in `WAIT(k)` nor
has delivered into cycle `c`; it will reach the test of line 59 on its own. -/
def active (k : Atom) (c : Int) (p : Producer) : Nat :=
  if p.atom = k ∧ p.pc ≠ PLoc.waitAtom ∧ ¬ hasDelivered c p then 1 else 0

/-- Indicator: producer of kind `k` between its decrement and line 70. -/
def signalling (k : Atom) (p : Producer) : Nat :=
  if p.atom = k ∧ (p.pc = PLoc.snap ∨ p.pc = PLoc.checkLast) then 1 else 0

/-- Position of the assembler in the cycle of `main`, in program order. -/
def pos (a : Assembler) : Nat :=
  match a.pc, a.atom with
  | ALoc.call151, _ => 0
  | ALoc.rLock, Atom.HYDROGEN => 1
  | ALoc.rSet, Atom.HYDROGEN => 2
  | ALoc.rLoop, Atom.HYDROGEN => 3
  | ALoc.rUnlock, Atom.HYDROGEN => 4
  | ALoc.call152, _ => 5
  | ALoc.rLock, Atom.OXYGEN => 6
  | ALoc.rSet, Atom.OXYGEN => 7
  | ALoc.rLoop, Atom.OXYGEN => 8
  | ALoc.rUnlock, Atom.OXYGEN => 9
  | ALoc.call154, _ => 10
  | ALoc.gLock, Atom.HYDROGEN => 11
  | ALoc.gCheck, Atom.HYDROGEN => 12
  | ALoc.gWait, Atom.HYDROGEN => 12
  | ALoc.gWoken, Atom.HYDROGEN => 12
  | ALoc.gUnlock, Atom.HYDROGEN => 13
  | ALoc.call155, _ => 14
  | ALoc.gLock, Atom.OXYGEN => 15
  | ALoc.gCheck, Atom.OXYGEN => 16
  | ALoc.gWait, Atom.OXYGEN => 16
  | ALoc.gWoken, Atom.OXYGEN => 16
  | ALoc.gUnlock, Atom.OXYGEN => 17
  | ALoc.fLock, _ => 18
  | ALoc.fInc, _ => 19
  | ALoc.fBcast, _ => 20
  | ALoc.fUnlock, _ => 21

/-- The assembler has executed `required[k] = recipe k` in the current cycle
and has not yet executed `++count`. -/
def demanded (k : Atom) (a : Assembler) : Bool :=
  match k with
  | Atom.HYDROGEN => decide (3 ≤ pos a ∧ pos a ≤ 19)
  | Atom.OXYGEN => decide (8 ≤ pos a ∧ pos a ≤ 19)

/-- The assembler is between the successful test of `gather(k)` and its next
`required[k] = amount`. -/
def idle (k : Atom) (a : Assembler) : Bool :=
  match k with
  | Atom.HYDROGEN => decide (13 ≤ pos a ∨ pos a ≤ 2)
  | Atom.OXYGEN => decide (17 ≤ pos a ∨ pos a ≤ 7)

/-- The number of units of kind `k` the current cycle has asked for so far. -/
def target (k : Atom) (a : Assembler) : Int := if demanded k a then recipe k else 0

/-- The signals on condition `k` the assembler is still going to send in the
`require` in progress. -/
def pending (k : Atom) (a : Assembler) : Int :=
  if a.pc = ALoc.rLoop ∧ a.atom = k then a.amount else 0

/-- The arguments and return location of the call in progress are those of
the call sites in `main`. -/
def argsOK (a : Assembler) : Prop :=
  match a.pc with
  | ALoc.rLock | ALoc.rSet =>
    (a.atom = Atom.HYDROGEN ∧ a.amount = 2 ∧ a.ret = ALoc.call152) ∨
    (a.atom = Atom.OXYGEN ∧ a.amount = 1 ∧ a.ret = ALoc.call154)
  | ALoc.rLoop =>
    (a.atom = Atom.HYDROGEN ∧ 0 ≤ a.amount ∧ a.amount ≤ 2 ∧ a.ret = ALoc.call152) ∨
    (a.atom = Atom.OXYGEN ∧ 0 ≤ a.amount ∧ a.amount ≤ 1 ∧ a.ret = ALoc.call154)
  | ALoc.rUnlock =>
    (a.atom = Atom.HYDROGEN ∧ a.ret = ALoc.call152) ∨
    (a.atom = Atom.OXYGEN ∧ a.ret = ALoc.call154)
  | ALoc.gLock | ALoc.gCheck | ALoc.gWait | ALoc.gWoken | ALoc.gUnlock =>
    (a.atom = Atom.HYDROGEN ∧ a.ret = ALoc.call155) ∨
    (a.atom = Atom.OXYGEN ∧ a.ret = ALoc.fLock)
  | _ => True

/-- The inductive invariant of the system with `nH` hydrogen and `nO` oxygen
producers. -/
structure Inv (nH nO : Nat) (s : State) : Prop where
  /-- a mutex is owned by exactly the thread whose location is inside the
  corresponding critical section. -/
  owner : ∀ m t, s.mutex m = some t ↔ held s t = some m
  args : argsOK s.main
  count_range : 0 ≤ s.count ∧ s.count ≤ INT_MAX
  req_nonneg : ∀ k, 0 ≤ s.required k
  decr_pos : ∀ (i : Nat) (p : Producer), s.producers[i]? = some p → p.pc = PLoc.decr → 1 ≤ s.required p.atom
  zero : ∀ k, idle k s.main = true → s.required k = 0
  quiet : ∀ k, idle k s.main = true → ∀ (i : Nat) (p : Producer), s.producers[i]? = some p → p.atom = k →
    p.pc.busy = false
  snap_eq : ∀ (i : Nat) (p : Producer), s.producers[i]? = some p → p.pc = PLoc.checkLast ∨ p.pc = PLoc.unlockAtom →
    p.currentCount = s.count
  snap_le : ∀ (i : Nat) (p : Producer), s.producers[i]? = some p → p.pc.afterSnap = true → p.currentCount ≤ s.count
  wait_eq : ∀ (i : Nat) (p : Producer), s.producers[i]? = some p → p.pc = PLoc.waitFin →
    p.currentCount = if s.main.pc = ALoc.fBcast then s.count - 1 else s.count
  deliv : ∀ k, (total (delivered k s.count) s.producers : Int) + s.required k = target k s.main
  wake : ∀ k, total (waiting k) s.producers = 0 ∨
    s.required k ≤ (total (active k s.count) s.producers : Int) + pending k s.main
  ready : s.main.pc = ALoc.gWait → s.required s.main.atom = 0 →
    1 ≤ total (signalling s.main.atom) s.producers
  kinds : total (isKind Atom.HYDROGEN) s.producers = nH ∧
    total (isKind Atom.OXYGEN) s.producers = nO


/-- The transitions of `step`, one rule per statement and outcome: `Trans l s t`
holds exactly when `step l s = some t` (see `trans_of_step`, `step_of_trans`). -/
inductive Trans : Label → State → State → Prop where
  | call151 {w req c mu k n r ps tr} :
    Trans (Label.main w) ⟨req, c, mu, ⟨ALoc.call151, k, n, r⟩, ps, tr⟩
      ⟨req, c, mu, ⟨ALoc.rLock, Atom.HYDROGEN, 2, ALoc.call152⟩, ps, tr⟩
  | call152 {w req c mu k n r ps tr} :
    Trans (Label.main w) ⟨req, c, mu, ⟨ALoc.call152, k, n, r⟩, ps, tr⟩
      ⟨req, c, mu, ⟨ALoc.rLock, Atom.OXYGEN, 1, ALoc.call154⟩, ps, tr⟩
  | call154 {w req c mu k n r ps tr} :
    Trans (Label.main w) ⟨req, c, mu, ⟨ALoc.call154, k, n, r⟩, ps, tr⟩
      ⟨req, c, mu, ⟨ALoc.gLock, Atom.HYDROGEN, n, ALoc.call155⟩, ps, tr⟩
  | call155 {w req c mu k n r ps tr} :
    Trans (Label.main w) ⟨req, c, mu, ⟨ALoc.call155, k, n, r⟩, ps, tr⟩
      ⟨req, c, mu, ⟨ALoc.gLock, Atom.OXYGEN, n, ALoc.fLock⟩, ps, tr⟩
  | rLock {w req c mu k n r ps tr} (hfree : mu (Mx.atom k) = none) :
    Trans (Label.main w) ⟨req, c, mu, ⟨ALoc.rLock, k, n, r⟩, ps, tr⟩
      ⟨req, c, setMutex mu (Mx.atom k) (some Tid.main), ⟨ALoc.rSet, k, n, r⟩, ps, tr⟩
  | rSet {w req c mu k n r ps tr} :
    Trans (Label.main w) ⟨req, c, mu, ⟨ALoc.rSet, k, n, r⟩, ps, tr⟩
      ⟨setRequired req k n, c, mu, ⟨ALoc.rLoop, k, n, r⟩, ps, Event.require k n :: tr⟩
  | rLoopExit {w req c mu k r ps tr} :
    Trans (Label.main w) ⟨req, c, mu, ⟨ALoc.rLoop, k, 0, r⟩, ps, tr⟩
      ⟨req, c, mu, ⟨ALoc.rUnlock, k, -1, r⟩, ps, tr⟩
  | rLoopWake {req c mu k n r ps tr j q} (hn : n ≠ 0) (hmin : INT_MIN < n)
      (hq : ps[j]? = some q) (hpc : q.pc = PLoc.waitAtom) (hk : q.atom = k) :
    Trans (Label.main (some j)) ⟨req, c, mu, ⟨ALoc.rLoop, k, n, r⟩, ps, tr⟩
      ⟨req, c, mu, ⟨ALoc.rLoop, k, n - 1, r⟩, ps.set j { q with pc := PLoc.wokenAtom },
        Event.signal k (some j) :: tr⟩
  | rLoopMiss {req c mu k n r ps tr} (hn : n ≠ 0) (hmin : INT_MIN < n)
      (hnone : ps.any (waitsOn k) = false) :
    Trans (Label.main none) ⟨req, c, mu, ⟨ALoc.rLoop, k, n, r⟩, ps, tr⟩
      ⟨req, c, mu, ⟨ALoc.rLoop, k, n - 1, r⟩, ps, Event.signal k none :: tr⟩
  | rUnlock {w req c mu k n r ps tr} :
    Trans (Label.main w) ⟨req, c, mu, ⟨ALoc.rUnlock, k, n, r⟩, ps, tr⟩
      ⟨req, c, setMutex mu (Mx.atom k) none, ⟨r, k, n, r⟩, ps, tr⟩
  | gLock {w req c mu k n r ps tr} (hfree : mu (Mx.atom k) = none) :
    Trans (Label.main w) ⟨req, c, mu, ⟨ALoc.gLock, k, n, r⟩, ps, tr⟩
      ⟨req, c, setMutex mu (Mx.atom k) (some Tid.main), ⟨ALoc.gCheck, k, n, r⟩, ps, tr⟩
  | gCheckPass {w req c mu k n r ps tr} (hz : req k = 0) :
    Trans (Label.main w) ⟨req, c, mu, ⟨ALoc.gCheck, k, n, r⟩, ps, tr⟩
      ⟨req, c, mu, ⟨ALoc.gUnlock, k, n, r⟩, ps, tr⟩
  | gCheckWait {w req c mu k n r ps tr} (hz : req k ≠ 0) :
    Trans (Label.main w) ⟨req, c, mu, ⟨ALoc.gCheck, k, n, r⟩, ps, tr⟩
      ⟨req, c, setMutex mu (Mx.atom k) none, ⟨ALoc.gWait, k, n, r⟩, ps, tr⟩
  | gWoken {w req c mu k n r ps tr} (hfree : mu (Mx.atom k) = none) :
    Trans (Label.main w) ⟨req, c, mu, ⟨ALoc.gWoken, k, n, r⟩, ps, tr⟩
      ⟨req, c, setMutex mu (Mx.atom k) (some Tid.main), ⟨ALoc.gCheck, k, n, r⟩, ps, tr⟩
  | gUnlock {w req c mu k n r ps tr} :
    Trans (Label.main w) ⟨req, c, mu, ⟨ALoc.gUnlock, k, n, r⟩, ps, tr⟩
      ⟨req, c, setMutex mu (Mx.atom k) none, ⟨r, k, n, r⟩, ps, tr⟩
  | fLock {w req c mu k n r ps tr} (hfree : mu Mx.FINISHED = none) :
    Trans (Label.main w) ⟨req, c, mu, ⟨ALoc.fLock, k, n, r⟩, ps, tr⟩
      ⟨req, c, setMutex mu Mx.FINISHED (some Tid.main), ⟨ALoc.fInc, k, n, r⟩, ps, tr⟩
  | fInc {w req c mu k n r ps tr} (hmax : c < INT_MAX) :
    Trans (Label.main w) ⟨req, c, mu, ⟨ALoc.fInc, k, n, r⟩, ps, tr⟩
      ⟨req, c + 1, mu, ⟨ALoc.fBcast, k, n, r⟩, ps, Event.finalize :: tr⟩
  | fBcast {w req c mu k n r ps tr} :
    Trans (Label.main w) ⟨req, c, mu, ⟨ALoc.fBcast, k, n, r⟩, ps, tr⟩
      ⟨req, c, mu, ⟨ALoc.fUnlock, k, n, r⟩, ps.map wakeFin, Event.broadcast :: tr⟩
  | fUnlock {w req c mu k n r ps tr} :
    Trans (Label.main w) ⟨req, c, mu, ⟨ALoc.fUnlock, k, n, r⟩, ps, tr⟩
      ⟨req, c, setMutex mu Mx.FINISHED none, ⟨ALoc.call151, k, n, r⟩, ps, tr⟩
  | produce {req c mu a ps tr i k x} (hp : ps[i]? = some ⟨k, PLoc.produce, x⟩) :
    Trans (Label.producer i) ⟨req, c, mu, a, ps, tr⟩
      ⟨req, c, mu, a, ps.set i ⟨k, PLoc.lockAtom, x⟩, tr⟩
  | lockAtom {req c mu a ps tr i k x} (hp : ps[i]? = some ⟨k, PLoc.lockAtom, x⟩)
      (hfree : mu (Mx.atom k) = none) :
    Trans (Label.producer i) ⟨req, c, mu, a, ps, tr⟩
      ⟨req, c, setMutex mu (Mx.atom k) (some (Tid.producer i)), a,
        ps.set i ⟨k, PLoc.checkReq, x⟩, tr⟩
  | checkReqWait {req c mu a ps tr i k x} (hp : ps[i]? = some ⟨k, PLoc.checkReq, x⟩)
      (hz : req k = 0) :
    Trans (Label.producer i) ⟨req, c, mu, a, ps, tr⟩
      ⟨req, c, setMutex mu (Mx.atom k) none, a, ps.set i ⟨k, PLoc.waitAtom, x⟩, tr⟩
  | checkReqPass {req c mu a ps tr i k x} (hp : ps[i]? = some ⟨k, PLoc.checkReq, x⟩)
      (hz : req k ≠ 0) :
    Trans (Label.producer i) ⟨req, c, mu, a, ps, tr⟩
      ⟨req, c, mu, a, ps.set i ⟨k, PLoc.decr, x⟩, tr⟩
  | wokenAtom {req c mu a ps tr i k x} (hp : ps[i]? = some ⟨k, PLoc.wokenAtom, x⟩)
      (hfree : mu (Mx.atom k) = none) :
    Trans (Label.producer i) ⟨req, c, mu, a, ps, tr⟩
      ⟨req, c, setMutex mu (Mx.atom k) (some (Tid.producer i)), a,
        ps.set i ⟨k, PLoc.checkReq, x⟩, tr⟩
  | decr {req c mu a ps tr i k x} (hp : ps[i]? = some ⟨k, PLoc.decr, x⟩)
      (hmin : INT_MIN < req k) :
    Trans (Label.producer i) ⟨req, c, mu, a, ps, tr⟩
      ⟨setRequired req k (req k - 1), c, mu, a, ps.set i ⟨k, PLoc.snap, x⟩,
        Event.deliver i k :: tr⟩
  | snap {req c mu a ps tr i k x} (hp : ps[i]? = some ⟨k, PLoc.snap, x⟩) :
    Trans (Label.producer i) ⟨req, c, mu, a, ps, tr⟩
      ⟨req, c, mu, a, ps.set i ⟨k, PLoc.checkLast, c⟩, tr⟩
  | checkLastSignal {req c mu a ps tr i k x} (hp : ps[i]? = some ⟨k, PLoc.checkLast, x⟩)
      (hz : req k = 0) :
    Trans (Label.producer i) ⟨req, c, mu, a, ps, tr⟩
      ⟨req, c, mu, wakeMain a, ps.set i ⟨k, PLoc.unlockAtom, x⟩, Event.ready i k :: tr⟩
  | checkLastSkip {req c mu a ps tr i k x} (hp : ps[i]? = some ⟨k, PLoc.checkLast, x⟩)
      (hz : req k ≠ 0) :
    Trans (Label.producer i) ⟨req, c, mu, a, ps, tr⟩
      ⟨req, c, mu, a, ps.set i ⟨k, PLoc.unlockAtom, x⟩, tr⟩
  | unlockAtom {req c mu a ps tr i k x} (hp : ps[i]? = some ⟨k, PLoc.unlockAtom, x⟩) :
    Trans (Label.producer i) ⟨req, c, mu, a, ps, tr⟩
      ⟨req, c, setMutex mu (Mx.atom k) none, a, ps.set i ⟨k, PLoc.lockFin, x⟩, tr⟩
  | lockFin {req c mu a ps tr i k x} (hp : ps[i]? = some ⟨k, PLoc.lockFin, x⟩)
      (hfree : mu Mx.FINISHED = none) :
    Trans (Label.producer i) ⟨req, c, mu, a, ps, tr⟩
      ⟨req, c, setMutex mu Mx.FINISHED (some (Tid.producer i)), a,
        ps.set i ⟨k, PLoc.checkFin, x⟩, tr⟩
  | checkFinWait {req c mu a ps tr i k x} (hp : ps[i]? = some ⟨k, PLoc.checkFin, x⟩)
      (heq : x = c) :
    Trans (Label.producer i) ⟨req, c, mu, a, ps, tr⟩
      ⟨req, c, setMutex mu Mx.FINISHED none, a, ps.set i ⟨k, PLoc.waitFin, x⟩, tr⟩
  | checkFinPass {req c mu a ps tr i k x} (hp : ps[i]? = some ⟨k, PLoc.checkFin, x⟩)
      (hne : x ≠ c) :
    Trans (Label.producer i) ⟨req, c, mu, a, ps, tr⟩
      ⟨req, c, mu, a, ps.set i ⟨k, PLoc.unlockFin, x⟩, tr⟩
  | wokenFin {req c mu a ps tr i k x} (hp : ps[i]? = some ⟨k, PLoc.wokenFin, x⟩)
      (hfree : mu Mx.FINISHED = none) :
    Trans (Label.producer i) ⟨req, c, mu, a, ps, tr⟩
      ⟨req, c, setMutex mu Mx.FINISHED (some (Tid.producer i)), a,
        ps.set i ⟨k, PLoc.checkFin, x⟩, tr⟩
  | unlockFin {req c mu a ps tr i k x} (hp : ps[i]? = some ⟨k, PLoc.unlockFin, x⟩) :
    Trans (Label.producer i) ⟨req, c, mu, a, ps, tr⟩
      ⟨req, c, setMutex mu Mx.FINISHED none, a, ps.set i ⟨k, PLoc.produce, x⟩, tr⟩
  | spuriousMain {req c mu k n r ps tr} :
    Trans (Label.spurious Tid.main) ⟨req, c, mu, ⟨ALoc.gWait, k, n, r⟩, ps, tr⟩
      ⟨req, c, mu, ⟨ALoc.gWoken, k, n, r⟩, ps, tr⟩
  | spuriousAtom {req c mu a ps tr i k x} (hp : ps[i]? = some ⟨k, PLoc.waitAtom, x⟩) :
    Trans (Label.spurious (Tid.producer i)) ⟨req, c, mu, a, ps, tr⟩
      ⟨req, c, mu, a, ps.set i ⟨k, PLoc.wokenAtom, x⟩, tr⟩
  | spuriousFin {req c mu a ps tr i k x} (hp : ps[i]? = some ⟨k, PLoc.waitFin, x⟩) :
    Trans (Label.spurious (Tid.producer i)) ⟨req, c, mu, a, ps, tr⟩
      ⟨req, c, mu, a, ps.set i ⟨k, PLoc.wokenFin, x⟩, tr⟩


/-! ## Progress vocabulary -/

/-- A step of the program itself, as opposed to a spurious wake-up. -/
def Label.proper : Label → Bool
  | Label.spurious _ => false
  | _ => true

/-- Bound on the number of statements producer `p` can still execute before
it blocks, as long as `count` stays `c` and nobody wakes it. -/
def rankP (c : Int) (p : Producer) : Nat :=
  match p.pc with
  | PLoc.waitAtom => 0
  | PLoc.unlockAtom => 3
  | PLoc.checkLast => 6
  | PLoc.snap => 7
  | PLoc.decr => 8
  | PLoc.checkReq => 9
  | PLoc.lockAtom => 10
  | PLoc.wokenAtom => 10
  | PLoc.produce => 11
  | PLoc.unlockFin => 12
  | PLoc.checkFin => if p.currentCount = c then 1 else 13
  | PLoc.lockFin => if p.currentCount = c then 2 else 14
  | PLoc.wokenFin => if p.currentCount = c then 2 else 14
  | PLoc.waitFin => if p.currentCount = c then 0 else 15

/-- Refinement of `pos` inside the loop of `gather`. -/
def ALoc.sub : ALoc → Nat
  | ALoc.gWoken => 2
  | ALoc.gCheck => 1
  | _ => 0

/-- The `sendSignal(atom)` calls the assembler will still execute before the
next `++count`. -/
def signalsLeft (a : Assembler) : Nat :=
  (if pos a ≤ 2 ∨ 20 ≤ pos a then 2 else if pos a = 3 then a.amount.toNat else 0) +
  (if pos a ≤ 7 ∨ 20 ≤ pos a then 1 else if pos a = 8 then a.amount.toNat else 0)

/-- Bound on the number of statements the assembler can still execute before
the next `++count`, counting 11 for each signal it will send (the signal lets
one producer run again). -/
def rankA (a : Assembler) : Nat :=
  3 * (21 - (pos a + 2) % 22) + a.pc.sub + 11 * signalsLeft a

/-- The variant: a bound on the number of program steps before the next
`++count`. -/
def variant (s : State) : Nat := rankA s.main + total (rankP s.count) s.producers

/-- `Inev P b s`: on every execution from `s` in which at most `b` spurious
wake-ups occur, whatever the scheduler does, a state satisfying `P` is reached
after finitely many steps, and no thread of the program is stuck before. -/
inductive Inev (P : State → Prop) : Nat → State → Prop where
  | now {b : Nat} {s : State} (h : P s) : Inev P b s
  | later {b : Nat} {s : State} (hex : ∃ l t, Label.proper l = true ∧ step l s = some t)
      (hall : ∀ l t, Label.proper l = true → step l s = some t → Inev P b t)
      (hsp : ∀ c u t, b = c + 1 → step (Label.spurious u) s = some t → Inev P c t) :
      Inev P b s

/-! ## Scheduling -/

/-- The thread that executes a program step; a spurious wake-up is an event
of the environment, not a statement of a thread. -/
def Label.thread : Label → Option Tid
  | Label.main _ => some Tid.main
  | Label.producer i => some (Tid.producer i)
  | Label.spurious _ => none

/-- Thread `u` can execute its next statement in state `s`. -/
def enabled (u : Tid) (s : State) : Prop := ∃ l t, Label.thread l = some u ∧ step l s = some t

/-- The execution of the system under the infinite schedule `σ`, from `s`: in
slot `k` the scheduler picks `σ k`; a pick that cannot move (a blocked thread,
a wake-up of a thread that is not waiting) leaves the state as it is. -/
def exec (σ : Nat → Label) (s : State) : Nat → State
  | 0 => s
  | k + 1 => (step (σ k) (exec σ s k)).getD (exec σ s k)

/-- Thread `u` executes a statement in slot `k` of the execution. -/
def runsAt (σ : Nat → Label) (s : State) (u : Tid) (k : Nat) : Prop :=
  Label.thread (σ k) = some u ∧ ∃ t, step (σ k) (exec σ s k) = some t

/-- Fair scheduling: every thread that is enabled again and again is run again
and again.  Nothing is assumed of the spurious wake-ups: there may be none, or
infinitely many. -/
def Fair (σ : Nat → Label) (s : State) : Prop :=
  ∀ u : Tid, (∀ k, ∃ j, k ≤ j ∧ enabled u (exec σ s j)) → ∀ k, ∃ j, k ≤ j ∧ runsAt σ s u j

/-- Distance of producer `p` from the end of its contribution to cycle `c`,
constant around its two waiting loops (test, wait, wake-up, re-lock). -/
def rankQ (c : Int) (p : Producer) : Nat :=
  match p.pc with
  | PLoc.produce => 11
  | PLoc.lockAtom => 10
  | PLoc.checkReq => 9
  | PLoc.waitAtom => 9
  | PLoc.wokenAtom => 9
  | PLoc.decr => 8
  | PLoc.snap => 7
  | PLoc.checkLast => 6
  | PLoc.unlockAtom => 5
  | PLoc.lockFin => if p.currentCount = c then 4 else 15
  | PLoc.checkFin => if p.currentCount = c then 3 else 14
  | PLoc.waitFin => if p.currentCount = c then 3 else 16
  | PLoc.wokenFin => if p.currentCount = c then 3 else 15
  | PLoc.unlockFin => 12

/-- Distance of the assembler from its next `++count`, constant around the
waiting loop of `gather`. -/
def rankB (a : Assembler) : Nat :=
  3 * (21 - (pos a + 2) % 22) + (if a.pc = ALoc.rLoop then a.amount.toNat else 0)

/-- The potential of a state: it never grows while `count` stays the same, and
it drops with every step that is not a turn of a waiting loop. -/
def potential (s : State) : Nat := rankB s.main + total (rankQ s.count) s.producers

/-- Whether label `l` picks, in state `s`, a turn of a waiting loop: a spurious
wake-up, the re-lock after a wake-up, or a test that sends the thread to
wait. -/
def loopMove (l : Label) (s : State) : Bool :=
  match l with
  | Label.spurious _ => true
  | Label.main _ =>
    decide (s.main.pc = ALoc.gWoken) ||
      (decide (s.main.pc = ALoc.gCheck) && decide (s.required s.main.atom ≠ 0))
  | Label.producer i =>
    match s.producers[i]? with
    | none => false
    | some p =>
      decide (p.pc = PLoc.wokenAtom) ||
        (decide (p.pc = PLoc.checkReq) && decide (s.required p.atom = 0)) ||
        (decide (p.pc = PLoc.checkFin) && decide (p.currentCount = s.count)) ||
        (decide (p.pc = PLoc.wokenFin) && decide (p.currentCount = s.count))

/-- Indicator: producer blocked in `WAIT(FINISHED)`. -/
def blockedFin (p : Producer) : Nat := if p.pc = PLoc.waitFin then 1 else 0

/-! ## History measures -/

/-- Number of `++count` events in a history. -/
def finalizes : List Event → Nat
  | [] => 0
  | Event.finalize :: tr => finalizes tr + 1
  | _ :: tr => finalizes tr

/-- Whether an event is a `required[k] = amount` of `require`. -/
def Event.isRequire (k : Atom) : Event → Bool
  | Event.require k1 _ => decide (k1 = k)
  | _ => false

/-- Whether an event is a `++count`. -/
def Event.isFinalize : Event → Bool
  | Event.finalize => true
  | _ => false

/-- The events newer than the most recent `required[k] = amount`. -/
def sinceRequire (k : Atom) : List Event → List Event
  | [] => []
  | e :: tr => if e.isRequire k then [] else e :: sinceRequire k tr

/-- The events newer than the most recent `++count`: the current cycle. -/
def sinceFinalize : List Event → List Event
  | [] => []
  | e :: tr => if e.isFinalize then [] else e :: sinceFinalize tr

/-- The amount of the most recent `required[k] = amount`, if any. -/
def lastRequire (k : Atom) : List Event → Option Int
  | [] => none
  | Event.require k1 a :: tr => if k1 = k then some a else lastRequire k tr
  | _ :: tr => lastRequire k tr

/-- Number of deliveries (decrements of `required[k]`) in a history. -/
def deliveries (k : Atom) : List Event → Nat
  | [] => 0
  | Event.deliver _ k1 :: tr => (if k1 = k then 1 else 0) + deliveries k tr
  | _ :: tr => deliveries k tr

/-- Number of `sendSignal(READY)` by producers of kind `k` in a history. -/
def readies (k : Atom) : List Event → Nat
  | [] => 0
  | Event.ready _ k1 :: tr => (if k1 = k then 1 else 0) + readies k tr
  | _ :: tr => readies k tr

/-- The producers of the deliveries in a history, newest first. -/
def deliverers : List Event → List Nat
  | [] => []
  | Event.deliver i _ :: tr => i :: deliverers tr
  | _ :: tr => deliverers tr

/-- The producer of the most recent delivery of kind `k`, if any. -/
def lastDeliverer (k : Atom) : List Event → Option Nat
  | [] => none
  | Event.deliver i k1 :: tr => if k1 = k then some i else lastDeliverer k tr
  | _ :: tr => lastDeliverer k tr

/-- Number of `sendSignal(k)` in a history. -/
def signals (k : Atom) : List Event → Nat
  | [] => 0
  | Event.signal k1 _ :: tr => (if k1 = k then 1 else 0) + signals k tr
  | _ :: tr => signals k tr

/-- Number of producers woken by the `sendSignal` calls in a history. -/
def wakeups : List Event → Nat
  | [] => 0
  | Event.signal _ (some _) :: tr => wakeups tr + 1
  | _ :: tr => wakeups tr

/-- Number of broadcasts in a history. -/
def broadcasts : List Event → Nat
  | [] => 0
  | Event.broadcast :: tr => broadcasts tr + 1
  | _ :: tr => broadcasts tr

/-- Every `++count` of the history closed a cycle with exactly 2 hydrogen
deliveries and 1 oxygen delivery, made by pairwise distinct producers. -/
def cyclesOK : List Event → Prop
  | [] => True
  | e :: tr =>
    (e = Event.finalize →
      deliveries Atom.HYDROGEN (sinceFinalize tr) = 2 ∧
      deliveries Atom.OXYGEN (sinceFinalize tr) = 1 ∧
      (deliverers (sinceFinalize tr)).Nodup) ∧ cyclesOK tr

/-- At every `required[k] = amount` of the history, the previous one (if any)
had received exactly its amount of deliveries and exactly one `READY` signal,
and before the first one nothing of kind `k` had been delivered or signalled. -/
def requiresOK (k : Atom) : List Event → Prop
  | [] => True
  | e :: tr =>
    (e.isRequire k = true →
      (∀ a0, lastRequire k tr = some a0 →
        (deliveries k (sinceRequire k tr) : Int) = a0 ∧ readies k (sinceRequire k tr) = 1) ∧
      (lastRequire k tr = none → deliveries k tr = 0 ∧ readies k tr = 0)) ∧ requiresOK k tr

/-- Every `READY` signal for kind `k` in the history was sent by the producer
of the most recent delivery of kind `k`. -/
def readiesOK (k : Atom) : List Event → Prop
  | [] => True
  | e :: tr => (∀ i, e = Event.ready i k → lastDeliverer k tr = some i) ∧ readiesOK k tr

/-- The invariant linking the history of events to the state. -/
structure Hist (s : State) : Prop where
  cur : ∀ k, (deliveries k (sinceFinalize s.trace) : Int) + s.required k = target k s.main
  tot : ∀ k, (deliveries k s.trace : Int) =
    recipe k * s.count + deliveries k (sinceFinalize s.trace)
  cycles : cyclesOK s.trace
  open_req : ∀ k,
    (∀ a, lastRequire k s.trace = some a →
      a = recipe k ∧ (deliveries k (sinceRequire k s.trace) : Int) + s.required k = a) ∧
    (lastRequire k s.trace = none →
      deliveries k s.trace = 0 ∧ s.required k = 0 ∧ readies k s.trace = 0)
  closed_req : ∀ k, requiresOK k s.trace
  fresh : (deliverers (sinceFinalize s.trace)).Nodup ∧
    ∀ i, i ∈ deliverers (sinceFinalize s.trace) ↔
      ∃ p, s.producers[i]? = some p ∧ hasDelivered s.count p = true
  ready_open : ∀ k, readies k (sinceRequire k s.trace) =
    if (lastRequire k s.trace).isSome = true ∧ s.required k = 0 ∧
      total (signalling k) s.producers = 0 then 1 else 0
  ready_by : ∀ k, readiesOK k s.trace ∧
    ∀ (i : Nat) (p : Producer), s.producers[i]? = some p → p.atom = k →
      p.pc = PLoc.snap ∨ p.pc = PLoc.checkLast → lastDeliverer k s.trace = some i
  released : s.main.pc = ALoc.fBcast →
    ∀ k, (total (delivered k (s.count - 1)) s.producers : Int) = recipe k
  amounts : ∀ (k : Atom) (a : Int), Event.require k a ∈ s.trace → a = recipe k

/-! ## A sample execution -/

/-- A schedule of the system with 2 hydrogen producers (0, 1) and 1 oxygen
producer (2) that completes one cycle: producer 0 blocks in `WAIT(HYDROGEN)`,
the assembler runs both `require` calls (waking producer 0) and blocks in
`gather(HYDROGEN)`, the three producers deliver, the assembler gathers,
increments `count` and broadcasts, and producer 0 leaves the `FINISHED` loop. -/
def sampleSchedule : List Label :=
  [Label.producer 0, Label.producer 0, Label.producer 0,
   Label.main none, Label.main none, Label.main none, Label.main (some 0), Label.main none,
   Label.main none, Label.main none,
   Label.main none, Label.main none, Label.main none, Label.main none, Label.main none,
   Label.main none,
   Label.main none, Label.main none, Label.main none,
   Label.producer 0, Label.producer 0, Label.producer 0, Label.producer 0, Label.producer 0,
   Label.producer 0,
   Label.producer 1, Label.producer 1, Label.producer 1, Label.producer 1, Label.producer 1,
   Label.producer 1, Label.producer 1,
   Label.producer 2, Label.producer 2, Label.producer 2, Label.producer 2, Label.producer 2,
   Label.producer 2, Label.producer 2,
   Label.main none, Label.main none, Label.main none,
   Label.main none, Label.main none, Label.main none, Label.main none,
   Label.producer 0, Label.producer 0,
   Label.main none, Label.main none, Label.main none, Label.main none,
   Label.producer 0, Label.producer 0, Label.producer 0]

/-- The state of the 2 + 1 system after the first `n` steps of `sampleSchedule`. -/
def sampleState (n : Nat) : State :=
  (run (sampleSchedule.take n) (init 2 1)).getD (init 2 1)

/-- From slot `k0` on, every step of the execution is a turn of a waiting
loop. -/
def quietFrom (σ : Nat → Label) (s : State) (k0 : Nat) : Prop :=
  ∀ j, k0 ≤ j → ∀ t, step (σ j) (exec σ s j) = some t → loopMove (σ j) (exec σ s j) = true

/-- The round-robin schedule of a system with `N` producers: in turn the
assembler (waking nobody, or producer `0`, ..., `N - 1`, whichever its
statement allows) and producers `0`, ..., `N - 1`; no spurious wake-up. -/
def roundRobin (N : Nat) (k : Nat) : Label :=
  let r := k % (2 * N + 1)
  if r = 0 then Label.main none
  else if r ≤ N then Label.main (some (r - 1))
  else Label.producer (r - N - 1)

/-- A state of contention: the system with 2 hydrogen and 2 oxygen producers
after the first 43 steps of `sampleSchedule` and two steps of the second
oxygen producer (3), which has locked `mutex[OXYGEN]` for its test of
line 59. -/
def contendedState : State :=
  (run (sampleSchedule.take 43 ++ [Label.producer 3, Label.producer 3]) (init 2 2)).getD
    (init 2 2)

/-! ## Sums over the producer table -/

theorem total_set (f : Producer → Nat) :
    ∀ (ps : List Producer) (i : Nat) (p q : Producer), ps[i]? = some p →
      total f (ps.set i q) + f p = total f ps + f q
  | [], i, p, q, h => by simp at h
  | x :: xs, 0, p, q, h => by
    simp at h
    subst h
    simp [total, List.set]
    omega
  | x :: xs, i + 1, p, q, h => by
    simp at h
    have ih := total_set f xs i p q h
    simp [total, List.set]
    omega

theorem le_total (f : Producer → Nat) {ps : List Producer} {i : Nat} {p : Producer}
    (hp : ps[i]? = some p) : f p ≤ total f ps := by
  have := total_set f ps i p p hp
  induction ps generalizing i with
  | nil => simp at hp
  | cons x xs ih =>
    cases i with
    | zero =>
      simp at hp
      subst hp
      simp [total]
    | succ i =>
      simp at hp
      have := ih hp (total_set f xs i p p hp)
      simp [total]
      omega

theorem total_set_eq (f : Producer → Nat) {ps : List Producer} {i : Nat} {p : Producer}
    (q : Producer) (hp : ps[i]? = some p) :
    total f (ps.set i q) = total f ps + f q - f p := by
  have h1 := total_set f ps i p q hp
  have h2 := le_total f hp
  omega

theorem total_map (f : Producer → Nat) (g : Producer → Producer) :
    ∀ ps : List Producer, total f (ps.map g) = total (fun p => f (g p)) ps
  | [] => rfl
  | x :: xs => by simp [total, total_map f g xs]

theorem total_congr (f g : Producer → Nat) :
    ∀ ps : List Producer, (∀ p ∈ ps, f p = g p) → total f ps = total g ps
  | [], _ => rfl
  | x :: xs, h => by
    simp [total]
    rw [h x (by simp), total_congr f g xs (fun p hp => h p (by simp [hp]))]

theorem total_le (f g : Producer → Nat) :
    ∀ ps : List Producer, (∀ p ∈ ps, f p ≤ g p) → total f ps ≤ total g ps
  | [], _ => by simp [total]
  | x :: xs, h => by
    simp [total]
    have h1 := h x (by simp)
    have h2 := total_le f g xs (fun p hp => h p (by simp [hp]))
    omega

theorem total_eq_zero (f : Producer → Nat) :
    ∀ ps : List Producer, (∀ p ∈ ps, f p = 0) → total f ps = 0
  | [], _ => rfl
  | x :: xs, h => by
    simp [total]
    exact ⟨h x (by simp), total_eq_zero f xs (fun p hp => h p (by simp [hp]))⟩

theorem eq_zero_of_total (f : Producer → Nat) :
    ∀ ps : List Producer, total f ps = 0 → ∀ p ∈ ps, f p = 0
  | [], _, p, hp => by simp at hp
  | x :: xs, h, p, hp => by
    simp [total] at h
    rcases List.mem_cons.mp hp with rfl | hp
    · exact h.1
    · exact eq_zero_of_total f xs h.2 p hp

theorem exists_of_total_pos (f : Producer → Nat) (ps : List Producer) (h : 0 < total f ps) :
    ∃ p ∈ ps, 0 < f p := by
  by_contra hc
  have : ∀ p ∈ ps, f p = 0 := by
    intro p hp
    by_contra hne
    exact hc ⟨p, hp, Nat.pos_of_ne_zero hne⟩
  have := total_eq_zero f ps this
  omega

theorem total_add (f g h : Producer → Nat) :
    ∀ ps : List Producer, (∀ p ∈ ps, f p = g p + h p) → total f ps = total g ps + total h ps
  | [], _ => rfl
  | x :: xs, hh => by
    simp [total]
    have h1 := hh x (by simp)
    have h2 := total_add f g h xs (fun p hp => hh p (by simp [hp]))
    omega

theorem total_append (f : Producer → Nat) :
    ∀ ps qs : List Producer, total f (ps ++ qs) = total f ps + total f qs
  | [], qs => by simp [total]
  | x :: xs, qs => by simp [total, total_append f xs qs]; omega

theorem total_replicate (f : Producer → Nat) (p : Producer) :
    ∀ n : Nat, total f (List.replicate n p) = n * f p
  | 0 => by simp [total]
  | n + 1 => by simp [List.replicate, total, total_replicate f p n]; ring

theorem mem_of_getElem? {ps : List Producer} {i : Nat} {p : Producer} (h : ps[i]? = some p) :
    p ∈ ps := by
  rw [List.getElem?_eq_some] at h
  obtain ⟨hi, rfl⟩ := h
  exact List.getElem_mem hi

theorem mem_set_cases {ps : List Producer} {i : Nat} {q x : Producer}
    (h : x ∈ ps.set i q) : x = q ∨ x ∈ ps := by
  rcases List.mem_or_eq_of_mem_set h with h | h
  · exact Or.inr h
  · exact Or.inl h

theorem getElem?_set_cases {ps : List Producer} {i j : Nat} {p q x : Producer}
    (hp : ps[i]? = some p) (h : (ps.set i q)[j]? = some x) :
    (j = i ∧ x = q) ∨ (j ≠ i ∧ ps[j]? = some x) := by
  by_cases hij : j = i
  · subst hij
    have hi : j < ps.length := by
      rw [List.getElem?_eq_some] at hp
      exact hp.1
    simp [hi] at h
    exact Or.inl ⟨rfl, h.symm⟩
  · rw [List.getElem?_set_ne (Ne.symm hij)] at h
    exact Or.inr ⟨hij, h⟩

theorem getElem?_set_at {ps : List Producer} {i : Nat} {p q : Producer}
    (hp : ps[i]? = some p) : (ps.set i q)[i]? = some q := by
  have hi : i < ps.length := by
    rw [List.getElem?_eq_some] at hp
    exact hp.1
  simp [hi]

theorem total_waiting_of_any {k : Atom} :
    ∀ ps : List Producer, ps.any (waitsOn k) = false → total (waiting k) ps = 0
  | [], _ => rfl
  | x :: xs, h => by
    simp [List.any_cons] at h
    simp [total, waiting, h.1]
    exact total_waiting_of_any xs (by simpa using h.2)

/-! ## The transition rules are the step function -/

theorem trans_of_main {s t : State} {w : Option Nat} (h : main w s = some t) :
    Trans (Label.main w) s t := by
  obtain ⟨req, cnt, mu, ⟨pc, atom, amount, ret⟩, ps, tr⟩ := s
  cases pc <;> simp only [main, require, gather, broadcastSignal] at h
  case call151 => cases h; exact Trans.call151
  case call152 => cases h; exact Trans.call152
  case call154 => cases h; exact Trans.call154
  case call155 => cases h; exact Trans.call155
  case rLock =>
    split at h
    · rename_i hf; cases h; exact Trans.rLock hf
    · cases h
  case rSet => cases h; exact Trans.rSet
  case rLoop =>
    unfold intDec at h
    split at h
    · cases h
    · rename_i n hn
      split at hn
      · rename_i hmin
        cases hn
        split at h
        · rename_i hz
          cases h
          subst hz
          exact Trans.rLoopExit
        · rename_i hz
          split at h
          · cases h
          · rename_i ps1 hs
            cases h
            unfold sendSignal at hs
            cases w with
            | none =>
              simp only at hs
              split at hs
              · cases hs
              · rename_i hany
                cases hs
                exact Trans.rLoopMiss hz hmin (by simpa using hany)
            | some j =>
              simp only at hs
              split at hs
              · cases hs
              · rename_i q hq
                split at hs
                · rename_i hw
                  cases hs
                  simp [waitsOn] at hw
                  exact Trans.rLoopWake hz hmin hq hw.1 hw.2
                · cases hs
      · cases hn
  case rUnlock => cases h; exact Trans.rUnlock
  case gLock =>
    split at h
    · rename_i hf; cases h; exact Trans.gLock hf
    · cases h
  case gCheck =>
    split at h
    · rename_i hz; cases h; exact Trans.gCheckPass hz
    · rename_i hz; cases h; exact Trans.gCheckWait hz
  case gWait => cases h
  case gWoken =>
    split at h
    · rename_i hf; cases h; exact Trans.gWoken hf
    · cases h
  case gUnlock => cases h; exact Trans.gUnlock
  case fLock =>
    split at h
    · rename_i hf; cases h; exact Trans.fLock hf
    · cases h
  case fInc =>
    unfold intInc at h
    split at h
    · cases h
    · rename_i n hn
      split at hn
      · rename_i hmax; cases hn; cases h; exact Trans.fInc hmax
      · cases hn
  case fBcast => cases h; exact Trans.fBcast
  case fUnlock => cases h; exact Trans.fUnlock

theorem trans_of_produceAtoms {s t : State} {i : Nat} (h : produceAtoms i s = some t) :
    Trans (Label.producer i) s t := by
  obtain ⟨req, cnt, mu, a, ps, tr⟩ := s
  unfold produceAtoms at h
  cases hp : ps[i]? with
  | none => simp [hp] at h
  | some p =>
    obtain ⟨k, pc, cur⟩ := p
    cases pc <;> simp only [hp] at h
    case produce => cases h; exact Trans.produce hp
    case lockAtom =>
      split at h
      · rename_i hf; cases h; exact Trans.lockAtom hp hf
      · cases h
    case checkReq =>
      split at h
      · rename_i hz; cases h; exact Trans.checkReqWait hp hz
      · rename_i hz; cases h; exact Trans.checkReqPass hp hz
    case waitAtom => cases h
    case wokenAtom =>
      split at h
      · rename_i hf; cases h; exact Trans.wokenAtom hp hf
      · cases h
    case decr =>
      unfold intDec at h
      split at h
      · cases h
      · rename_i n hn
        split at hn
        · rename_i hmin; cases hn; cases h; exact Trans.decr hp hmin
        · cases hn
    case snap => cases h; exact Trans.snap hp
    case checkLast =>
      split at h
      · rename_i hz; cases h; exact Trans.checkLastSignal hp hz
      · rename_i hz; cases h; exact Trans.checkLastSkip hp hz
    case unlockAtom => cases h; exact Trans.unlockAtom hp
    case lockFin =>
      split at h
      · rename_i hf; cases h; exact Trans.lockFin hp hf
      · cases h
    case checkFin =>
      split at h
      · rename_i hz; cases h; exact Trans.checkFinWait hp hz
      · rename_i hz; cases h; exact Trans.checkFinPass hp hz
    case waitFin => cases h
    case wokenFin =>
      split at h
      · rename_i hf; cases h; exact Trans.wokenFin hp hf
      · cases h
    case unlockFin => cases h; exact Trans.unlockFin hp

theorem trans_of_spuriousWakeup {s t : State} {u : Tid} (h : spuriousWakeup u s = some t) :
    Trans (Label.spurious u) s t := by
  obtain ⟨req, cnt, mu, ⟨pc, atom, amount, ret⟩, ps, tr⟩ := s
  cases u with
  | main =>
    simp only [spuriousWakeup] at h
    split at h
    · rename_i hpc
      cases h
      cases hpc
      exact Trans.spuriousMain
    · cases h
  | producer i =>
    simp only [spuriousWakeup] at h
    cases hp : ps[i]? with
    | none => simp [hp] at h
    | some p =>
      obtain ⟨k, pc, cur⟩ := p
      cases pc <;> simp only [hp] at h <;> cases h
      · exact Trans.spuriousAtom hp
      · exact Trans.spuriousFin hp

theorem trans_of_step {l : Label} {s t : State} (h : step l s = some t) : Trans l s t := by
  cases l with
  | main w => exact trans_of_main h
  | producer i => exact trans_of_produceAtoms h
  | spurious u => exact trans_of_spuriousWakeup h

theorem step_of_trans {l : Label} {s t : State} (h : Trans l s t) : step l s = some t := by
  cases h
  case rLoopMiss hn hmin hnone =>
    simp [step, main, require, intDec, sendSignal, hn, hmin, hnone]
  all_goals simp_all [step, main, require, gather, broadcastSignal, produceAtoms, spuriousWakeup,
    intDec, intInc, sendSignal,
    waitsOn, INT_MIN]

/-! ## Mutex ownership -/

theorem owner_keep {s t : State} (ho : ∀ m u, s.mutex m = some u ↔ held s u = some m)
    (hmu : t.mutex = s.mutex) (hh : ∀ u, held t u = held s u) :
    ∀ m u, t.mutex m = some u ↔ held t u = some m := by
  intro m u
  rw [hmu, hh]
  exact ho m u

theorem owner_acquire {s t : State} {M : Mx} {U : Tid}
    (ho : ∀ m u, s.mutex m = some u ↔ held s u = some m)
    (hmu : t.mutex = setMutex s.mutex M (some U)) (hfree : s.mutex M = none)
    (hs : held s U = none) (ht : held t U = some M)
    (hh : ∀ u, u ≠ U → held t u = held s u) :
    ∀ m u, t.mutex m = some u ↔ held t u = some m := by
  intro m u
  rw [hmu]
  by_cases hu : u = U
  · subst hu
    rw [ht]
    by_cases hm : m = M
    · simp [setMutex, hm]
    · have := ho m u
      simp [setMutex, hm, hs] at this ⊢
      exact ⟨fun h => absurd h this, fun h => absurd h.symm hm⟩
  · rw [hh u hu, ← ho m u]
    by_cases hm : m = M
    · subst hm
      simp only [setMutex, if_true, hfree]
      constructor
      · intro h
        exact absurd (Option.some.inj h).symm hu
      · intro h
        cases h
    · simp [setMutex, hm]

theorem owner_release {s t : State} {M : Mx} {U : Tid}
    (ho : ∀ m u, s.mutex m = some u ↔ held s u = some m)
    (hmu : t.mutex = setMutex s.mutex M none)
    (hs : held s U = some M) (ht : held t U = none)
    (hh : ∀ u, u ≠ U → held t u = held s u) :
    ∀ m u, t.mutex m = some u ↔ held t u = some m := by
  intro m u
  rw [hmu]
  by_cases hu : u = U
  · subst hu
    rw [ht]
    by_cases hm : m = M
    · simp [setMutex, hm]
    · have := ho m u
      rw [hs] at this
      simp only [setMutex, hm, if_false]
      constructor
      · intro h
        exact absurd (Option.some.inj (this.mp h)).symm hm
      · intro h
        cases h
  · rw [hh u hu, ← ho m u]
    by_cases hm : m = M
    · subst hm
      simp only [setMutex, if_true]
      constructor
      · intro h
        cases h
      · intro h
        have h1 := (ho m u).mp h
        have h2 := (ho m U).mpr hs
        rw [h] at h2
        exact absurd (Option.some.inj h2) hu
    · simp [setMutex, hm]

theorem held_main (req c mu a ps tr) : held ⟨req, c, mu, a, ps, tr⟩ Tid.main = holdsA a := rfl

theorem held_producer_set_self {req c mu a} {ps : List Producer} {tr} {i : Nat} {p q : Producer}
    (hp : ps[i]? = some p) :
    held ⟨req, c, mu, a, ps.set i q, tr⟩ (Tid.producer i) = holdsP q := by
  simp [held, getElem?_set_at hp]

theorem held_producer_set_ne {req c mu a} {ps : List Producer} {tr req1 c1 mu1 a1 tr1} {i j : Nat} {q : Producer}
    (hji : j ≠ i) :
    held ⟨req1, c1, mu1, a1, ps.set i q, tr1⟩ (Tid.producer j) =
      held ⟨req, c, mu, a, ps, tr⟩ (Tid.producer j) := by
  simp [held, List.getElem?_set_ne (Ne.symm hji)]

theorem held_producer_set_keep {req c mu a} {ps : List Producer} {tr req1 c1 mu1 a1 tr1} {i j : Nat} {p q : Producer}
    (hp : ps[i]? = some p) (hq : holdsP q = holdsP p) :
    held ⟨req1, c1, mu1, a1, ps.set i q, tr1⟩ (Tid.producer j) =
      held ⟨req, c, mu, a, ps, tr⟩ (Tid.producer j) := by
  by_cases hji : j = i
  · subst hji
    simp [held, getElem?_set_at hp, hp, hq]
  · exact held_producer_set_ne hji

theorem held_producer_at {req c mu a} {ps : List Producer} {tr} {i : Nat} {p : Producer} (hp : ps[i]? = some p) :
    held ⟨req, c, mu, a, ps, tr⟩ (Tid.producer i) = holdsP p := by
  simp [held, hp]

theorem held_producer_map {req c mu a} {ps : List Producer} {tr} {j : Nat} :
    held ⟨req, c, mu, a, ps.map wakeFin, tr⟩ (Tid.producer j) =
      held ⟨req, c, mu, a, ps, tr⟩ (Tid.producer j) := by
  simp only [held, List.getElem?_map]
  cases ps[j]? with
  | none => rfl
  | some p =>
    simp only [Option.map, wakeFin]
    split <;> simp_all [holdsP]

theorem holdsA_ret {a : Assembler} (ha : argsOK a)
    (hpc : a.pc = ALoc.rUnlock ∨ a.pc = ALoc.gUnlock) :
    holdsA { a with pc := a.ret } = none := by
  obtain ⟨pc, k, n, r⟩ := a
  rcases hpc with h | h <;> simp at h <;> subst h <;> simp [argsOK] at ha <;>
    rcases ha with ⟨_, rfl⟩ | ⟨_, rfl⟩ <;> rfl

theorem owner_step {nH nO : Nat} {l : Label} {s t : State}
    (hI : Inv nH nO s) (h : Trans l s t) :
    ∀ m u, t.mutex m = some u ↔ held t u = some m := by
  have ho := hI.owner
  have ha := hI.args
  cases h
  case rUnlock =>
    refine owner_release (U := Tid.main) ho rfl rfl ?_ ?_
    · exact holdsA_ret ha (Or.inl rfl)
    · intro u hu
      cases u
      · exact absurd rfl hu
      · rfl
  case gUnlock =>
    refine owner_release (U := Tid.main) ho rfl rfl ?_ ?_
    · exact holdsA_ret ha (Or.inr rfl)
    · intro u hu
      cases u
      · exact absurd rfl hu
      · rfl
  case fBcast =>
    refine owner_keep ho rfl ?_
    intro u
    cases u
    · rfl
    · exact held_producer_map
  case checkLastSignal hp hz =>
    refine owner_keep ho rfl ?_
    intro u
    cases u
    · simp only [held_main, wakeMain]
      split <;> simp_all [holdsA]
    · exact held_producer_set_keep hp rfl
  case rLoopWake j q hn hmin hq hpc hk =>
    refine owner_keep ho rfl ?_
    intro u
    cases u
    · rfl
    · exact held_producer_set_keep hq (by simp [holdsP, hpc])
  all_goals first
    | (refine owner_keep ho rfl ?_
       intro u
       cases u
       · rfl
       · rename_i hp j
         exact held_producer_set_keep hp rfl)
    | (rename_i hp _
       refine owner_keep ho rfl ?_
       intro u
       cases u
       · rfl
       · exact held_producer_set_keep hp rfl)
    | (refine owner_keep ho rfl ?_
       intro u
       cases u <;> rfl)
    | (rename_i hfree
       refine owner_acquire (U := Tid.main) ho rfl hfree rfl rfl ?_
       intro u hu
       cases u
       · exact absurd rfl hu
       · rfl)
    | (refine owner_release (U := Tid.main) ho rfl rfl rfl ?_
       intro u hu
       cases u
       · exact absurd rfl hu
       · rfl)
    | (rename_i i _ _ hp hfree
       refine owner_acquire (U := Tid.producer i) ho rfl hfree ?_ ?_ ?_
       · rw [held_producer_at hp]; rfl
       · rw [held_producer_set_self hp]; rfl
       · intro u hu
         cases u
         · rfl
         · rename_i j
           exact held_producer_set_ne (fun hji => hu (by rw [hji])))
    | (rename_i i _ _ hp
       refine owner_release (U := Tid.producer i) ho rfl ?_ ?_ ?_
       · rw [held_producer_at hp]; rfl
       · rw [held_producer_set_self hp]; rfl
       · intro u hu
         cases u
         · rfl
         · rename_i j
           exact held_producer_set_ne (fun hji => hu (by rw [hji])))
    | (rename_i i _ _ hp _
       refine owner_release (U := Tid.producer i) ho rfl ?_ ?_ ?_
       · rw [held_producer_at hp]; rfl
       · rw [held_producer_set_self hp]; rfl
       · intro u hu
         cases u
         · rfl
         · rename_i j
           exact held_producer_set_ne (fun hji => hu (by rw [hji])))

/-! ## Mutual exclusion -/

theorem excl_prod {nH nO : Nat} {s : State} (hI : Inv nH nO s) {i j : Nat} {p q : Producer}
    {m : Mx} (hp : s.producers[i]? = some p) (hq : s.producers[j]? = some q)
    (h1 : holdsP p = some m) (h2 : holdsP q = some m) : i = j := by
  have e1 : s.mutex m = some (Tid.producer i) := (hI.owner m _).mpr (by simp [held, hp, h1])
  have e2 : s.mutex m = some (Tid.producer j) := (hI.owner m _).mpr (by simp [held, hq, h2])
  rw [e1] at e2
  cases e2
  rfl

theorem excl_main {nH nO : Nat} {s : State} (hI : Inv nH nO s) {j : Nat} {q : Producer}
    {m : Mx} (hq : s.producers[j]? = some q)
    (h1 : holdsA s.main = some m) (h2 : holdsP q = some m) : False := by
  have e1 : s.mutex m = some Tid.main := (hI.owner m _).mpr (by simp [held, h1])
  have e2 : s.mutex m = some (Tid.producer j) := (hI.owner m _).mpr (by simp [held, hq, h2])
  rw [e1] at e2
  cases e2

theorem getElem?_map_wakeFin {ps : List Producer} {j : Nat} {y : Producer}
    (h : (ps.map wakeFin)[j]? = some y) : ∃ y0, ps[j]? = some y0 ∧ y = wakeFin y0 := by
  rw [List.getElem?_map] at h
  cases hy : ps[j]? with
  | none => simp [hy] at h
  | some y0 =>
    simp [hy] at h
    exact ⟨y0, rfl, h.symm⟩

theorem argsOK_wakeMain {a : Assembler} (ha : argsOK a) : argsOK (wakeMain a) := by
  obtain ⟨pc, k, n, r⟩ := a
  unfold wakeMain
  split
  · rename_i h
    simp at h
    subst h
    simpa [argsOK] using ha
  · exact ha

theorem args_step {nH nO : Nat} {l : Label} {s t : State}
    (hI : Inv nH nO s) (h : Trans l s t) : argsOK t.main := by
  have ha := hI.args
  cases h
  case checkLastSignal => exact argsOK_wakeMain ha
  case rLoopWake j q hn hmin hq hpc hk =>
    simp only [argsOK] at ha ⊢
    rcases ha with ⟨h1, h2, h3, h4⟩ | ⟨h1, h2, h3, h4⟩
    · exact Or.inl ⟨h1, by omega, by omega, h4⟩
    · exact Or.inr ⟨h1, by omega, by omega, h4⟩
  case rLoopMiss hn hmin hnone =>
    simp only [argsOK] at ha ⊢
    rcases ha with ⟨h1, h2, h3, h4⟩ | ⟨h1, h2, h3, h4⟩
    · exact Or.inl ⟨h1, by omega, by omega, h4⟩
    · exact Or.inr ⟨h1, by omega, by omega, h4⟩
  case rSet =>
    simp only [argsOK] at ha ⊢
    rcases ha with ⟨h1, h2, h4⟩ | ⟨h1, h2, h4⟩
    · exact Or.inl ⟨h1, by omega, by omega, h4⟩
    · exact Or.inr ⟨h1, by omega, by omega, h4⟩
  case rUnlock =>
    simp only [argsOK] at ha
    rcases ha with ⟨_, h⟩ | ⟨_, h⟩ <;> subst h <;> simp [argsOK]
  case gUnlock =>
    simp only [argsOK] at ha
    rcases ha with ⟨_, h⟩ | ⟨_, h⟩ <;> subst h <;> simp [argsOK]
  all_goals first
    | exact ha
    | (simp only [argsOK] at ha ⊢; simp_all)

theorem count_range_step {nH nO : Nat} {l : Label} {s t : State}
    (hI : Inv nH nO s) (h : Trans l s t) : 0 ≤ t.count ∧ t.count ≤ INT_MAX := by
  have hc := hI.count_range
  cases h
  case fInc hmax =>
    simp only at hc ⊢
    omega
  all_goals exact hc

/-! ## Pointwise invariants -/

theorem forall_set {P : Nat → Producer → Prop} {ps : List Producer} {i : Nat} {p q : Producer}
    (hp : ps[i]? = some p) (hall : ∀ j y, ps[j]? = some y → j ≠ i → P j y) (hq : P i q) :
    ∀ j y, (ps.set i q)[j]? = some y → P j y := by
  intro j y hy
  rcases getElem?_set_cases hp hy with ⟨rfl, rfl⟩ | ⟨hji, hy1⟩
  · exact hq
  · exact hall j y hy1 hji

theorem forall_map_wakeFin {P : Nat → Producer → Prop} {ps : List Producer}
    (hall : ∀ j y, ps[j]? = some y → P j (wakeFin y)) :
    ∀ j y, (ps.map wakeFin)[j]? = some y → P j y := by
  intro j y hy
  obtain ⟨y0, h0, rfl⟩ := getElem?_map_wakeFin hy
  exact hall j y0 h0

theorem req_nonneg_step {nH nO : Nat} {l : Label} {s t : State}
    (hI : Inv nH nO s) (h : Trans l s t) : ∀ k, 0 ≤ t.required k := by
  have hr := hI.req_nonneg
  have ha := hI.args
  have hd := hI.decr_pos
  cases h
  case rSet =>
    intro k1
    simp only [setRequired]
    split
    · simp only [argsOK] at ha
      rcases ha with ⟨_, h2, _⟩ | ⟨_, h2, _⟩ <;> omega
    · exact hr k1
  case decr i k x hp hmin =>
    intro k1
    simp only [setRequired]
    split
    · have := hd i _ hp rfl
      simp only at this
      omega
    · exact hr k1
  all_goals exact hr

theorem decr_pos_step {nH nO : Nat} {l : Label} {s t : State}
    (hI : Inv nH nO s) (h : Trans l s t) :
    ∀ (i : Nat) (p : Producer), t.producers[i]? = some p → p.pc = PLoc.decr →
      1 ≤ t.required p.atom := by
  have hr := hI.req_nonneg
  have hd := hI.decr_pos
  cases h
  case rSet w req c mu k n r ps tr =>
    intro j y hy hpc
    by_cases hk : y.atom = k
    · exact (excl_main hI hy (m := Mx.atom k) rfl (by simp [holdsP, hpc, hk])).elim
    · simp only [setRequired, hk, if_false]
      exact hd j y hy hpc
  case rLoopWake j q hn hmin hq hpc hk =>
    refine forall_set hq (fun j y hy _ => hd j y hy) ?_
    intro h
    cases h
  case fBcast =>
    refine forall_map_wakeFin ?_
    intro j y hy hpc
    have h1 : wakeFin y = y := by
      unfold wakeFin at hpc ⊢
      split at hpc
      · cases hpc
      · rename_i h; simp [h]
    rw [h1] at hpc ⊢
    exact hd j y hy hpc
  case checkReqPass i k x hp hz =>
    refine forall_set hp (fun j y hy _ => hd j y hy) ?_
    intro _
    have := hr k
    simp only at this ⊢
    omega
  case decr i k x hp hmin =>
    refine forall_set hp ?_ ?_
    · intro j y hy hji hpc
      by_cases hk : y.atom = k
      · exact (hji (excl_prod hI hy hp (m := Mx.atom k) (by simp [holdsP, hpc, hk]) rfl)).elim
      · simp only [setRequired, hk, if_false]
        exact hd j y hy hpc
    · intro h
      cases h
  all_goals first
    | exact hd
    | (rename_i hp
       refine forall_set hp (fun j y hy _ => hd j y hy) ?_
       intro h
       cases h)
    | (rename_i hp _
       refine forall_set hp (fun j y hy _ => hd j y hy) ?_
       intro h
       cases h)

theorem idle_wakeMain (k : Atom) (a : Assembler) : idle k (wakeMain a) = idle k a := by
  obtain ⟨pc, k1, n, r⟩ := a
  unfold wakeMain
  split
  · rename_i h
    simp at h
    subst h
    cases k <;> cases k1 <;> rfl
  · rfl

theorem busy_wakeFin (y : Producer) : (wakeFin y).pc.busy = y.pc.busy := by
  unfold wakeFin
  split
  · rename_i h
    simp [h, PLoc.busy]
  · rfl

theorem atom_wakeFin (y : Producer) : (wakeFin y).atom = y.atom := by
  unfold wakeFin
  split <;> rfl

theorem count_wakeFin (y : Producer) : (wakeFin y).currentCount = y.currentCount := by
  unfold wakeFin
  split <;> rfl

theorem afterSnap_wakeFin (y : Producer) : (wakeFin y).pc.afterSnap = y.pc.afterSnap := by
  unfold wakeFin
  split
  · rename_i h
    simp [h, PLoc.afterSnap]
  · rfl

theorem zero_step {nH nO : Nat} {l : Label} {s t : State}
    (hI : Inv nH nO s) (h : Trans l s t) :
    ∀ k, idle k t.main = true → t.required k = 0 := by
  obtain ⟨req, c, mu, ⟨pc, k, n, r⟩, ps, tr⟩ := s
  have hz := hI.zero
  have hq := hI.quiet
  have ha := hI.args
  cases h
  case rSet =>
    intro k1 hid
    have h1 : k1 ≠ k := by
      intro h
      subst h
      cases k1 <;> simp [idle, pos] at hid
    simp only [setRequired, h1, if_false]
    apply hz k1
    cases k1 <;> cases k <;> simp [idle, pos] at hid h1 ⊢
  case gCheckPass hz0 =>
    intro k1 hid
    by_cases h1 : k1 = k
    · subst h1
      exact hz0
    · apply hz k1
      cases k1 <;> cases k <;> simp [idle, pos] at hid h1 ⊢
  case rUnlock =>
    intro k1 hid
    apply hz k1
    simp only [argsOK] at ha
    rcases ha with ⟨h1, h2⟩ | ⟨h1, h2⟩ <;> subst h1 <;> subst h2 <;>
      cases k1 <;> simp [idle, pos] at hid ⊢
  case gUnlock =>
    intro k1 hid
    apply hz k1
    simp only [argsOK] at ha
    rcases ha with ⟨h1, h2⟩ | ⟨h1, h2⟩ <;> subst h1 <;> subst h2 <;>
      cases k1 <;> simp [idle, pos] at hid ⊢
  case decr i k2 x hmin hp =>
    intro k1 hid
    by_cases h1 : k1 = k2
    · subst h1
      have := hq k1 hid i _ hp rfl
      simp [PLoc.busy] at this
    · simp only [setRequired, h1, if_false]
      exact hz k1 hid
  case checkLastSignal =>
    intro k1 hid
    rw [idle_wakeMain] at hid
    exact hz k1 hid
  all_goals first
    | exact hz
    | (intro k1 hid
       apply hz k1
       cases k1 <;> cases k <;> simp [idle, pos] at hid ⊢)

theorem quiet_step {nH nO : Nat} {l : Label} {s t : State}
    (hI : Inv nH nO s) (h : Trans l s t) :
    ∀ k, idle k t.main = true → ∀ (i : Nat) (p : Producer), t.producers[i]? = some p →
      p.atom = k → p.pc.busy = false := by
  obtain ⟨req, c, mu, ⟨pc, k, n, r⟩, ps, tr⟩ := s
  have hz := hI.zero
  have hq := hI.quiet
  have ha := hI.args
  cases h
  case gCheckPass hz0 =>
    intro k1 hid j y hy hk
    by_cases h1 : k1 = k
    · subst h1
      cases hb : y.pc.busy with
      | false => rfl
      | true =>
        refine (excl_main hI hy (m := Mx.atom k1) rfl ?_).elim
        obtain ⟨ya, ypc, yc⟩ := y
        simp only at hk
        subst hk
        cases ypc <;> simp [PLoc.busy] at hb <;> rfl
    · apply hq k1 _ j y hy hk
      cases k1 <;> cases k <;> simp [idle, pos] at hid h1 ⊢
  case rUnlock =>
    intro k1 hid
    apply hq k1
    simp only [argsOK] at ha
    rcases ha with ⟨h1, h2⟩ | ⟨h1, h2⟩ <;> subst h1 <;> subst h2 <;>
      cases k1 <;> simp [idle, pos] at hid ⊢
  case gUnlock =>
    intro k1 hid
    apply hq k1
    simp only [argsOK] at ha
    rcases ha with ⟨h1, h2⟩ | ⟨h1, h2⟩ <;> subst h1 <;> subst h2 <;>
      cases k1 <;> simp [idle, pos] at hid ⊢
  case rLoopWake j q hpc hk hn hmin hq1 =>
    intro k1 hid
    refine forall_set hq1 (fun j y hy _ => hq k1 hid j y hy) ?_
    intro _
    rfl
  case fBcast =>
    intro k1 hid
    refine forall_map_wakeFin ?_
    intro j y hy hk
    rw [busy_wakeFin]
    rw [atom_wakeFin] at hk
    refine hq k1 ?_ j y hy hk
    cases k1 <;> simp [idle, pos] at hid ⊢
  case checkReqPass i k2 x hz0 hp =>
    intro k1 hid
    refine forall_set hp (fun j y hy _ => hq k1 hid j y hy) ?_
    intro hk
    simp only at hk
    subst hk
    exact (hz0 (hz _ hid)).elim
  case checkLastSignal i k2 x hz0 hp =>
    intro k1 hid
    rw [idle_wakeMain] at hid
    refine forall_set hp (fun j y hy _ => hq k1 hid j y hy) ?_
    intro hk
    have := hq k1 hid i _ hp hk
    simp [PLoc.busy] at this
  all_goals first
    | exact hq
    | (intro k1 hid
       apply hq k1
       cases k1 <;> cases k <;> simp [idle, pos] at hid ⊢)
    | (rename_i hp
       intro k1 hid
       refine forall_set hp (fun j y hy _ => hq k1 hid j y hy) ?_
       intro hk
       first
         | rfl
         | (have h9 := hq k1 hid _ _ hp hk
            simp [PLoc.busy] at h9))

theorem snap_eq_step {nH nO : Nat} {l : Label} {s t : State}
    (hI : Inv nH nO s) (h : Trans l s t) :
    ∀ (i : Nat) (p : Producer), t.producers[i]? = some p →
      p.pc = PLoc.checkLast ∨ p.pc = PLoc.unlockAtom → p.currentCount = t.count := by
  obtain ⟨req, c, mu, ⟨pc, k, n, r⟩, ps, tr⟩ := s
  have hq := hI.quiet
  have hs := hI.snap_eq
  cases h
  case fInc hmax =>
    intro j y hy hpc
    have := hq y.atom (by cases y.atom <;> simp [idle, pos]) j y hy rfl
    rcases hpc with h | h <;> simp [h, PLoc.busy] at this
  case rLoopWake j q hpc hk hn hmin hq1 =>
    refine forall_set hq1 (fun j y hy _ => hs j y hy) ?_
    intro h
    simp at h
  case fBcast =>
    refine forall_map_wakeFin ?_
    intro j y hy hpc
    have h1 : wakeFin y = y := by
      unfold wakeFin at hpc ⊢
      split at hpc
      · simp at hpc
      · rename_i h; simp [h]
    rw [h1] at hpc ⊢
    exact hs j y hy hpc
  case snap i k2 x hp =>
    refine forall_set hp (fun j y hy _ => hs j y hy) ?_
    intro _
    rfl
  case checkLastSignal i k2 x hz0 hp =>
    refine forall_set hp (fun j y hy _ => hs j y hy) ?_
    intro _
    have h1 := hs i _ hp (Or.inl rfl)
    exact h1
  case checkLastSkip i k2 x hz0 hp =>
    refine forall_set hp (fun j y hy _ => hs j y hy) ?_
    intro _
    have h1 := hs i _ hp (Or.inl rfl)
    exact h1
  all_goals first
    | exact hs
    | (rename_i hp
       refine forall_set hp (fun j y hy _ => hs j y hy) ?_
       intro h
       simp at h)

theorem snap_le_step {nH nO : Nat} {l : Label} {s t : State}
    (hI : Inv nH nO s) (h : Trans l s t) :
    ∀ (i : Nat) (p : Producer), t.producers[i]? = some p → p.pc.afterSnap = true →
      p.currentCount ≤ t.count := by
  obtain ⟨req, c, mu, ⟨pc, k, n, r⟩, ps, tr⟩ := s
  have hs := hI.snap_le
  cases h
  case fInc hmax =>
    intro j y hy hpc
    have := hs j y hy hpc
    simp only at this ⊢
    omega
  case rLoopWake j q hpc hk hn hmin hq1 =>
    refine forall_set hq1 (fun j y hy _ => hs j y hy) ?_
    intro h
    simp [PLoc.afterSnap] at h
  case fBcast =>
    refine forall_map_wakeFin ?_
    intro j y hy hpc
    rw [afterSnap_wakeFin] at hpc
    rw [count_wakeFin]
    exact hs j y hy hpc
  case snap i k2 x hp =>
    refine forall_set hp (fun j y hy _ => hs j y hy) ?_
    intro _
    exact le_refl _
  all_goals first
    | exact hs
    | (rename_i hp
       refine forall_set hp (fun j y hy _ => hs j y hy) ?_
       intro h
       first
         | (simp [PLoc.afterSnap] at h; done)
         | (have h1 := hs _ _ hp rfl
            exact h1))

theorem pc_wakeMain_fBcast (a : Assembler) :
    ((wakeMain a).pc = ALoc.fBcast) = (a.pc = ALoc.fBcast) := by
  unfold wakeMain
  split
  · rename_i h
    simp [h]
  · rfl

theorem wait_eq_step {nH nO : Nat} {l : Label} {s t : State}
    (hI : Inv nH nO s) (h : Trans l s t) :
    ∀ (i : Nat) (p : Producer), t.producers[i]? = some p → p.pc = PLoc.waitFin →
      p.currentCount = if t.main.pc = ALoc.fBcast then t.count - 1 else t.count := by
  obtain ⟨req, c, mu, ⟨pc, k, n, r⟩, ps, tr⟩ := s
  have hs := hI.wait_eq
  have ha := hI.args
  cases h
  case fInc hmax =>
    intro j y hy hpc
    have := hs j y hy hpc
    simp at this ⊢
    exact this
  case rLoopWake j q hpc hk hn hmin hq1 =>
    refine forall_set hq1 (fun j y hy _ => hs j y hy) ?_
    intro h
    simp at h
  case fBcast =>
    refine forall_map_wakeFin ?_
    intro j y hy hpc
    unfold wakeFin at hpc
    split at hpc <;> simp_all
  case rUnlock =>
    intro j y hy hpc
    have := hs j y hy hpc
    simp only [argsOK] at ha
    rcases ha with ⟨_, e2⟩ | ⟨_, e2⟩ <;> subst e2 <;> simpa using this
  case gUnlock =>
    intro j y hy hpc
    have := hs j y hy hpc
    simp only [argsOK] at ha
    rcases ha with ⟨_, e2⟩ | ⟨_, e2⟩ <;> subst e2 <;> simpa using this
  case checkLastSignal i k2 x hz0 hp =>
    simp only [pc_wakeMain_fBcast]
    refine forall_set hp (fun j y hy _ => hs j y hy) ?_
    intro h
    simp at h
  case checkFinWait i k2 x heq hp =>
    refine forall_set hp (fun j y hy _ => hs j y hy) ?_
    intro _
    have hne : pc ≠ ALoc.fBcast := by
      intro h
      subst h
      exact excl_main hI hp (m := Mx.FINISHED) rfl rfl
    simp [hne, heq]
  all_goals first
    | exact hs
    | (rename_i hp
       refine forall_set hp (fun j y hy _ => hs j y hy) ?_
       intro h
       simp at h)

/-! ## Counting invariants -/

theorem target_wakeMain (k : Atom) (a : Assembler) : target k (wakeMain a) = target k a := by
  obtain ⟨pc, k1, n, r⟩ := a
  unfold wakeMain
  split
  · rename_i h
    simp at h
    subst h
    cases k <;> cases k1 <;> rfl
  · rfl

theorem delivered_wakeFin (k : Atom) (c : Int) (y : Producer) :
    delivered k c (wakeFin y) = delivered k c y := by
  unfold wakeFin
  split
  · rename_i h
    simp [delivered, hasDelivered, h, PLoc.afterSnap]
  · rfl

theorem deliv_step {nH nO : Nat} {l : Label} {s t : State}
    (hI : Inv nH nO s) (h : Trans l s t) :
    ∀ k, (total (delivered k t.count) t.producers : Int) + t.required k = target k t.main := by
  obtain ⟨req, c, mu, ⟨pc, k, n, r⟩, ps, tr⟩ := s
  have hd := hI.deliv
  have ha := hI.args
  have hr := hI.req_nonneg
  have hz := hI.zero
  have hq := hI.quiet
  have hle := hI.snap_le
  cases h
  case rSet =>
    intro k1
    have h1 := hd k1
    have h2 := hr k1
    simp only [argsOK] at ha
    simp only at h1 h2 ⊢
    rcases ha with ⟨e1, e2, _⟩ | ⟨e1, e2, _⟩ <;> subst e1 <;> subst e2 <;> cases k1 <;>
      simp [target, demanded, pos, setRequired, recipe] at h1 ⊢ <;> omega
  case rUnlock =>
    intro k1
    have h1 := hd k1
    simp only [argsOK] at ha
    rcases ha with ⟨e1, e2⟩ | ⟨e1, e2⟩ <;> subst e1 <;> subst e2 <;> cases k1 <;>
      simpa [target, demanded, pos] using h1
  case gUnlock =>
    intro k1
    have h1 := hd k1
    simp only [argsOK] at ha
    rcases ha with ⟨e1, e2⟩ | ⟨e1, e2⟩ <;> subst e1 <;> subst e2 <;> cases k1 <;>
      simpa [target, demanded, pos] using h1
  case rLoopWake j q hpc hk hn hmin hq1 =>
    intro k1
    have h1 := hd k1
    have h2 := total_set (delivered k1 c) ps j q { q with pc := PLoc.wokenAtom } hq1
    simp only [delivered, hasDelivered, hpc, PLoc.afterSnap] at h2
    simp only at h1 ⊢
    cases k1 <;> cases k <;> simp [target, demanded, pos] at h1 h2 ⊢ <;> omega
  case fInc hmax =>
    intro k1
    have h0 : total (delivered k1 (c + 1)) ps = 0 := by
      apply total_eq_zero
      intro y hy
      obtain ⟨j, hj⟩ := List.getElem?_of_mem hy
      have h3 := hq y.atom (by cases y.atom <;> simp [idle, pos]) j y hj rfl
      have h4 := hle j y hj
      simp only [delivered, hasDelivered]
      rw [if_neg]
      rintro ⟨_, h5⟩
      simp only [Bool.or_eq_true, Bool.and_eq_true, decide_eq_true_eq] at h5
      rcases h5 with h5 | ⟨h5, h6⟩
      · simp [h5, PLoc.busy] at h3
      · have := h4 h5
        simp only at this
        omega
    have h1 := hz k1 (by cases k1 <;> simp [idle, pos])
    simp only at h1 ⊢
    rw [h0, h1]
    cases k1 <;> simp [target, demanded, pos]
  case fBcast =>
    intro k1
    have h1 := hd k1
    simp only at h1 ⊢
    rw [total_map, total_congr _ (delivered k1 c) ps (fun y _ => delivered_wakeFin k1 c y)]
    cases k1 <;> simpa [target, demanded, pos] using h1
  case decr i k2 x hmin hp =>
    intro k1
    have h1 := hd k1
    have h2 := total_set (delivered k1 c) ps i _ ⟨k2, PLoc.snap, x⟩ hp
    simp only at h1 ⊢
    by_cases hk : k2 = k1
    · subst hk
      simp [delivered, hasDelivered, PLoc.afterSnap, setRequired] at h2 ⊢
      omega
    · have hk1 : ¬ k1 = k2 := fun h => hk h.symm
      simp [delivered, hasDelivered, PLoc.afterSnap, setRequired, hk, hk1] at h2 ⊢
      omega
  case checkLastSignal i k2 x hz0 hp =>
    intro k1
    have h1 := hd k1
    have h2 := total_set (delivered k1 c) ps i _ ⟨k2, PLoc.unlockAtom, x⟩ hp
    simp only [target_wakeMain] at h1 ⊢
    simp [delivered, hasDelivered, PLoc.afterSnap] at h2
    omega
  case checkFinPass i k2 x hne hp =>
    intro k1
    have h1 := hd k1
    have h2 := le_total (delivered k1 c) hp
    simp only at h1 ⊢
    rw [total_set_eq _ _ hp]
    simp [delivered, hasDelivered, PLoc.afterSnap, hne] at h2 ⊢
    omega
  all_goals first
    | exact hd
    | (intro k1
       have h1 := hd k1
       cases k1 <;> cases k <;> simpa [target, demanded, pos] using h1)
    | (rename_i hp
       intro k1
       have h1 := hd k1
       have h2 := le_total (delivered k1 c) hp
       simp only at h1 ⊢
       rw [total_set_eq _ _ hp]
       simp [delivered, hasDelivered, PLoc.afterSnap] at h2 ⊢
       omega)

theorem pending_wakeMain (k : Atom) (a : Assembler) : pending k (wakeMain a) = pending k a := by
  obtain ⟨pc, k1, n, r⟩ := a
  unfold wakeMain
  split
  · rename_i h
    simp at h
    subst h
    simp [pending]
  · rfl

theorem pending_nonneg {a : Assembler} (ha : argsOK a) (k : Atom) : 0 ≤ pending k a := by
  obtain ⟨pc, k1, n, r⟩ := a
  unfold pending
  split
  · rename_i h
    simp only at h
    obtain ⟨h1, h2⟩ := h
    subst h1
    simp only [argsOK] at ha
    rcases ha with ⟨_, h, _⟩ | ⟨_, h, _⟩ <;> exact h
  · exact le_refl _

theorem waiting_wakeFin (k : Atom) (y : Producer) : waiting k (wakeFin y) = waiting k y := by
  unfold wakeFin
  split
  · rename_i h
    simp [waiting, waitsOn, h]
  · rfl

theorem active_wakeFin (k : Atom) (c : Int) (y : Producer) :
    active k c (wakeFin y) = active k c y := by
  unfold wakeFin
  split
  · rename_i h
    simp [active, hasDelivered, h, PLoc.afterSnap]
  · rfl

theorem wake_step {nH nO : Nat} {l : Label} {s t : State}
    (hI : Inv nH nO s) (h : Trans l s t) :
    ∀ k, total (waiting k) t.producers = 0 ∨
      t.required k ≤ (total (active k t.count) t.producers : Int) + pending k t.main := by
  obtain ⟨req, c, mu, ⟨pc, k, n, r⟩, ps, tr⟩ := s
  have hw := hI.wake
  have ha := hI.args
  have hz := hI.zero
  cases h
  case rSet =>
    intro k1
    have h1 := hw k1
    simp only at h1 ⊢
    by_cases hk : k1 = k
    · subst hk
      right
      simp [setRequired, pending]
    · have hk1 : ¬ k = k1 := fun h => hk h.symm
      simpa [setRequired, pending, hk, hk1] using h1
  case rLoopWake j q hpc hk hn hmin hq1 =>
    intro k1
    have h1 := hw k1
    have h2 := le_total (waiting k1) hq1
    have h3 := le_total (active k1 c) hq1
    simp only at h1 ⊢
    rw [total_set_eq _ _ hq1, total_set_eq _ _ hq1]
    obtain ⟨qa, qpc, qc⟩ := q
    simp only at hpc hk
    subst hpc
    subst hk
    by_cases hk : qa = k1
    · subst hk
      simp [waiting, waitsOn, active, hasDelivered, PLoc.afterSnap, pending] at h1 h2 h3 ⊢
      omega
    · have hk1 : ¬ k1 = qa := fun h => hk h.symm
      simp [waiting, waitsOn, active, hasDelivered, PLoc.afterSnap, pending, hk, hk1]
        at h1 h2 h3 ⊢
      omega
  case rLoopMiss hn hmin hnone =>
    intro k1
    have h1 := hw k1
    simp only at h1 ⊢
    by_cases hk : k1 = k
    · subst hk
      left
      exact total_waiting_of_any ps hnone
    · have hk1 : ¬ k = k1 := fun h => hk h.symm
      simpa [pending, hk, hk1] using h1
  case rUnlock =>
    intro k1
    have h1 := hw k1
    simp only [argsOK] at ha
    rcases ha with ⟨e1, e2⟩ | ⟨e1, e2⟩ <;> subst e1 <;> subst e2 <;>
      simpa [pending] using h1
  case gUnlock =>
    intro k1
    have h1 := hw k1
    simp only [argsOK] at ha
    rcases ha with ⟨e1, e2⟩ | ⟨e1, e2⟩ <;> subst e1 <;> subst e2 <;>
      simpa [pending] using h1
  case fInc hmax =>
    intro k1
    right
    have h1 := hz k1 (by cases k1 <;> simp [idle, pos])
    simp only at h1 ⊢
    rw [h1]
    simp [pending]
  case fBcast =>
    intro k1
    have h1 := hw k1
    simp only at h1 ⊢
    rw [total_map, total_map, total_congr _ (waiting k1) ps (fun y _ => waiting_wakeFin k1 y),
      total_congr _ (active k1 c) ps (fun y _ => active_wakeFin k1 c y)]
    simpa [pending] using h1
  case checkReqWait i k2 x hz0 hp =>
    intro k1
    have h1 := hw k1
    have h2 := le_total (waiting k1) hp
    have h3 := le_total (active k1 c) hp
    have h4 := pending_nonneg ha k1
    simp only at h1 h4 ⊢
    rw [total_set_eq _ _ hp, total_set_eq _ _ hp]
    by_cases hk : k2 = k1
    · subst hk
      right
      rw [hz0]
      omega
    · simp [waiting, waitsOn, active, hasDelivered, PLoc.afterSnap, hk] at h1 h2 h3 ⊢
      omega
  case decr i k2 x hmin hp =>
    intro k1
    have h1 := hw k1
    have h2 := le_total (waiting k1) hp
    have h3 := le_total (active k1 c) hp
    simp only at h1 ⊢
    rw [total_set_eq _ _ hp, total_set_eq _ _ hp]
    by_cases hk : k2 = k1
    · subst hk
      simp [waiting, waitsOn, active, hasDelivered, PLoc.afterSnap, setRequired] at h1 h2 h3 ⊢
      omega
    · have hk1 : ¬ k1 = k2 := fun h => hk h.symm
      simp [waiting, waitsOn, active, hasDelivered, PLoc.afterSnap, setRequired, hk, hk1]
        at h1 h2 h3 ⊢
      omega
  case checkFinPass i k2 x hne hp =>
    intro k1
    have h1 := hw k1
    have h2 := le_total (waiting k1) hp
    have h3 := le_total (active k1 c) hp
    simp only at h1 ⊢
    rw [total_set_eq _ _ hp, total_set_eq _ _ hp]
    simp [waiting, waitsOn, active, hasDelivered, PLoc.afterSnap, hne] at h1 h2 h3 ⊢
    omega
  case checkLastSignal i k2 x hz0 hp =>
    intro k1
    have h1 := hw k1
    have h2 := le_total (waiting k1) hp
    have h3 := le_total (active k1 c) hp
    simp only [pending_wakeMain] at h1 ⊢
    rw [total_set_eq _ _ hp, total_set_eq _ _ hp]
    simp [waiting, waitsOn, active, hasDelivered, PLoc.afterSnap] at h1 h2 h3 ⊢
    omega
  all_goals first
    | exact hw
    | (intro k1
       have h1 := hw k1
       simpa [pending] using h1)
    | (rename_i hp
       intro k1
       have h1 := hw k1
       have h2 := le_total (waiting k1) hp
       have h3 := le_total (active k1 c) hp
       simp only at h1 ⊢
       rw [total_set_eq _ _ hp, total_set_eq _ _ hp]
       simp [waiting, waitsOn, active, hasDelivered, PLoc.afterSnap] at h1 h2 h3 ⊢
       omega)

theorem pc_wakeMain (a : Assembler) : (wakeMain a).pc ≠ ALoc.gWait := by
  unfold wakeMain
  split
  · simp
  · assumption

theorem ready_step {nH nO : Nat} {l : Label} {s t : State}
    (hI : Inv nH nO s) (h : Trans l s t) :
    t.main.pc = ALoc.gWait → t.required t.main.atom = 0 →
      1 ≤ total (signalling t.main.atom) t.producers := by
  obtain ⟨req, c, mu, ⟨pc, k, n, r⟩, ps, tr⟩ := s
  have hr := hI.ready
  have ha := hI.args
  cases h
  case gCheckWait hz0 =>
    intro _ h0
    exact (hz0 h0).elim
  case rUnlock =>
    intro h1
    simp only [argsOK] at ha
    rcases ha with ⟨_, e2⟩ | ⟨_, e2⟩ <;> subst e2 <;> simp at h1
  case gUnlock =>
    intro h1
    simp only [argsOK] at ha
    rcases ha with ⟨_, e2⟩ | ⟨_, e2⟩ <;> subst e2 <;> simp at h1
  case checkLastSignal i k2 x hz0 hp =>
    intro h1
    exact (pc_wakeMain _ h1).elim
  case decr i k2 x hmin hp =>
    intro h1 h0
    have h2 := le_total (signalling k) hp
    simp only at h1 h0 ⊢
    rw [total_set_eq _ _ hp]
    by_cases hk : k2 = k
    · subst hk
      simp [signalling] at h2 ⊢
    · have hk1 : ¬ k = k2 := fun h => hk h.symm
      have h3 := hr h1
      simp [signalling, hk, setRequired, hk1] at h0 h2 h3 ⊢
      exact h3 h0
  case checkLastSkip i k2 x hz0 hp =>
    intro h1 h0
    have h2 := le_total (signalling k) hp
    have h3 := hr h1 h0
    simp only at h1 h0 h3 ⊢
    rw [total_set_eq _ _ hp]
    by_cases hk : k2 = k
    · subst hk
      exact (hz0 h0).elim
    · simp [signalling, hk] at h2 ⊢
      exact h3
  all_goals first
    | (intro h1
       simp at h1
       done)
    | (rename_i hp
       intro h1 h0
       have h2 := le_total (signalling k) hp
       have h3 := hr h1 h0
       simp only at h1 h0 h3 ⊢
       rw [total_set_eq _ _ hp]
       simp [signalling] at h2 ⊢
       omega)

theorem isKind_wakeFin (k : Atom) (y : Producer) : isKind k (wakeFin y) = isKind k y := by
  unfold wakeFin
  split <;> rfl

theorem kinds_step {nH nO : Nat} {l : Label} {s t : State}
    (hI : Inv nH nO s) (h : Trans l s t) :
    total (isKind Atom.HYDROGEN) t.producers = nH ∧
      total (isKind Atom.OXYGEN) t.producers = nO := by
  obtain ⟨req, c, mu, ⟨pc, k, n, r⟩, ps, tr⟩ := s
  have hk := hI.kinds
  cases h
  case rLoopWake j q hpc hk1 hn hmin hq1 =>
    have h1 := le_total (isKind Atom.HYDROGEN) hq1
    have h2 := le_total (isKind Atom.OXYGEN) hq1
    simp only at hk ⊢
    rw [total_set_eq _ _ hq1, total_set_eq _ _ hq1]
    simp only [isKind] at h1 h2 ⊢
    omega
  case fBcast =>
    simp only at hk ⊢
    rw [total_map, total_map,
      total_congr _ (isKind Atom.HYDROGEN) ps (fun y _ => isKind_wakeFin _ y),
      total_congr _ (isKind Atom.OXYGEN) ps (fun y _ => isKind_wakeFin _ y)]
    exact hk
  all_goals first
    | exact hk
    | (rename_i hp
       have h1 := le_total (isKind Atom.HYDROGEN) hp
       have h2 := le_total (isKind Atom.OXYGEN) hp
       simp only at hk ⊢
       rw [total_set_eq _ _ hp, total_set_eq _ _ hp]
       simp only [isKind] at h1 h2 ⊢
       omega)

/-! ## The invariant holds in every reachable state -/

theorem inv_init (nH nO : Nat) : Inv nH nO (init nH nO) where
  owner := by
    intro m u
    cases u with
    | main => simp [init, held, holdsA]
    | producer i =>
      simp only [init, held]
      constructor
      · intro h
        cases h
      · intro h
        split at h
        · cases h
        · rename_i p hp
          have hm := mem_of_getElem? hp
          simp only [List.mem_append, List.mem_replicate] at hm
          rcases hm with ⟨_, rfl⟩ | ⟨_, rfl⟩ <;> simp [holdsP] at h
  args := by simp [init, argsOK]
  count_range := by simp [init, INT_MAX]
  req_nonneg := by simp [init]
  decr_pos := by
    intro i p hp hpc
    have hm := mem_of_getElem? hp
    simp only [init, List.mem_append, List.mem_replicate] at hm
    rcases hm with ⟨_, rfl⟩ | ⟨_, rfl⟩ <;> simp at hpc
  zero := by simp [init]
  quiet := by
    intro k _ i p hp _
    have hm := mem_of_getElem? hp
    simp only [init, List.mem_append, List.mem_replicate] at hm
    rcases hm with ⟨_, rfl⟩ | ⟨_, rfl⟩ <;> rfl
  snap_eq := by
    intro i p hp hpc
    have hm := mem_of_getElem? hp
    simp only [init, List.mem_append, List.mem_replicate] at hm
    rcases hm with ⟨_, rfl⟩ | ⟨_, rfl⟩ <;> simp at hpc
  snap_le := by
    intro i p hp hpc
    have hm := mem_of_getElem? hp
    simp only [init, List.mem_append, List.mem_replicate] at hm
    rcases hm with ⟨_, rfl⟩ | ⟨_, rfl⟩ <;> simp [PLoc.afterSnap] at hpc
  wait_eq := by
    intro i p hp hpc
    have hm := mem_of_getElem? hp
    simp only [init, List.mem_append, List.mem_replicate] at hm
    rcases hm with ⟨_, rfl⟩ | ⟨_, rfl⟩ <;> simp at hpc
  deliv := by
    intro k
    simp only [init, total_append, total_replicate]
    cases k <;> simp [delivered, hasDelivered, PLoc.afterSnap, target, demanded, pos]
  wake := by
    intro k
    left
    simp only [init, total_append, total_replicate]
    simp [waiting, waitsOn]
  ready := by simp [init]
  kinds := by
    simp only [init, total_append, total_replicate]
    simp [isKind]

theorem inv_step {nH nO : Nat} {l : Label} {s t : State}
    (hI : Inv nH nO s) (h : step l s = some t) : Inv nH nO t :=
  have ht := trans_of_step h
  { owner := owner_step hI ht
    args := args_step hI ht
    count_range := count_range_step hI ht
    req_nonneg := req_nonneg_step hI ht
    decr_pos := decr_pos_step hI ht
    zero := zero_step hI ht
    quiet := quiet_step hI ht
    snap_eq := snap_eq_step hI ht
    snap_le := snap_le_step hI ht
    wait_eq := wait_eq_step hI ht
    deliv := deliv_step hI ht
    wake := wake_step hI ht
    ready := ready_step hI ht
    kinds := kinds_step hI ht }

theorem inv_run {nH nO : Nat} :
    ∀ (ls : List Label) (s t : State), Inv nH nO s → run ls s = some t → Inv nH nO t
  | [], s, t, hI, h => by
    simp only [run] at h
    cases h
    exact hI
  | l :: ls, s, t, hI, h => by
    simp only [run] at h
    split at h
    · cases h
    · rename_i s1 h1
      exact inv_run ls s1 t (inv_step hI h1) h

theorem inv_of_reachable {nH nO : Nat} {s : State} (h : Reachable nH nO s) : Inv nH nO s := by
  obtain ⟨ls, hls⟩ := h
  exact inv_run ls _ _ (inv_init nH nO) hls

/-! ## Locking discipline -/

/-- C9.  Locking discipline: in every reachable state no thread owns two of
the mutexes `HYDROGEN`, `OXYGEN`, `FINISHED`; a producer that is about to lock
(its kind's mutex or `FINISHED`) or is blocked in a wait owns none, and the
assembler about to lock (in `require`, in `gather`, or `FINISHED`) or blocked
in `wait(READY, atom)` owns none. -/
theorem locking_discipline (nH nO : Nat) (s : State) (hr : Reachable nH nO s) :
    (∀ (u : Tid) (m m' : Mx), s.mutex m = some u → s.mutex m' = some u → m = m') ∧
    (∀ (i : Nat) (p : Producer), s.producers[i]? = some p →
      (p.pc = PLoc.lockAtom ∨ p.pc = PLoc.wokenAtom ∨ p.pc = PLoc.waitAtom ∨
        p.pc = PLoc.lockFin ∨ p.pc = PLoc.wokenFin ∨ p.pc = PLoc.waitFin) →
      ∀ m, s.mutex m ≠ some (Tid.producer i)) ∧
    ((s.main.pc = ALoc.rLock ∨ s.main.pc = ALoc.gLock ∨ s.main.pc = ALoc.gWoken ∨
        s.main.pc = ALoc.gWait ∨ s.main.pc = ALoc.fLock) →
      ∀ m, s.mutex m ≠ some Tid.main) := by
  have hI := inv_of_reachable hr
  refine ⟨?_, ?_, ?_⟩
  · intro u m m' h1 h2
    have e1 := (hI.owner m u).mp h1
    have e2 := (hI.owner m' u).mp h2
    rw [e1] at e2
    exact Option.some.inj e2
  · intro i p hp hpc m hm
    have e1 := (hI.owner m _).mp hm
    simp only [held, hp, holdsP] at e1
    rcases hpc with h | h | h | h | h | h <;> simp [h] at e1
  · intro hpc m hm
    have e1 := (hI.owner m _).mp hm
    simp only [held, holdsA] at e1
    rcases hpc with h | h | h | h | h <;> simp [h] at e1

/-- Witness for C9: the state of the sample execution in which producer 0
holds `mutex[HYDROGEN]` while the assembler is blocked in `gather`. -/
theorem locking_discipline_witness :
    Reachable 2 1 (sampleState 21) ∧
    (sampleState 21).mutex (Mx.atom Atom.HYDROGEN) = some (Tid.producer 0) ∧
    (∀ (u : Tid) (m m' : Mx), (sampleState 21).mutex m = some u →
      (sampleState 21).mutex m' = some u → m = m') :=
  ⟨⟨sampleSchedule.take 21, rfl⟩, rfl,
    (locking_discipline 2 1 (sampleState 21) ⟨sampleSchedule.take 21, rfl⟩).1⟩

/-! ## `required` never goes negative -/

/-- C4.  In every reachable state `required[HYDROGEN]` and `required[OXYGEN]`
are non-negative.  A step changes `required[k]` only if it is the assembler's
`required[atom] = amount` of `require` (line 138), executed while the
assembler owns `mutex[k]` and with the recipe amount (2 for hydrogen, 1 for
oxygen), or a producer's `required[atom]--` (line 60), executed while that
producer owns `mutex[k]`, with `required[k]` positive before and exactly one
less after; and a producer arrives at line 60 only from the test of line 59
having read a non-zero value. -/
theorem required_nonneg (nH nO : Nat) (s : State) (hr : Reachable nH nO s) :
    (∀ k, 0 ≤ s.required k) ∧
    (∀ (l : Label) (t : State), step l s = some t → ∀ k, t.required k ≠ s.required k →
      ((∃ w, l = Label.main w) ∧ s.main.pc = ALoc.rSet ∧ s.main.atom = k ∧
        s.mutex (Mx.atom k) = some Tid.main ∧ t.required k = recipe k) ∨
      (∃ (i : Nat) (p : Producer), l = Label.producer i ∧ s.producers[i]? = some p ∧
        p.atom = k ∧ p.pc = PLoc.decr ∧ s.mutex (Mx.atom k) = some (Tid.producer i) ∧
        0 < s.required k ∧ t.required k = s.required k - 1)) ∧
    (∀ (l : Label) (t : State) (i : Nat) (p q : Producer), step l s = some t →
      s.producers[i]? = some p → t.producers[i]? = some q → q.pc = PLoc.decr →
      p.pc ≠ PLoc.decr →
      l = Label.producer i ∧ p.pc = PLoc.checkReq ∧ s.required p.atom ≠ 0 ∧
        s.mutex (Mx.atom p.atom) = some (Tid.producer i)) := by
  have hI := inv_of_reachable hr
  refine ⟨hI.req_nonneg, ?_, ?_⟩
  · intro l t hstep k1 hne
    have ht := trans_of_step hstep
    obtain ⟨req, c, mu, ⟨pc, k, n, r⟩, ps, tr⟩ := s
    have ha := hI.args
    cases ht
    case rSet w =>
      left
      have hk : k1 = k := by
        by_contra h
        simp [setRequired, h] at hne
      subst hk
      refine ⟨⟨w, rfl⟩, rfl, rfl, (hI.owner _ _).mpr rfl, ?_⟩
      simp only [argsOK] at ha
      rcases ha with ⟨e1, e2, _⟩ | ⟨e1, e2, _⟩ <;> subst e1 <;> subst e2 <;>
        simp [setRequired, recipe]
    case decr i k2 x hmin hp =>
      right
      have hk : k1 = k2 := by
        by_contra h
        simp [setRequired, h] at hne
      subst hk
      refine ⟨i, _, rfl, hp, rfl, rfl, (hI.owner _ _).mpr ?_, ?_, ?_⟩
      · simp [held, hp, holdsP]
      · have := hI.decr_pos i _ hp rfl
        simp only at this ⊢
        omega
      · simp [setRequired]
    all_goals exact (hne rfl).elim
  · intro l t i p q hstep hp hq hqpc hppc
    have ht := trans_of_step hstep
    obtain ⟨req, c, mu, ⟨pc, k, n, r⟩, ps, tr⟩ := s
    simp only at hp
    cases ht
    case rLoopWake j y hpc hk hn hmin hy =>
      simp only at hq
      rcases getElem?_set_cases hy hq with ⟨_, rfl⟩ | ⟨_, h1⟩
      · simp at hqpc
      · rw [hp] at h1
        cases h1
        exact (hppc hqpc).elim
    case fBcast =>
      simp only at hq
      obtain ⟨y0, h0, rfl⟩ := getElem?_map_wakeFin hq
      rw [hp] at h0
      cases h0
      unfold wakeFin at hqpc
      split at hqpc
      · simp at hqpc
      · exact (hppc hqpc).elim
    case checkReqPass j k2 x hz hy =>
      simp only at hq
      rcases getElem?_set_cases hy hq with ⟨rfl, rfl⟩ | ⟨_, h1⟩
      · rw [hp] at hy
        cases hy
        refine ⟨rfl, rfl, hz, (hI.owner _ _).mpr ?_⟩
        simp [held, hp, holdsP]
      · rw [hp] at h1
        cases h1
        exact (hppc hqpc).elim
    all_goals first
      | (simp only at hq
         rw [hp] at hq
         cases hq
         exact (hppc hqpc).elim)
      | (rename_i hy
         simp only at hq
         rcases getElem?_set_cases hy hq with ⟨_, rfl⟩ | ⟨_, h1⟩
         · simp at hqpc
         · rw [hp] at h1
           cases h1
           exact (hppc hqpc).elim)

/-- Witness for C4: the decrement of producer 0 in the sample execution
(`required[HYDROGEN]` goes from 2 to 1). -/
theorem required_nonneg_witness :
    Reachable 2 1 (sampleState 21) ∧
    (sampleState 21).required Atom.HYDROGEN = 2 ∧
    (sampleState 22).required Atom.HYDROGEN = 1 ∧
    (∀ k, 0 ≤ (sampleState 21).required k) :=
  ⟨⟨sampleSchedule.take 21, rfl⟩, rfl, rfl,
    (required_nonneg 2 1 (sampleState 21) ⟨sampleSchedule.take 21, rfl⟩).1⟩

/-! ## The cycle counter -/

theorem count_step {l : Label} {s t : State} (h : step l s = some t) :
    (t.count = s.count ∧ finalizes t.trace = finalizes s.trace) ∨
    ((∃ w, l = Label.main w) ∧ s.main.pc = ALoc.fInc ∧ s.count < INT_MAX ∧
      t.count = s.count + 1 ∧ t.trace = Event.finalize :: s.trace) := by
  have ht := trans_of_step h
  cases ht
  case fInc w _ _ _ _ _ _ _ _ hmax => exact Or.inr ⟨⟨w, rfl⟩, rfl, hmax, rfl, rfl⟩
  all_goals exact Or.inl ⟨rfl, rfl⟩

theorem count_run :
    ∀ (ls : List Label) (s t : State), run ls s = some t →
      s.count ≤ t.count ∧ t.count - s.count = (finalizes t.trace : Int) - finalizes s.trace
  | [], s, t, h => by
    simp only [run] at h
    cases h
    simp
  | l :: ls, s, t, h => by
    simp only [run] at h
    split at h
    · cases h
    · rename_i s1 h1
      have ih := count_run ls s1 t h
      rcases count_step h1 with ⟨e1, e2⟩ | ⟨_, _, _, e1, e2⟩
      · rw [e1, e2] at ih
        exact ih
      · rw [e1, e2] at ih
        simp only [finalizes] at ih
        constructor
        · omega
        · push_cast at ih
          omega

/-- C3.  Monotonic cycle counter.  A step either leaves `count` unchanged or
is the assembler's `++count` (line 158), which is defined while `count` is
below `INT_MAX` and then adds exactly 1; in a reachable state the assembler
executes it owning `mutex[FINISHED]`.  Hence along every execution `count`
never decreases and grows by exactly the number of `++count` executed (so it
takes every value between two of its values, once per `++count`), and in a
reachable state `count` is the number of cycles finalized so far. -/
theorem count_monotonic (nH nO : Nat) (s : State) (hr : Reachable nH nO s) :
    (∀ (l : Label) (t : State), step l s = some t →
      t.count = s.count ∨
      ((∃ w, l = Label.main w) ∧ s.main.pc = ALoc.fInc ∧ s.mutex Mx.FINISHED = some Tid.main ∧
        s.count < INT_MAX ∧ t.count = s.count + 1)) ∧
    (∀ w, s.main.pc = ALoc.fInc → s.count < INT_MAX →
      ∃ t, step (Label.main w) s = some t ∧ t.count = s.count + 1) ∧
    (∀ (ls : List Label) (t : State), run ls s = some t →
      s.count ≤ t.count ∧ t.count - s.count = (finalizes t.trace : Int) - finalizes s.trace) ∧
    s.count = finalizes s.trace := by
  have hI := inv_of_reachable hr
  refine ⟨?_, ?_, ?_, ?_⟩
  · intro l t h
    rcases count_step h with ⟨e1, _⟩ | ⟨e0, e1, e2, e3, _⟩
    · exact Or.inl e1
    · refine Or.inr ⟨e0, e1, (hI.owner _ _).mpr ?_, e2, e3⟩
      simp [held, holdsA, e1]
  · intro w hpc hmax
    obtain ⟨req, c, mu, ⟨pc, k, n, r⟩, ps, tr⟩ := s
    simp only at hpc hmax
    subst hpc
    exact ⟨_, step_of_trans (Trans.fInc hmax), rfl⟩
  · intro ls t h
    exact count_run ls s t h
  · obtain ⟨ls, hls⟩ := hr
    have := (count_run ls _ _ hls).2
    simp only [init, finalizes] at this
    simpa using this

/-- Witness for C3: the `++count` of the sample execution takes `count` from
0 to 1. -/
theorem count_monotonic_witness :
    Reachable 2 1 (sampleState 49) ∧ (sampleState 49).count = 0 ∧
    (∃ t, step (Label.main none) (sampleState 49) = some t ∧
      t.count = (sampleState 49).count + 1) :=
  ⟨⟨sampleSchedule.take 49, rfl⟩, rfl,
    (count_monotonic 2 1 (sampleState 49) ⟨sampleSchedule.take 49, rfl⟩).2.1 none rfl
      (by decide)⟩

/-! ## No stale release -/

/-- C5.  No stale release.  In a reachable state, a step after which producer
`i` stands past its `FINISHED` loop (at line 76) while it did not before is
that producer's own test of line 75, taken with `count` different from, and
in fact greater than, its snapshot `currentCount`.  A producer whose test at
line 75 finds `count` equal to its snapshot goes (back) to waiting on
`FINISHED`, and a woken producer re-locks and goes to the test of line 75
again. -/
theorem no_stale_release (nH nO : Nat) (s t : State) (l : Label) (i : Nat) (p q : Producer)
    (hr : Reachable nH nO s) (hstep : step l s = some t)
    (hp : s.producers[i]? = some p) (hq : t.producers[i]? = some q) :
    (p.pc ≠ PLoc.unlockFin → q.pc = PLoc.unlockFin →
      l = Label.producer i ∧ p.pc = PLoc.checkFin ∧ p.currentCount ≠ s.count ∧
        p.currentCount < s.count ∧ q.currentCount = p.currentCount ∧ t.count = s.count) ∧
    (l = Label.producer i → p.pc = PLoc.checkFin → p.currentCount = s.count →
      q = { p with pc := PLoc.waitFin }) ∧
    (l = Label.producer i → p.pc = PLoc.wokenFin → q = { p with pc := PLoc.checkFin }) := by
  have hI := inv_of_reachable hr
  have ht := trans_of_step hstep
  obtain ⟨req, c, mu, ⟨pc, k, n, r⟩, ps, tr⟩ := s
  simp only at hp
  cases ht
  case rLoopWake j y hpc hk hn hmin hy =>
    simp only at hq
    refine ⟨?_, ?_, ?_⟩
    rotate_left
    · intro h
      cases h
    · intro h
      cases h
    intro hppc hqpc
    rcases getElem?_set_cases hy hq with ⟨_, rfl⟩ | ⟨_, h1⟩
    · simp at hqpc
    · rw [hp] at h1
      cases h1
      exact (hppc hqpc).elim
  case fBcast =>
    simp only at hq
    refine ⟨?_, ?_, ?_⟩
    rotate_left
    · intro h
      cases h
    · intro h
      cases h
    intro hppc hqpc
    obtain ⟨y0, h0, rfl⟩ := getElem?_map_wakeFin hq
    rw [hp] at h0
    cases h0
    unfold wakeFin at hqpc
    split at hqpc
    · simp at hqpc
    · exact (hppc hqpc).elim
  case checkFinPass j k2 x hne hy =>
    simp only at hq
    rcases getElem?_set_cases hy hq with ⟨rfl, rfl⟩ | ⟨hij, h1⟩
    · rw [hp] at hy
      cases hy
      refine ⟨?_, ?_, ?_⟩
      · intro _ _
        have hle := hI.snap_le i _ hp rfl
        simp only at hle
        exact ⟨rfl, rfl, hne, lt_of_le_of_ne hle hne, rfl, rfl⟩
      · intro _ _ h
        exact (hne h).elim
      · intro _ h
        simp at h
    · rw [hp] at h1
      cases h1
      refine ⟨fun h1 h2 => (h1 h2).elim, ?_, ?_⟩
      · intro h
        cases h
        exact (hij rfl).elim
      · intro h
        cases h
        exact (hij rfl).elim
  case checkFinWait j k2 x heq hy =>
    simp only at hq
    rcases getElem?_set_cases hy hq with ⟨rfl, rfl⟩ | ⟨hij, h1⟩
    · rw [hp] at hy
      cases hy
      refine ⟨?_, ?_, ?_⟩
      · intro _ h
        simp at h
      · intro _ _ _
        rfl
      · intro _ h
        simp at h
    · rw [hp] at h1
      cases h1
      refine ⟨fun h1 h2 => (h1 h2).elim, ?_, ?_⟩
      · intro h
        cases h
        exact (hij rfl).elim
      · intro h
        cases h
        exact (hij rfl).elim
  case wokenFin j k2 x hfree hy =>
    simp only at hq
    rcases getElem?_set_cases hy hq with ⟨rfl, rfl⟩ | ⟨hij, h1⟩
    · rw [hp] at hy
      cases hy
      refine ⟨?_, ?_, ?_⟩
      · intro _ h
        simp at h
      · intro _ h
        simp at h
      · intro _ _
        rfl
    · rw [hp] at h1
      cases h1
      refine ⟨fun h1 h2 => (h1 h2).elim, ?_, ?_⟩
      · intro h
        cases h
        exact (hij rfl).elim
      · intro h
        cases h
        exact (hij rfl).elim
  all_goals first
    | (simp only at hq
       rw [hp] at hq
       cases hq
       refine ⟨fun h1 h2 => (h1 h2).elim, ?_, ?_⟩
       · intro h
         cases h
       · intro h
         cases h)
    | (rename_i hy
       simp only at hq
       rcases getElem?_set_cases hy hq with ⟨rfl, rfl⟩ | ⟨hij, h1⟩
       · rw [hp] at hy
         cases hy
         refine ⟨?_, ?_, ?_⟩
         · intro _ h
           simp at h
         · intro _ h
           simp at h
         · intro _ h
           simp at h
       · rw [hp] at h1
         cases h1
         refine ⟨fun h1 h2 => (h1 h2).elim, ?_, ?_⟩
         · intro h
           cases h <;> exact (hij rfl).elim
         · intro h
           cases h <;> exact (hij rfl).elim)

/-- Witness for C5: in the sample execution producer 0 leaves the
`FINISHED` loop with snapshot 0 once `count` is 1. -/
theorem no_stale_release_witness :
    Reachable 2 1 (sampleState 53) ∧
    step (Label.producer 0) (sampleState 53) = some (sampleState 54) ∧
    (sampleState 53).producers[0]? = some ⟨Atom.HYDROGEN, PLoc.checkFin, 0⟩ ∧
    (sampleState 54).producers[0]? = some ⟨Atom.HYDROGEN, PLoc.unlockFin, 0⟩ ∧
    (0 : Int) < (sampleState 53).count :=
  ⟨⟨sampleSchedule.take 53, rfl⟩, rfl, rfl, rfl,
    ((no_stale_release 2 1 (sampleState 53) (sampleState 54) (Label.producer 0) 0
      ⟨Atom.HYDROGEN, PLoc.checkFin, 0⟩ ⟨Atom.HYDROGEN, PLoc.unlockFin, 0⟩
      ⟨sampleSchedule.take 53, rfl⟩ rfl rfl rfl).1 (by decide) rfl).2.2.2.1⟩

/-! ## The variant decreases -/

theorem rankP_wakeFin_le {c : Int} {y : Producer}
    (h : y.pc = PLoc.waitFin → y.currentCount ≠ c) : rankP c (wakeFin y) ≤ rankP c y := by
  obtain ⟨ya, ypc, yc⟩ := y
  unfold wakeFin
  split
  · rename_i hpc
    simp only at hpc
    subst hpc
    have := h rfl
    simp only at this
    simp [rankP, this]
  · exact le_refl _

theorem rankA_wakeMain (a : Assembler) : rankA (wakeMain a) ≤ rankA a + 2 := by
  obtain ⟨pc, k, n, r⟩ := a
  unfold wakeMain
  split
  · rename_i h
    simp only at h
    subst h
    cases k <;> simp [rankA, pos, ALoc.sub, signalsLeft]
  · omega

theorem variant_step {nH nO : Nat} {l : Label} {s t : State}
    (hI : Inv nH nO s) (h : Trans l s t) (hl : l.proper = true) (hc : t.count = s.count) :
    variant t < variant s := by
  obtain ⟨req, c, mu, ⟨pc, k, n, r⟩, ps, tr⟩ := s
  have ha := hI.args
  have hse := hI.snap_eq
  have hwe := hI.wait_eq
  cases h
  case fInc hmax =>
    simp only at hc
    omega
  case spuriousMain => simp [Label.proper] at hl
  case spuriousAtom => simp [Label.proper] at hl
  case spuriousFin => simp [Label.proper] at hl
  case rSet =>
    simp only [argsOK] at ha
    rcases ha with ⟨e1, e2, _⟩ | ⟨e1, e2, _⟩ <;> subst e1 <;> subst e2 <;>
      simp [variant, rankA, pos, ALoc.sub, signalsLeft]
  case rLoopWake j q hpc hk hn hmin hq1 =>
    have h1 := le_total (rankP c) hq1
    simp only [variant]
    rw [total_set_eq _ _ hq1]
    have h2 : rankP c q = 0 := by simp [rankP, hpc]
    have h3 : rankP c { q with pc := PLoc.wokenAtom } = 10 := by simp [rankP]
    rw [h2, h3]
    simp only [argsOK] at ha
    rcases ha with ⟨e1, e2, e3, _⟩ | ⟨e1, e2, e3, _⟩ <;> subst e1 <;>
      simp [rankA, pos, ALoc.sub, signalsLeft] <;> omega
  case rLoopMiss hn hmin hnone =>
    simp only [variant]
    simp only [argsOK] at ha
    rcases ha with ⟨e1, e2, e3, _⟩ | ⟨e1, e2, e3, _⟩ <;> subst e1 <;>
      simp [rankA, pos, ALoc.sub, signalsLeft] <;> omega
  case rUnlock =>
    simp only [argsOK] at ha
    rcases ha with ⟨e1, e2⟩ | ⟨e1, e2⟩ <;> subst e1 <;> subst e2 <;>
      simp [variant, rankA, pos, ALoc.sub, signalsLeft]
  case gUnlock =>
    simp only [argsOK] at ha
    rcases ha with ⟨e1, e2⟩ | ⟨e1, e2⟩ <;> subst e1 <;> subst e2 <;>
      simp [variant, rankA, pos, ALoc.sub, signalsLeft]
  case fBcast =>
    simp only [variant]
    have h1 : total (rankP c) (ps.map wakeFin) ≤ total (rankP c) ps := by
      rw [total_map]
      apply total_le
      intro y hy
      obtain ⟨j, hj⟩ := List.getElem?_of_mem hy
      apply rankP_wakeFin_le
      intro hpc
      have := hwe j y hj hpc
      simp only [if_true] at this
      omega
    cases k <;> simp [rankA, pos, ALoc.sub, signalsLeft] <;> omega
  case checkLastSignal i k2 x hz0 hp =>
    have h1 := le_total (rankP c) hp
    have h2 := rankA_wakeMain ⟨pc, k, n, r⟩
    simp only [variant]
    rw [total_set_eq _ _ hp]
    simp [rankP] at h1 ⊢
    omega
  case unlockAtom i k2 x hp =>
    have h1 := le_total (rankP c) hp
    have h2 := hse i _ hp (Or.inr rfl)
    simp only at h2
    simp only [variant]
    rw [total_set_eq _ _ hp]
    simp [rankP, h2] at h1 ⊢
    omega
  case checkFinWait i k2 x heq hp =>
    have h1 := le_total (rankP c) hp
    simp only [variant]
    rw [total_set_eq _ _ hp]
    simp [rankP, heq] at h1 ⊢
    omega
  case checkFinPass i k2 x hne hp =>
    have h1 := le_total (rankP c) hp
    simp only [variant]
    rw [total_set_eq _ _ hp]
    simp [rankP, hne] at h1 ⊢
    omega
  all_goals first
    | (cases k <;> simp [variant, rankA, pos, ALoc.sub, signalsLeft] <;> done)
    | (rename_i hp
       have h1 := le_total (rankP c) hp
       simp only [variant]
       rw [total_set_eq _ _ hp]
       simp [rankP] at h1 ⊢
       first
         | omega
         | (split_ifs at h1 ⊢ <;> omega))

/-- A spurious wake-up leaves `count` alone and raises the variant by at most
10. -/
theorem variant_spurious {u : Tid} {s t : State} (h : Trans (Label.spurious u) s t) :
    t.count = s.count ∧ variant t ≤ variant s + 10 := by
  obtain ⟨req, c, mu, ⟨pc, k, n, r⟩, ps, tr⟩ := s
  cases h
  case spuriousMain =>
    refine ⟨rfl, ?_⟩
    cases k <;> simp [variant, rankA, pos, ALoc.sub, signalsLeft] <;> omega
  case spuriousAtom i k x hp =>
    refine ⟨rfl, ?_⟩
    simp only [variant]
    rw [total_set_eq _ _ hp]
    have h1 := le_total (rankP c) hp
    simp [rankP] at h1 ⊢
    omega
  case spuriousFin i k x hp =>
    refine ⟨rfl, ?_⟩
    simp only [variant]
    rw [total_set_eq _ _ hp]
    have h1 := le_total (rankP c) hp
    simp only [rankP] at h1 ⊢
    split at h1 <;> simp_all <;> omega

/-! ## Enabled steps -/

/-- What producer `p` needs in order to execute its next statement. -/
theorem producer_enabled {s : State} {i : Nat} {p : Producer} (hp : s.producers[i]? = some p)
    (hpc : p.pc ≠ PLoc.waitAtom ∧ p.pc ≠ PLoc.waitFin)
    (h1 : p.pc = PLoc.lockAtom ∨ p.pc = PLoc.wokenAtom → s.mutex (Mx.atom p.atom) = none)
    (h2 : p.pc = PLoc.lockFin ∨ p.pc = PLoc.wokenFin → s.mutex Mx.FINISHED = none)
    (h3 : p.pc = PLoc.decr → INT_MIN < s.required p.atom) :
    ∃ t, step (Label.producer i) s = some t := by
  obtain ⟨pa, pc, x⟩ := p
  simp only [step, produceAtoms, hp]
  cases pc <;> simp_all [intDec]
  all_goals split <;> exact ⟨_, rfl⟩

theorem holder_enabled {nH nO : Nat} {s : State} (hI : Inv nH nO s) {m : Mx} {i : Nat}
    (hm : s.mutex m = some (Tid.producer i)) : ∃ t, step (Label.producer i) s = some t := by
  have e1 := (hI.owner m _).mp hm
  simp only [held] at e1
  split at e1
  · cases e1
  · rename_i p hp
    apply producer_enabled hp
    · constructor <;> intro h <;> simp [holdsP, h] at e1
    · intro h
      rcases h with h | h <;> simp [holdsP, h] at e1
    · intro h
      rcases h with h | h <;> simp [holdsP, h] at e1
    · intro _
      have := hI.req_nonneg p.atom
      simp only [INT_MIN]
      omega

/-- The assembler can execute its next statement unless it is blocked in
`wait(READY, atom)`, the mutex it wants is taken, or `++count` would overflow. -/
theorem main_enabled {nH nO : Nat} {s : State} (hI : Inv nH nO s)
    (hpc : s.main.pc ≠ ALoc.gWait)
    (h1 : s.main.pc = ALoc.rLock ∨ s.main.pc = ALoc.gLock ∨ s.main.pc = ALoc.gWoken →
      s.mutex (Mx.atom s.main.atom) = none)
    (h2 : s.main.pc = ALoc.fLock → s.mutex Mx.FINISHED = none)
    (h3 : s.main.pc = ALoc.fInc → s.count < INT_MAX) :
    ∃ w t, step (Label.main w) s = some t := by
  have ha := hI.args
  obtain ⟨req, c, mu, ⟨pc, k, n, r⟩, ps, tr⟩ := s
  simp only at hpc h1 h2 h3
  cases pc
  case gWait => exact (hpc rfl).elim
  case call151 => exact ⟨none, _, step_of_trans Trans.call151⟩
  case call152 => exact ⟨none, _, step_of_trans Trans.call152⟩
  case call154 => exact ⟨none, _, step_of_trans Trans.call154⟩
  case call155 => exact ⟨none, _, step_of_trans Trans.call155⟩
  case rLock => exact ⟨none, _, step_of_trans (Trans.rLock (h1 (Or.inl rfl)))⟩
  case rSet => exact ⟨none, _, step_of_trans Trans.rSet⟩
  case rLoop =>
    simp only [argsOK] at ha
    have hn : INT_MIN < n := by
      simp only [INT_MIN]
      rcases ha with ⟨_, h, _⟩ | ⟨_, h, _⟩ <;> omega
    by_cases h0 : n = 0
    · subst h0
      exact ⟨none, _, step_of_trans Trans.rLoopExit⟩
    · cases hany : ps.any (waitsOn k) with
      | false => exact ⟨none, _, step_of_trans (Trans.rLoopMiss h0 hn hany)⟩
      | true =>
        rw [List.any_eq_true] at hany
        obtain ⟨q, hq, hw⟩ := hany
        obtain ⟨j, hj⟩ := List.getElem?_of_mem hq
        simp only [waitsOn, Bool.and_eq_true, decide_eq_true_eq] at hw
        exact ⟨some j, _, step_of_trans (Trans.rLoopWake h0 hn hj hw.1 hw.2)⟩
  case rUnlock => exact ⟨none, _, step_of_trans Trans.rUnlock⟩
  case gLock => exact ⟨none, _, step_of_trans (Trans.gLock (h1 (Or.inr (Or.inl rfl))))⟩
  case gCheck =>
    by_cases h0 : req k = 0
    · exact ⟨none, _, step_of_trans (Trans.gCheckPass h0)⟩
    · exact ⟨none, _, step_of_trans (Trans.gCheckWait h0)⟩
  case gWoken => exact ⟨none, _, step_of_trans (Trans.gWoken (h1 (Or.inr (Or.inr rfl))))⟩
  case gUnlock => exact ⟨none, _, step_of_trans Trans.gUnlock⟩
  case fLock => exact ⟨none, _, step_of_trans (Trans.fLock (h2 rfl))⟩
  case fInc => exact ⟨none, _, step_of_trans (Trans.fInc (h3 rfl))⟩
  case fBcast => exact ⟨none, _, step_of_trans Trans.fBcast⟩
  case fUnlock => exact ⟨none, _, step_of_trans Trans.fUnlock⟩

/-! ## Deadlock freedom -/

theorem kind_partition (k : Atom) (c : Int) (ps : List Producer) :
    total (isKind k) ps = total (waiting k) ps + total (delivered k c) ps +
      total (active k c) ps := by
  have h1 : total (isKind k) ps =
      total (fun p => waiting k p + delivered k c p) ps + total (active k c) ps := by
    apply total_add
    intro p _
    obtain ⟨pa, pc, x⟩ := p
    by_cases hk : pa = k
    · by_cases hx : x = c
      · cases pc <;> simp [isKind, waiting, waitsOn, delivered, active, hasDelivered,
          PLoc.afterSnap, hk, hx]
      · cases pc <;> simp [isKind, waiting, waitsOn, delivered, active, hasDelivered,
          PLoc.afterSnap, hk, hx]
    · simp [isKind, waiting, waitsOn, delivered, active, hk]
  have h2 : total (fun p => waiting k p + delivered k c p) ps =
      total (waiting k) ps + total (delivered k c) ps :=
    total_add _ _ _ ps (fun _ _ => rfl)
  omega

/-- When the assembler is blocked in `gather` and every hydrogen slot has at
least 2 producers and oxygen at least 1, some producer can move. -/
theorem gather_not_stuck {nH nO : Nat} {s : State} (hI : Inv nH nO s) (hH : 2 ≤ nH)
    (hO : 1 ≤ nO) (hpc : s.main.pc = ALoc.gWait) :
    ∃ i t, step (Label.producer i) s = some t := by
  by_contra hno
  have hno1 : ∀ i t, step (Label.producer i) s ≠ some t := by
    intro i t h
    exact hno ⟨i, t, h⟩
  -- no mutex is held
  have hfree : ∀ m, s.mutex m = none := by
    intro m
    cases hm : s.mutex m with
    | none => rfl
    | some u =>
      cases u with
      | main =>
        have := (hI.owner m _).mp hm
        simp [held, holdsA, hpc] at this
      | producer i =>
        obtain ⟨t, ht⟩ := holder_enabled hI hm
        exact (hno1 i t ht).elim
  -- every producer is blocked in a wait
  have hblocked : ∀ (i : Nat) (p : Producer), s.producers[i]? = some p →
      p.pc = PLoc.waitAtom ∨ p.pc = PLoc.waitFin := by
    intro i p hp
    by_contra hnb
    have hnb1 : p.pc ≠ PLoc.waitAtom ∧ p.pc ≠ PLoc.waitFin :=
      ⟨fun h => hnb (Or.inl h), fun h => hnb (Or.inr h)⟩
    obtain ⟨t, ht⟩ := producer_enabled hp hnb1 (fun _ => hfree _) (fun _ => hfree _)
      (fun _ => by
        have := hI.req_nonneg p.atom
        simp only [INT_MIN]
        omega)
    exact hno1 i t ht
  obtain ⟨req, c, mu, ⟨pc, k, n, r⟩, ps, tr⟩ := s
  simp only at hpc hblocked
  subst hpc
  -- nobody is about to signal, so the requirement is still positive
  have hsig : total (signalling k) ps = 0 := by
    apply total_eq_zero
    intro p hp
    obtain ⟨j, hj⟩ := List.getElem?_of_mem hp
    rcases hblocked j p hj with h | h <;> simp [signalling, h]
  have hreq : 1 ≤ req k := by
    have h0 := hI.req_nonneg k
    by_contra hlt
    have hz : req k = 0 := by
      simp only at h0
      omega
    have := hI.ready rfl hz
    simp only at this
    omega
  -- nobody is active
  have hact : total (active k c) ps = 0 := by
    apply total_eq_zero
    intro p hp
    obtain ⟨j, hj⟩ := List.getElem?_of_mem hp
    rcases hblocked j p hj with h | h
    · simp [active, h]
    · have := hI.wait_eq j p hj h
      simp at this
      simp [active, hasDelivered, h, PLoc.afterSnap, this]
  have hwake := hI.wake k
  have hdel := hI.deliv k
  have hkinds := hI.kinds
  have hpart := kind_partition k c ps
  simp only at hwake hdel hkinds
  have hpend : pending k ⟨ALoc.gWait, k, n, r⟩ = 0 := by simp [pending]
  rw [hpend, hact] at hwake
  have hw0 : total (waiting k) ps = 0 := by
    rcases hwake with h | h
    · exact h
    · simp only [Nat.cast_zero, add_zero] at h
      omega
  rw [hw0, hact] at hpart
  cases k
  · have ht : target Atom.HYDROGEN ⟨ALoc.gWait, Atom.HYDROGEN, n, r⟩ = 2 := by
      simp [target, demanded, pos, recipe]
    rw [ht] at hdel
    omega
  · have ht : target Atom.OXYGEN ⟨ALoc.gWait, Atom.OXYGEN, n, r⟩ = 1 := by
      simp [target, demanded, pos, recipe]
    rw [ht] at hdel
    omega

/-- With at least 2 hydrogen and 1 oxygen producers, every state satisfying
the invariant has an enabled program step, unless the assembler stands at
`++count` with `count = INT_MAX`. -/
theorem not_stuck {nH nO : Nat} {s : State} (hI : Inv nH nO s) (hH : 2 ≤ nH) (hO : 1 ≤ nO)
    (hmax : s.main.pc = ALoc.fInc → s.count < INT_MAX) :
    ∃ l t, Label.proper l = true ∧ step l s = some t := by
  by_cases hpc : s.main.pc = ALoc.gWait
  · obtain ⟨i, t, h⟩ := gather_not_stuck hI hH hO hpc
    exact ⟨Label.producer i, t, rfl, h⟩
  · by_cases h1 : (s.main.pc = ALoc.rLock ∨ s.main.pc = ALoc.gLock ∨ s.main.pc = ALoc.gWoken) ∧
        s.mutex (Mx.atom s.main.atom) ≠ none
    · obtain ⟨hl, hm⟩ := h1
      cases hmu : s.mutex (Mx.atom s.main.atom) with
      | none => exact (hm hmu).elim
      | some u =>
        cases u with
        | main =>
          have := (hI.owner _ _).mp hmu
          simp only [held, holdsA] at this
          rcases hl with h | h | h <;> simp [h] at this
        | producer i =>
          obtain ⟨t, ht⟩ := holder_enabled hI hmu
          exact ⟨Label.producer i, t, rfl, ht⟩
    · by_cases h2 : s.main.pc = ALoc.fLock ∧ s.mutex Mx.FINISHED ≠ none
      · obtain ⟨hl, hm⟩ := h2
        cases hmu : s.mutex Mx.FINISHED with
        | none => exact (hm hmu).elim
        | some u =>
          cases u with
          | main =>
            have := (hI.owner _ _).mp hmu
            simp [held, holdsA, hl] at this
          | producer i =>
            obtain ⟨t, ht⟩ := holder_enabled hI hmu
            exact ⟨Label.producer i, t, rfl, ht⟩
      · obtain ⟨w, t, ht⟩ := main_enabled hI hpc
          (fun h => by
            by_contra hm
            exact h1 ⟨h, hm⟩)
          (fun h => by
            by_contra hm
            exact h2 ⟨h, hm⟩) hmax
        exact ⟨Label.main w, t, rfl, ht⟩

/-! ## Progress -/

theorem inev_bind {P Q : State → Prop} {b : Nat} {s : State} (h : Inev P b s) :
    (∀ c t, c ≤ b → P t → Inev Q c t) → Inev Q b s := by
  induction h with
  | now hp =>
    intro hPQ
    exact hPQ _ _ (le_refl _) hp
  | later hex _ _ ih1 ih2 =>
    intro hPQ
    refine Inev.later hex (fun l t hl hs => ih1 l t hl hs hPQ) ?_
    intro c u t hc hs
    exact ih2 c u t hc hs (fun d x hd hx => hPQ d x (by omega) hx)

theorem inev_mono {P Q : State → Prop} {b : Nat} {s : State} (h : Inev P b s)
    (hPQ : ∀ t, P t → Q t) : Inev Q b s :=
  inev_bind h (fun _ t _ ht => Inev.now (hPQ t ht))

/-- From a state below `INT_MAX`, every execution with at most `b` spurious
wake-ups reaches the next `++count`. -/
theorem next_cycle {nH nO : Nat} (hH : 2 ≤ nH) (hO : 1 ≤ nO) :
    ∀ (v b : Nat) (s : State), variant s + 11 * b = v → Inv nH nO s → s.count < INT_MAX →
      Inev (fun t => Inv nH nO t ∧ t.count = s.count + 1) b s := by
  intro v
  induction v using Nat.strong_induction_on with
  | _ v ih =>
    intro b s hv hI hlt
    refine Inev.later (not_stuck hI hH hO (fun _ => hlt)) ?_ ?_
    · intro l t hl hstep
      have hIt := inv_step hI hstep
      rcases count_step hstep with ⟨e1, _⟩ | ⟨_, _, _, e1, _⟩
      · have hdec := variant_step hI (trans_of_step hstep) hl e1
        have := ih (variant t + 11 * b) (by omega) b t rfl hIt (by omega)
        rw [e1] at this
        exact this
      · exact Inev.now ⟨hIt, e1⟩
    · intro c u t hc hstep
      have hIt := inv_step hI hstep
      have hsp := variant_spurious (trans_of_step hstep)
      have := ih (variant t + 11 * c) (by omega) c t rfl hIt (by omega)
      rw [hsp.1] at this
      exact this

theorem reach_count {nH nO : Nat} (hH : 2 ≤ nH) (hO : 1 ≤ nO) :
    ∀ (d b : Nat) (s : State), Inv nH nO s → s.count + d ≤ INT_MAX →
      Inev (fun t => Inv nH nO t ∧ t.count = s.count + d) b s
  | 0, _, s, hI, _ => Inev.now ⟨hI, by simp⟩
  | d + 1, b, s, hI, hle => by
    have h1 := next_cycle hH hO (variant s + 11 * b) b s rfl hI (by push_cast at hle; omega)
    refine inev_bind h1 ?_
    intro c t _ ht
    obtain ⟨hIt, hc⟩ := ht
    have h2 := reach_count hH hO d c t hIt (by push_cast at hle; omega)
    refine inev_mono h2 ?_
    intro u hu
    refine ⟨hu.1, ?_⟩
    rw [hu.2, hc]
    push_cast
    ring

/-- Without any fairness: in the system with at least 2 hydrogen and 1 oxygen
producers, from every reachable state and for every bound `b` on the number
of spurious wake-ups, `count` reaches every value up to `INT_MAX` on every
schedule. -/
theorem bounded_spurious_progress (nH nO : Nat) (s : State) (hr : Reachable nH nO s)
    (hH : 2 ≤ nH) (hO : 1 ≤ nO) (n : Int) (b : Nat) (h1 : s.count ≤ n) (h2 : n ≤ INT_MAX) :
    Inev (fun t => t.count = n) b s := by
  have hI := inv_of_reachable hr
  have h3 := reach_count hH hO (n - s.count).toNat b s hI (by
    rw [Int.toNat_of_nonneg (by omega)]
    omega)
  refine inev_mono h3 ?_
  intro t ht
  rw [ht.2, Int.toNat_of_nonneg (by omega)]
  ring

/-! ## Reachability along a step -/

theorem run_snoc (ls : List Label) (l : Label) :
    ∀ (s t u : State), run ls s = some t → step l t = some u → run (ls ++ [l]) s = some u := by
  induction ls with
  | nil =>
    intro s t u h1 h2
    simp only [run, Option.some.injEq] at h1
    subst h1
    simp [run, h2]
  | cons x xs ih =>
    intro s t u h1 h2
    simp only [List.cons_append, run] at h1 ⊢
    cases hx : step x s with
    | none => simp [hx] at h1
    | some y =>
      simp only [hx] at h1 ⊢
      exact ih y t u h1 h2

theorem reachable_step {nH nO : Nat} {s t : State} {l : Label} (hr : Reachable nH nO s)
    (h : step l s = some t) : Reachable nH nO t := by
  obtain ⟨ls, hls⟩ := hr
  exact ⟨ls ++ [l], run_snoc ls l _ _ _ hls h⟩

/-! ## The potential -/

theorem rankQ_wakeFin_le (c : Int) (y : Producer) : rankQ c (wakeFin y) ≤ rankQ c y := by
  obtain ⟨ya, ypc, yc⟩ := y
  unfold wakeFin
  split
  · rename_i hpc
    simp only at hpc
    subst hpc
    simp only [rankQ]
    split <;> omega
  · exact le_refl _

theorem rankB_wakeMain (a : Assembler) : rankB (wakeMain a) = rankB a := by
  obtain ⟨pc, k, n, r⟩ := a
  unfold wakeMain
  split
  · rename_i h
    simp only at h
    subst h
    cases k <;> simp [rankB, pos]
  · rfl

/-- While `count` stays the same the potential never grows, and it drops with
every step that is not a turn of a waiting loop. -/
theorem potential_step {nH nO : Nat} {l : Label} {s t : State}
    (hI : Inv nH nO s) (h : Trans l s t) (hc : t.count = s.count) :
    potential t ≤ potential s ∧ (loopMove l s = false → potential t < potential s) := by
  obtain ⟨req, c, mu, ⟨pc, k, n, r⟩, ps, tr⟩ := s
  have ha := hI.args
  have hse := hI.snap_eq
  have hwe := hI.wait_eq
  cases h
  case fInc hmax =>
    simp only at hc
    omega
  case rSet =>
    simp only [argsOK] at ha
    rcases ha with ⟨e1, e2, _⟩ | ⟨e1, e2, _⟩ <;> subst e1 <;> subst e2 <;>
      simp [potential, rankB, pos, loopMove]
  case rLoopWake j q hpc hk hn hmin hq1 =>
    have h1 := le_total (rankQ c) hq1
    simp only [potential]
    rw [total_set_eq _ _ hq1]
    have h2 : rankQ c q = 9 := by simp [rankQ, hpc]
    have h3 : rankQ c { q with pc := PLoc.wokenAtom } = 9 := by simp [rankQ]
    rw [h2, h3]
    rw [h2] at h1
    simp only [argsOK] at ha
    rcases ha with ⟨e1, e2, e3, _⟩ | ⟨e1, e2, e3, _⟩ <;> subst e1 <;>
      simp [rankB, pos, loopMove] <;> omega
  case rLoopMiss hn hmin hnone =>
    simp only [potential]
    simp only [argsOK] at ha
    rcases ha with ⟨e1, e2, e3, _⟩ | ⟨e1, e2, e3, _⟩ <;> subst e1 <;>
      simp [rankB, pos, loopMove] <;> omega
  case rUnlock =>
    simp only [argsOK] at ha
    rcases ha with ⟨e1, e2⟩ | ⟨e1, e2⟩ <;> subst e1 <;> subst e2 <;>
      simp [potential, rankB, pos, loopMove]
  case gUnlock =>
    simp only [argsOK] at ha
    rcases ha with ⟨e1, e2⟩ | ⟨e1, e2⟩ <;> subst e1 <;> subst e2 <;>
      simp [potential, rankB, pos, loopMove]
  case fBcast =>
    simp only [potential]
    have h1 : total (rankQ c) (ps.map wakeFin) ≤ total (rankQ c) ps := by
      rw [total_map]
      apply total_le
      intro y _
      exact rankQ_wakeFin_le c y
    cases k <;> simp [rankB, pos, loopMove] <;> omega
  case checkLastSignal i k2 x hz0 hp =>
    have h1 := le_total (rankQ c) hp
    have h2 := rankB_wakeMain ⟨pc, k, n, r⟩
    simp only [potential]
    rw [total_set_eq _ _ hp, h2]
    simp [rankQ, loopMove, hp] at h1 ⊢
    omega
  case unlockAtom i k2 x hp =>
    have h1 := le_total (rankQ c) hp
    have h2 := hse i _ hp (Or.inr rfl)
    simp only at h2
    simp only [potential]
    rw [total_set_eq _ _ hp]
    simp [rankQ, h2, loopMove, hp] at h1 ⊢
    omega
  case checkFinWait i k2 x heq hp =>
    have h1 := le_total (rankQ c) hp
    simp only [potential]
    rw [total_set_eq _ _ hp]
    simp [rankQ, heq, loopMove, hp] at h1 ⊢
  case checkFinPass i k2 x hne hp =>
    have h1 := le_total (rankQ c) hp
    simp only [potential]
    rw [total_set_eq _ _ hp]
    simp [rankQ, hne, loopMove, hp] at h1 ⊢
    omega
  case checkReqWait i k2 x hz hp =>
    have h1 := le_total (rankQ c) hp
    simp only [potential]
    rw [total_set_eq _ _ hp]
    simp [rankQ, hz, loopMove, hp] at h1 ⊢
  case checkReqPass i k2 x hz hp =>
    have h1 := le_total (rankQ c) hp
    simp only [potential]
    rw [total_set_eq _ _ hp]
    simp [rankQ, hz, loopMove, hp] at h1 ⊢
    omega
  case gCheckWait hz => cases k <;> simp [potential, rankB, pos, loopMove, hz]
  case gCheckPass hz => cases k <;> simp [potential, rankB, pos, loopMove, hz]
  all_goals first
    | (cases k <;> simp [potential, rankB, pos, loopMove] <;> done)
    | (rename_i hp
       have h1 := le_total (rankQ c) hp
       simp only [potential]
       rw [total_set_eq _ _ hp]
       simp [rankQ, loopMove, hp] at h1 ⊢
       first
         | done
         | omega
         | (split_ifs at h1 ⊢ <;> omega))

/-- A turn of a waiting loop changes neither `required` nor `count`, and if
the thread that makes it owns a mutex, the turn releases it (the thread goes to
wait). -/
theorem loop_step {nH nO : Nat} {l : Label} {s t : State}
    (hI : Inv nH nO s) (h : Trans l s t) (hl : loopMove l s = true) :
    t.required = s.required ∧ t.count = s.count ∧
      ∀ u m, Label.thread l = some u → s.mutex m = some u → t.mutex m = none := by
  obtain ⟨req, c, mu, ⟨pc, k, n, r⟩, ps, tr⟩ := s
  have ho := hI.owner
  cases h
  case spuriousMain => exact ⟨rfl, rfl, fun u m hu => by simp [Label.thread] at hu⟩
  case spuriousAtom => exact ⟨rfl, rfl, fun u m hu => by simp [Label.thread] at hu⟩
  case spuriousFin => exact ⟨rfl, rfl, fun u m hu => by simp [Label.thread] at hu⟩
  case gCheckWait hz =>
    refine ⟨rfl, rfl, ?_⟩
    intro u m hu hm
    simp only [Label.thread, Option.some.injEq] at hu
    subst hu
    have e := (ho m _).mp hm
    simp [held, holdsA] at e
    subst e
    simp [setMutex]
  case gWoken hfree =>
    refine ⟨rfl, rfl, ?_⟩
    intro u m hu hm
    simp only [Label.thread, Option.some.injEq] at hu
    subst hu
    have e := (ho m _).mp hm
    simp [held, holdsA] at e
  case checkReqWait i k2 x hz hp =>
    refine ⟨rfl, rfl, ?_⟩
    intro u m hu hm
    simp only [Label.thread, Option.some.injEq] at hu
    subst hu
    have e := (ho m _).mp hm
    simp [held, hp, holdsP] at e
    subst e
    simp [setMutex]
  case checkFinWait i k2 x heq hp =>
    refine ⟨rfl, rfl, ?_⟩
    intro u m hu hm
    simp only [Label.thread, Option.some.injEq] at hu
    subst hu
    have e := (ho m _).mp hm
    simp [held, hp, holdsP] at e
    subst e
    simp [setMutex]
  case wokenAtom i k2 x hfree hp =>
    refine ⟨rfl, rfl, ?_⟩
    intro u m hu hm
    simp only [Label.thread, Option.some.injEq] at hu
    subst hu
    have e := (ho m _).mp hm
    simp [held, hp, holdsP] at e
  case wokenFin i k2 x hfree hp =>
    refine ⟨rfl, rfl, ?_⟩
    intro u m hu hm
    simp only [Label.thread, Option.some.injEq] at hu
    subst hu
    have e := (ho m _).mp hm
    simp [held, hp, holdsP] at e
  case gCheckPass hz => simp [loopMove, hz] at hl
  case checkReqPass i k2 x hz hp => simp [loopMove, hp, hz] at hl
  case checkFinPass i k2 x hne hp => simp [loopMove, hp, hne] at hl
  case produce | lockAtom | decr | snap | checkLastSignal | checkLastSkip | unlockAtom
      | lockFin | unlockFin =>
    rename_i hp
    simp [loopMove, hp] at hl
  all_goals simp [loopMove] at hl

theorem setMutex_lock_frame {mu : Mx → Option Tid} {m M : Mx} {u : Tid} (v : Option Tid)
    (hfree : mu M = none) (hm : mu m = some u) : setMutex mu M v m = some u := by
  simp only [setMutex]
  split
  · rename_i e
    subst e
    rw [hfree] at hm
    cases hm
  · exact hm

theorem setMutex_unlock_frame {mu : Mx → Option Tid} {m M : Mx} {u U : Tid}
    (hown : mu M = some U) (hne : U ≠ u) (hm : mu m = some u) :
    setMutex mu M none m = some u := by
  simp only [setMutex]
  split
  · rename_i e
    subst e
    rw [hown] at hm
    cases hm
    exact absurd rfl hne
  · exact hm

/-- A mutex stays with its owner as long as the owner does not move. -/
theorem mutex_frame {nH nO : Nat} {l : Label} {s t : State}
    (hI : Inv nH nO s) (h : Trans l s t) {m : Mx} {u : Tid} (hm : s.mutex m = some u)
    (hl : Label.thread l ≠ some u) : t.mutex m = some u := by
  obtain ⟨req, c, mu, ⟨pc, k, n, r⟩, ps, tr⟩ := s
  have ho := hI.owner
  simp only at hm
  cases h
  case rLock hfree => exact setMutex_lock_frame _ hfree hm
  case gLock hfree => exact setMutex_lock_frame _ hfree hm
  case gWoken hfree => exact setMutex_lock_frame _ hfree hm
  case fLock hfree => exact setMutex_lock_frame _ hfree hm
  case lockAtom i k2 x hfree hp => exact setMutex_lock_frame _ hfree hm
  case wokenAtom i k2 x hfree hp => exact setMutex_lock_frame _ hfree hm
  case lockFin i k2 x hfree hp => exact setMutex_lock_frame _ hfree hm
  case wokenFin i k2 x hfree hp => exact setMutex_lock_frame _ hfree hm
  case rUnlock =>
    exact setMutex_unlock_frame ((ho _ Tid.main).mpr rfl) (fun e => hl (by rw [← e]; rfl)) hm
  case gUnlock =>
    exact setMutex_unlock_frame ((ho _ Tid.main).mpr rfl) (fun e => hl (by rw [← e]; rfl)) hm
  case gCheckWait =>
    exact setMutex_unlock_frame ((ho _ Tid.main).mpr rfl) (fun e => hl (by rw [← e]; rfl)) hm
  case fUnlock =>
    exact setMutex_unlock_frame ((ho _ Tid.main).mpr rfl) (fun e => hl (by rw [← e]; rfl)) hm
  case checkReqWait i k2 x hz hp =>
    exact setMutex_unlock_frame ((ho _ (Tid.producer i)).mpr ((held_producer_at hp).trans rfl))
      (fun e => hl (by rw [← e]; rfl)) hm
  case unlockAtom i k2 x hp =>
    exact setMutex_unlock_frame ((ho _ (Tid.producer i)).mpr ((held_producer_at hp).trans rfl))
      (fun e => hl (by rw [← e]; rfl)) hm
  case checkFinWait i k2 x heq hp =>
    exact setMutex_unlock_frame ((ho _ (Tid.producer i)).mpr ((held_producer_at hp).trans rfl))
      (fun e => hl (by rw [← e]; rfl)) hm
  case unlockFin i k2 x hp =>
    exact setMutex_unlock_frame ((ho _ (Tid.producer i)).mpr ((held_producer_at hp).trans rfl))
      (fun e => hl (by rw [← e]; rfl)) hm
  all_goals exact hm

/-! ## Threads that do not move -/

/-- A producer that is not blocked in a wait changes only by its own steps. -/
theorem frame_producer {l : Label} {s t : State} (h : Trans l s t) {i : Nat} {p : Producer}
    (hp : s.producers[i]? = some p) (hl : Label.thread l ≠ some (Tid.producer i))
    (h1 : p.pc ≠ PLoc.waitAtom) (h2 : p.pc ≠ PLoc.waitFin) : t.producers[i]? = some p := by
  obtain ⟨req, c, mu, ⟨pc, k, n, r⟩, ps, tr⟩ := s
  simp only at hp
  cases h
  case rLoopWake j q hpc hk hn hmin hq =>
    have hji : j ≠ i := by
      intro e
      subst e
      rw [hq] at hp
      cases hp
      exact h1 hpc
    simp only
    rw [List.getElem?_set_ne hji]
    exact hp
  case fBcast =>
    simp only [List.getElem?_map, hp, Option.map_some', wakeFin, if_neg h2]
  case spuriousAtom j k2 x hq =>
    have hji : j ≠ i := by
      intro e
      subst e
      rw [hq] at hp
      cases hp
      exact h1 rfl
    simp only
    rw [List.getElem?_set_ne hji]
    exact hp
  case spuriousFin j k2 x hq =>
    have hji : j ≠ i := by
      intro e
      subst e
      rw [hq] at hp
      cases hp
      exact h2 rfl
    simp only
    rw [List.getElem?_set_ne hji]
    exact hp
  all_goals first
    | exact hp
    | (rename_i j _ _ _
       have hji : j ≠ i := fun e => hl (by rw [e]; rfl)
       simp only
       rw [List.getElem?_set_ne hji]
       exact hp)
    | (rename_i j _ _ _ _
       have hji : j ≠ i := fun e => hl (by rw [e]; rfl)
       simp only
       rw [List.getElem?_set_ne hji]
       exact hp)

/-- The assembler, when it is not blocked in `wait(READY, atom)`, changes only
by its own steps. -/
theorem frame_main {l : Label} {s t : State} (h : Trans l s t)
    (hl : Label.thread l ≠ some Tid.main) (h1 : s.main.pc ≠ ALoc.gWait) : t.main = s.main := by
  obtain ⟨req, c, mu, ⟨pc, k, n, r⟩, ps, tr⟩ := s
  simp only at h1
  cases h
  case checkLastSignal =>
    simp only [wakeMain, if_neg h1]
  case spuriousMain => exact absurd rfl h1
  all_goals first
    | rfl
    | exact absurd rfl hl

/-! ## Executions under a schedule -/

theorem exec_step {σ : Nat → Label} {s : State} {k : Nat} {t : State}
    (h : step (σ k) (exec σ s k) = some t) : exec σ s (k + 1) = t := by
  simp only [exec, h, Option.getD_some]

theorem exec_skip {σ : Nat → Label} {s : State} {k : Nat}
    (h : step (σ k) (exec σ s k) = none) : exec σ s (k + 1) = exec σ s k := by
  simp only [exec, h, Option.getD_none]

theorem reachable_exec {nH nO : Nat} {s : State} (hr : Reachable nH nO s) (σ : Nat → Label) :
    ∀ k, Reachable nH nO (exec σ s k)
  | 0 => hr
  | k + 1 => by
    cases h : step (σ k) (exec σ s k) with
    | none =>
      rw [exec_skip h]
      exact reachable_exec hr σ k
    | some t =>
      rw [exec_step h]
      exact reachable_step (reachable_exec hr σ k) h

theorem thread_producer {l : Label} {i : Nat} (h : Label.thread l = some (Tid.producer i)) :
    l = Label.producer i := by
  cases l <;> simp [Label.thread] at h
  subst h
  rfl

theorem thread_main {l : Label} (h : Label.thread l = some Tid.main) : ∃ w, l = Label.main w := by
  cases l <;> simp [Label.thread] at h
  exact ⟨_, rfl⟩

/-- While only turns of waiting loops are made, `required` and `count` do not
change. -/
theorem quiet_const {nH nO : Nat} {s : State} (hr : Reachable nH nO s) {σ : Nat → Label}
    {k0 : Nat} (hq : quietFrom σ s k0) :
    ∀ j, k0 ≤ j → (exec σ s j).required = (exec σ s k0).required ∧
      (exec σ s j).count = (exec σ s k0).count := by
  intro j hj
  induction j, hj using Nat.le_induction with
  | base => exact ⟨rfl, rfl⟩
  | succ j hj ih =>
    cases h : step (σ j) (exec σ s j) with
    | none =>
      rw [exec_skip h]
      exact ih
    | some t =>
      rw [exec_step h]
      have h1 := loop_step (inv_of_reachable (reachable_exec hr σ j)) (trans_of_step h)
        (hq j hj t h)
      exact ⟨h1.1.trans ih.1, h1.2.1.trans ih.2⟩

/-- Under fair scheduling: a thread that keeps property `P` as long as it does
not run, and that under `P` is enabled again and again, eventually runs in a
state with `P`. -/
theorem eventually_runs {σ : Nat → Label} {s : State} (hfair : Fair σ s) (u : Tid)
    (P : State → Prop) (k : Nat) (h0 : P (exec σ s k))
    (hkeep : ∀ j, k ≤ j → P (exec σ s j) → ¬ runsAt σ s u j → P (exec σ s (j + 1)))
    (hen : (∀ j, k ≤ j → P (exec σ s j)) →
      ∀ j, k ≤ j → ∃ j', j ≤ j' ∧ enabled u (exec σ s j')) :
    ∃ j, k ≤ j ∧ P (exec σ s j) ∧ runsAt σ s u j := by
  by_contra hne
  have hne1 : ∀ j, k ≤ j → P (exec σ s j) → ¬ runsAt σ s u j :=
    fun j hj hP hrun => hne ⟨j, hj, hP, hrun⟩
  have hall : ∀ j, k ≤ j → P (exec σ s j) := by
    intro j hj
    induction j, hj using Nat.le_induction with
    | base => exact h0
    | succ j hj ih => exact hkeep j hj ih (hne1 j hj ih)
  have hio : ∀ k1, ∃ j, k1 ≤ j ∧ enabled u (exec σ s j) := by
    intro k1
    obtain ⟨j1, hj1, he⟩ := hen hall (max k k1) (le_max_left _ _)
    exact ⟨j1, le_trans (le_max_right _ _) hj1, he⟩
  obtain ⟨j, hj, hrun⟩ := hfair u hio k
  exact hne1 j hj (hall j hj) hrun

/-- The owner of a mutex can execute its next statement. -/
theorem owner_enabled {nH nO : Nat} {s : State} (hI : Inv nH nO s) {m : Mx} {u : Tid}
    (hm : s.mutex m = some u) (hc : s.count < INT_MAX) : enabled u s := by
  cases u with
  | producer i =>
    obtain ⟨t, ht⟩ := holder_enabled hI hm
    exact ⟨Label.producer i, t, rfl, ht⟩
  | main =>
    have e := (hI.owner m _).mp hm
    simp only [held] at e
    obtain ⟨w, t, ht⟩ := main_enabled hI
      (fun h => by simp [holdsA, h] at e)
      (fun h => by rcases h with h | h | h <;> simp [holdsA, h] at e)
      (fun h => by simp [holdsA, h] at e)
      (fun _ => hc)
    exact ⟨Label.main w, t, rfl, ht⟩

/-- Under fair scheduling, while only turns of waiting loops are made, every
mutex is free again and again. -/
theorem free_again {nH nO : Nat} {s : State} (hr : Reachable nH nO s) {σ : Nat → Label}
    (hfair : Fair σ s) {k0 : Nat} (hq : quietFrom σ s k0)
    (hc : (exec σ s k0).count < INT_MAX) (m : Mx) :
    ∀ j, k0 ≤ j → ∃ j', j ≤ j' ∧ (exec σ s j').mutex m = none := by
  intro j hj
  by_contra hno
  have hno1 : ∀ j', j ≤ j' → (exec σ s j').mutex m ≠ none := fun j' h1 h2 => hno ⟨j', h1, h2⟩
  cases hm : (exec σ s j).mutex m with
  | none => exact hno1 j (le_refl _) hm
  | some u =>
    obtain ⟨j1, hj1, hP, hth, t, ht⟩ := eventually_runs hfair u
      (fun x => x.mutex m = some u) j hm (by
        intro i hi hP hnr
        cases h : step (σ i) (exec σ s i) with
        | none =>
          rw [exec_skip h]
          exact hP
        | some t =>
          rw [exec_step h]
          exact mutex_frame (inv_of_reachable (reachable_exec hr σ i)) (trans_of_step h) hP
            (fun hth => hnr ⟨hth, t, h⟩)) (by
        intro hall i hi
        refine ⟨i, le_refl _, ?_⟩
        refine owner_enabled (inv_of_reachable (reachable_exec hr σ i)) (hall i hi) ?_
        rw [(quiet_const hr hq i (le_trans hj hi)).2]
        exact hc)
    have hloop := hq j1 (le_trans hj hj1) t ht
    have h2 := (loop_step (inv_of_reachable (reachable_exec hr σ j1)) (trans_of_step ht)
      hloop).2.2 u m hth hP
    refine hno1 (j1 + 1) (by omega) ?_
    rw [exec_step ht]
    exact h2

/-- Under fair scheduling, while only turns of waiting loops are made, a
producer that is not blocked in a wait eventually executes its next
statement. -/
theorem producer_runs {nH nO : Nat} {s : State} (hr : Reachable nH nO s) {σ : Nat → Label}
    (hfair : Fair σ s) {k0 : Nat} (hq : quietFrom σ s k0)
    (hc : (exec σ s k0).count < INT_MAX) {i : Nat} {p : Producer} (j : Nat) (hj : k0 ≤ j)
    (hp : (exec σ s j).producers[i]? = some p) (h1 : p.pc ≠ PLoc.waitAtom)
    (h2 : p.pc ≠ PLoc.waitFin) :
    ∃ j1, j ≤ j1 ∧ (exec σ s j1).producers[i]? = some p ∧ σ j1 = Label.producer i ∧
      ∃ t, step (Label.producer i) (exec σ s j1) = some t ∧ exec σ s (j1 + 1) = t := by
  obtain ⟨j1, hj1, hP, hth, t, ht⟩ := eventually_runs hfair (Tid.producer i)
    (fun x => x.producers[i]? = some p) j hp (by
      intro a ha hP hnr
      cases h : step (σ a) (exec σ s a) with
      | none =>
        rw [exec_skip h]
        exact hP
      | some t =>
        rw [exec_step h]
        exact frame_producer (trans_of_step h) hP (fun hth => hnr ⟨hth, t, h⟩) h1 h2) (by
      intro hall a ha
      obtain ⟨a1, ha1, hfree⟩ := free_again hr hfair hq hc
        (if p.pc = PLoc.lockFin ∨ p.pc = PLoc.wokenFin then Mx.FINISHED else Mx.atom p.atom)
        a (le_trans hj ha)
      refine ⟨a1, ha1, ?_⟩
      have hI := inv_of_reachable (reachable_exec hr σ a1)
      obtain ⟨t, ht⟩ := producer_enabled (hall a1 (le_trans ha ha1)) ⟨h1, h2⟩
        (fun h => by
          have hn : ¬ (p.pc = PLoc.lockFin ∨ p.pc = PLoc.wokenFin) := by
            rcases h with h | h <;> simp [h]
          rw [if_neg hn] at hfree
          exact hfree)
        (fun h => by
          rw [if_pos h] at hfree
          exact hfree)
        (fun _ => by
          have := hI.req_nonneg p.atom
          simp only [INT_MIN]
          omega)
      exact ⟨Label.producer i, t, rfl, ht⟩)
  have hl := thread_producer hth
  rw [hl] at ht
  exact ⟨j1, hj1, hP, hl, t, ht, by
    rw [← hl] at ht
    exact exec_step ht⟩

/-- Under fair scheduling, while only turns of waiting loops are made, the
assembler, unless it is blocked in `wait(READY, atom)`, eventually executes
its next statement. -/
theorem main_runs {nH nO : Nat} {s : State} (hr : Reachable nH nO s) {σ : Nat → Label}
    (hfair : Fair σ s) {k0 : Nat} (hq : quietFrom σ s k0)
    (hc : (exec σ s k0).count < INT_MAX) {a : Assembler} (j : Nat) (hj : k0 ≤ j)
    (ha : (exec σ s j).main = a) (h1 : a.pc ≠ ALoc.gWait) :
    ∃ j1, j ≤ j1 ∧ (exec σ s j1).main = a ∧
      ∃ w t, σ j1 = Label.main w ∧ step (Label.main w) (exec σ s j1) = some t ∧
        exec σ s (j1 + 1) = t := by
  obtain ⟨j1, hj1, hP, hth, t, ht⟩ := eventually_runs hfair Tid.main
    (fun x => x.main = a) j ha (by
      intro b hb hP hnr
      cases h : step (σ b) (exec σ s b) with
      | none =>
        rw [exec_skip h]
        exact hP
      | some t =>
        rw [exec_step h]
        rw [frame_main (trans_of_step h) (fun hth => hnr ⟨hth, t, h⟩) (by rw [hP]; exact h1)]
        exact hP) (by
      intro hall b hb
      obtain ⟨b1, hb1, hfree⟩ := free_again hr hfair hq hc
        (if a.pc = ALoc.fLock then Mx.FINISHED else Mx.atom a.atom) b (le_trans hj hb)
      refine ⟨b1, hb1, ?_⟩
      have hI := inv_of_reachable (reachable_exec hr σ b1)
      have hm := hall b1 (le_trans hb hb1)
      obtain ⟨w, t, ht⟩ := main_enabled hI (by rw [hm]; exact h1)
        (fun h => by
          rw [hm] at h ⊢
          have hn : a.pc ≠ ALoc.fLock := by
            rcases h with h | h | h <;> simp [h]
          rw [if_neg hn] at hfree
          exact hfree)
        (fun h => by
          rw [hm] at h
          rw [if_pos h] at hfree
          exact hfree)
        (fun _ => by
          rw [(quiet_const hr hq b1 (le_trans hj (le_trans hb hb1))).2]
          exact hc)
      exact ⟨Label.main w, t, rfl, ht⟩)
  obtain ⟨w, hl⟩ := thread_main hth
  rw [hl] at ht
  exact ⟨j1, hj1, hP, w, t, hl, ht, by
    rw [← hl] at ht
    exact exec_step ht⟩

/-! ## No execution stays in the waiting loops -/

theorem wokenAtom_step {s t : State} {i : Nat} {k : Atom} {x : Int}
    (h : step (Label.producer i) s = some t)
    (hp : s.producers[i]? = some ⟨k, PLoc.wokenAtom, x⟩) :
    t.producers[i]? = some ⟨k, PLoc.checkReq, x⟩ := by
  simp only [step, produceAtoms, hp] at h
  split at h
  · cases h
    exact getElem?_set_at hp
  · cases h

theorem gWoken_step {s t : State} {w : Option Nat} (h : step (Label.main w) s = some t)
    (hpc : s.main.pc = ALoc.gWoken) : t.main = { s.main with pc := ALoc.gCheck } := by
  simp only [step, main, gather, hpc] at h
  split at h
  · cases h
    rfl
  · cases h

/-- While the assembler is in the loop of `gather(k)` with `required[k]` not
yet 0, some producer of kind `k` is neither blocked in `WAIT(k)` nor has
delivered into the current cycle. -/
theorem active_exists {nH nO : Nat} {s : State} (hI : Inv nH nO s) (hH : 2 ≤ nH) (hO : 1 ≤ nO)
    (hpc : s.main.pc = ALoc.gCheck ∨ s.main.pc = ALoc.gWait ∨ s.main.pc = ALoc.gWoken)
    (hnz : s.required s.main.atom ≠ 0) :
    ∃ (i : Nat) (p : Producer), s.producers[i]? = some p ∧ p.atom = s.main.atom ∧
      p.pc ≠ PLoc.waitAtom ∧ hasDelivered s.count p = false := by
  obtain ⟨req, c, mu, ⟨pc, k, n, r⟩, ps, tr⟩ := s
  simp only at hpc hnz
  have hwake := hI.wake k
  have hdel := hI.deliv k
  have hkinds := hI.kinds
  have hnn := hI.req_nonneg k
  have hpart := kind_partition k c ps
  simp only at hwake hdel hkinds hnn
  have hpend : pending k ⟨pc, k, n, r⟩ = 0 := by
    rcases hpc with h | h | h <;> simp [pending, h]
  have htarget : target k ⟨pc, k, n, r⟩ = recipe k := by
    rcases hpc with h | h | h <;> subst h <;> cases k <;> simp [target, demanded, pos]
  rw [hpend] at hwake
  rw [htarget] at hdel
  have hact : 0 < total (active k c) ps := by
    cases k <;> simp only [recipe] at hdel <;> omega
  obtain ⟨p, hp, hpos⟩ := exists_of_total_pos _ _ hact
  obtain ⟨i, hi⟩ := List.getElem?_of_mem hp
  refine ⟨i, p, hi, ?_⟩
  simp only [active] at hpos
  split at hpos
  · rename_i h
    simp only [Bool.not_eq_true] at h
    exact ⟨h.1, h.2.1, h.2.2⟩
  · omega

/-- While only turns of waiting loops are made, no producer stands at a
statement that is not such a turn. -/
theorem no_strict_producer {nH nO : Nat} {s : State} (hr : Reachable nH nO s)
    {σ : Nat → Label} (hfair : Fair σ s) {k0 : Nat} (hq : quietFrom σ s k0)
    (hc : (exec σ s k0).count < INT_MAX) {i : Nat} {p : Producer} (j : Nat) (hj : k0 ≤ j)
    (hp : (exec σ s j).producers[i]? = some p) (h1 : p.pc ≠ PLoc.waitAtom)
    (h2 : p.pc ≠ PLoc.waitFin) (h3 : p.pc ≠ PLoc.wokenAtom)
    (h4 : p.pc = PLoc.checkReq → (exec σ s k0).required p.atom ≠ 0)
    (h5 : p.pc = PLoc.checkFin ∨ p.pc = PLoc.wokenFin →
      p.currentCount ≠ (exec σ s k0).count) : False := by
  obtain ⟨j1, hj1, hP, hl, t, ht, _⟩ := producer_runs hr hfair hq hc j hj hp h1 h2
  have hloop := hq j1 (le_trans hj hj1) t (by rw [hl]; exact ht)
  have hconst := quiet_const hr hq j1 (le_trans hj hj1)
  rw [hl] at hloop
  simp only [loopMove, hP, hconst.1, hconst.2, Bool.or_eq_true, Bool.and_eq_true,
    decide_eq_true_eq] at hloop
  rcases hloop with ((h | h) | h) | h
  · exact h3 h
  · exact h4 h.1 h.2
  · exact h5 (Or.inl h.1) h.2
  · exact h5 (Or.inr h.1) h.2

/-- While only turns of waiting loops are made, the assembler does not stand
at a statement that is not such a turn. -/
theorem no_strict_main {nH nO : Nat} {s : State} (hr : Reachable nH nO s)
    {σ : Nat → Label} (hfair : Fair σ s) {k0 : Nat} (hq : quietFrom σ s k0)
    (hc : (exec σ s k0).count < INT_MAX) (j : Nat) (hj : k0 ≤ j)
    (h1 : (exec σ s j).main.pc ≠ ALoc.gWait) (h2 : (exec σ s j).main.pc ≠ ALoc.gWoken)
    (h3 : (exec σ s j).main.pc = ALoc.gCheck →
      (exec σ s k0).required (exec σ s j).main.atom = 0) : False := by
  obtain ⟨j1, hj1, hP, w, t, hl, ht, _⟩ := main_runs hr hfair hq hc j hj rfl h1
  have hloop := hq j1 (le_trans hj hj1) t (by rw [hl]; exact ht)
  have hconst := quiet_const hr hq j1 (le_trans hj hj1)
  rw [hl] at hloop
  simp only [loopMove, hP, hconst.1, Bool.or_eq_true, Bool.and_eq_true,
    decide_eq_true_eq] at hloop
  rcases hloop with h | h
  · exact h2 h
  · exact h.2 (h3 h.1)

/-- While only turns of waiting loops are made, no producer woken from
`WAIT(k)` finds `required[k]` non-zero. -/
theorem no_woken_producer {nH nO : Nat} {s : State} (hr : Reachable nH nO s)
    {σ : Nat → Label} (hfair : Fair σ s) {k0 : Nat} (hq : quietFrom σ s k0)
    (hc : (exec σ s k0).count < INT_MAX) {i : Nat} {k : Atom} {x : Int} (j : Nat)
    (hj : k0 ≤ j) (hp : (exec σ s j).producers[i]? = some ⟨k, PLoc.wokenAtom, x⟩)
    (hnz : (exec σ s k0).required k ≠ 0) : False := by
  obtain ⟨j1, hj1, hP, hl, t, ht, he⟩ := producer_runs hr hfair hq hc j hj hp
    (by simp) (by simp)
  have h1 := wokenAtom_step ht hP
  rw [← he] at h1
  exact no_strict_producer hr hfair hq hc (j1 + 1) (by omega) h1 (by simp) (by simp) (by simp)
    (fun _ => hnz) (by simp)

/-- While only turns of waiting loops are made, the assembler is not in the
loop of `gather`. -/
theorem no_gather {nH nO : Nat} {s : State} (hr : Reachable nH nO s) (hH : 2 ≤ nH)
    (hO : 1 ≤ nO) {σ : Nat → Label} (hfair : Fair σ s) {k0 : Nat} (hq : quietFrom σ s k0)
    (hc : (exec σ s k0).count < INT_MAX) (j : Nat) (hj : k0 ≤ j)
    (hpc : (exec σ s j).main.pc = ALoc.gCheck ∨ (exec σ s j).main.pc = ALoc.gWait ∨
      (exec σ s j).main.pc = ALoc.gWoken) : False := by
  have hI := inv_of_reachable (reachable_exec hr σ j)
  have hconst := quiet_const hr hq j hj
  by_cases hz : (exec σ s j).required (exec σ s j).main.atom = 0
  · rcases hpc with h | h | h
    · exact no_strict_main hr hfair hq hc j hj (by simp [h]) (by simp [h])
        (fun _ => by rw [← hconst.1]; exact hz)
    · have h1 := hI.ready h hz
      obtain ⟨p, hp, hpos⟩ := exists_of_total_pos (signalling (exec σ s j).main.atom)
        (exec σ s j).producers (by omega)
      obtain ⟨i, hi⟩ := List.getElem?_of_mem hp
      have h2 : p.pc = PLoc.snap ∨ p.pc = PLoc.checkLast := by
        simp only [signalling] at hpos
        split at hpos
        · rename_i h3
          exact h3.2
        · omega
      exact no_strict_producer hr hfair hq hc j hj hi
        (by rcases h2 with h | h <;> simp [h]) (by rcases h2 with h | h <;> simp [h])
        (by rcases h2 with h | h <;> simp [h]) (by rcases h2 with h | h <;> simp [h])
        (by rcases h2 with h | h <;> simp [h])
    · obtain ⟨j1, hj1, hP, w, t, hl, ht, he⟩ := main_runs hr hfair hq hc j hj rfl
        (by simp [h])
      have h1 := gWoken_step ht (by rw [hP]; exact h)
      rw [← he, hP] at h1
      refine no_strict_main hr hfair hq hc (j1 + 1) (by omega) (by simp [h1]) (by simp [h1]) ?_
      intro _
      rw [h1, ← hconst.1]
      exact hz
  · obtain ⟨i, p, hp, hk, hnw, hnd⟩ := active_exists hI hH hO hpc hz
    have hnz : (exec σ s k0).required p.atom ≠ 0 := by
      rw [← hconst.1, hk]
      exact hz
    have hse := hI.snap_eq i p hp
    have hwe := hI.wait_eq i p hp
    have hnb : (exec σ s j).main.pc ≠ ALoc.fBcast := by
      rcases hpc with h | h | h <;> simp [h]
    rw [if_neg hnb] at hwe
    obtain ⟨pa, ppc, px⟩ := p
    simp only at hnw hnz hse hwe
    cases ppc with
    | waitAtom => exact hnw rfl
    | wokenAtom => exact no_woken_producer hr hfair hq hc j hj hp hnz
    | snap => simp [hasDelivered] at hnd
    | checkLast => simp [hasDelivered, PLoc.afterSnap, hse] at hnd
    | unlockAtom => simp [hasDelivered, PLoc.afterSnap, hse] at hnd
    | waitFin => simp [hasDelivered, PLoc.afterSnap, hwe] at hnd
    | _ =>
      refine no_strict_producer hr hfair hq hc j hj hp (by simp) (by simp) (by simp)
        (fun _ => hnz) ?_
      intro h
      rw [← hconst.2]
      simp only [hasDelivered, PLoc.afterSnap] at hnd
      rcases h with h | h <;> cases h <;> simpa using hnd

/-- Under fair scheduling, below `INT_MAX`, no execution consists from some
slot on of turns of waiting loops only. -/
theorem not_quiet {nH nO : Nat} {s : State} (hr : Reachable nH nO s) (hH : 2 ≤ nH)
    (hO : 1 ≤ nO) {σ : Nat → Label} (hfair : Fair σ s) (k0 : Nat)
    (hc : (exec σ s k0).count < INT_MAX) : ¬ quietFrom σ s k0 := by
  intro hq
  by_cases hpc : (exec σ s k0).main.pc = ALoc.gCheck ∨ (exec σ s k0).main.pc = ALoc.gWait ∨
      (exec σ s k0).main.pc = ALoc.gWoken
  · exact no_gather hr hH hO hfair hq hc k0 (le_refl _) hpc
  · exact no_strict_main hr hfair hq hc k0 (le_refl _) (fun h => hpc (Or.inr (Or.inl h)))
      (fun h => hpc (Or.inr (Or.inr h))) (fun h => (hpc (Or.inl h)).elim)

/-! ## Progress under fair scheduling -/

/-- Along an execution, until `count` changes the potential does not grow. -/
theorem potential_mono {nH nO : Nat} {s : State} (hr : Reachable nH nO s) (σ : Nat → Label)
    (k : Nat) : ∀ j, k ≤ j →
      (∃ i, k ≤ i ∧ (exec σ s i).count = (exec σ s k).count + 1) ∨
      ((exec σ s j).count = (exec σ s k).count ∧
        potential (exec σ s j) ≤ potential (exec σ s k)) := by
  intro j hj
  induction j, hj using Nat.le_induction with
  | base => exact Or.inr ⟨rfl, le_refl _⟩
  | succ j hj ih =>
    rcases ih with ih | ih
    · exact Or.inl ih
    · cases h : step (σ j) (exec σ s j) with
      | none =>
        rw [exec_skip h]
        exact Or.inr ih
      | some t =>
        rcases count_step h with ⟨e1, _⟩ | ⟨_, _, _, e1, _⟩
        · have h1 := (potential_step (inv_of_reachable (reachable_exec hr σ j))
            (trans_of_step h) e1).1
          rw [exec_step h]
          exact Or.inr ⟨e1.trans ih.1, le_trans h1 ih.2⟩
        · refine Or.inl ⟨j + 1, by omega, ?_⟩
          rw [exec_step h, e1, ih.1]

/-- Under fair scheduling, below `INT_MAX`, the next `++count` is executed. -/
theorem next_count {nH nO : Nat} {s : State} (hr : Reachable nH nO s) (hH : 2 ≤ nH)
    (hO : 1 ≤ nO) {σ : Nat → Label} (hfair : Fair σ s) :
    ∀ (v k : Nat), potential (exec σ s k) = v → (exec σ s k).count < INT_MAX →
      ∃ j, k ≤ j ∧ (exec σ s j).count = (exec σ s k).count + 1 := by
  intro v
  induction v using Nat.strong_induction_on with
  | _ v ih =>
    intro k hv hc
    have hnq := not_quiet hr hH hO hfair k hc
    simp only [quietFrom, not_forall] at hnq
    obtain ⟨j, hj, t, ht, hl⟩ := hnq
    have hl1 : loopMove (σ j) (exec σ s j) = false := by simpa using hl
    rcases potential_mono hr σ k j hj with h1 | h1
    · obtain ⟨i, hi, e⟩ := h1
      exact ⟨i, hi, e⟩
    · rcases count_step ht with ⟨e1, _⟩ | ⟨_, _, _, e1, _⟩
      · have h2 := (potential_step (inv_of_reachable (reachable_exec hr σ j))
          (trans_of_step ht) e1).2 hl1
        have h3 : (exec σ s (j + 1)).count = (exec σ s k).count := by
          rw [exec_step ht, e1, h1.1]
        obtain ⟨j2, hj2, e2⟩ := ih (potential (exec σ s (j + 1))) (by
          rw [exec_step ht]
          omega) (j + 1) rfl (by rw [h3]; exact hc)
        exact ⟨j2, by omega, by rw [e2, h3]⟩
      · refine ⟨j + 1, by omega, ?_⟩
        rw [exec_step ht, e1, h1.1]

/-- Under fair scheduling `count` reaches every value up to `INT_MAX`. -/
theorem fair_progress {nH nO : Nat} {s : State} (hr : Reachable nH nO s) (hH : 2 ≤ nH)
    (hO : 1 ≤ nO) {σ : Nat → Label} (hfair : Fair σ s) :
    ∀ (d k : Nat), (exec σ s k).count + d ≤ INT_MAX →
      ∃ j, k ≤ j ∧ (exec σ s j).count = (exec σ s k).count + d
  | 0, k, _ => ⟨k, le_refl _, by simp⟩
  | d + 1, k, hle => by
    obtain ⟨j, hj, e⟩ := next_count hr hH hO hfair _ k rfl (by push_cast at hle; omega)
    obtain ⟨j2, hj2, e2⟩ := fair_progress hr hH hO hfair d j (by
      rw [e]
      push_cast at hle
      omega)
    refine ⟨j2, le_trans hj hj2, ?_⟩
    rw [e2, e]
    push_cast
    ring

/-! ## A fair schedule -/

theorem exec_still {σ : Nat → Label} {s : State} {k : Nat} :
    ∀ j, k ≤ j → (∀ i, k ≤ i → i < j → step (σ i) (exec σ s i) = none) →
      exec σ s j = exec σ s k := by
  intro j hj
  induction j, hj using Nat.le_induction with
  | base => exact fun _ => rfl
  | succ j hj ih =>
    intro h
    rw [exec_skip (h j hj (by omega))]
    exact ih (fun i h1 h2 => h i h1 (by omega))

/-- Without spurious wake-ups only finitely many steps are possible: each one
brings `count` nearer to `INT_MAX` or decreases the variant. -/
theorem eventually_still {nH nO : Nat} {s : State} (hr : Reachable nH nO s)
    (σ : Nat → Label) (hprop : ∀ k, Label.proper (σ k) = true) :
    ∀ (a b k : Nat), (INT_MAX - (exec σ s k).count).toNat = a → variant (exec σ s k) = b →
      ∃ K, k ≤ K ∧ ∀ j, K ≤ j → step (σ j) (exec σ s j) = none := by
  intro a
  induction a using Nat.strong_induction_on with
  | _ a iha =>
    intro b
    induction b using Nat.strong_induction_on with
    | _ b ihb =>
      intro k ha hb
      by_cases hstill : ∀ j, k ≤ j → step (σ j) (exec σ s j) = none
      · exact ⟨k, le_refl _, hstill⟩
      · have hex : ∃ j, k ≤ j ∧ step (σ j) (exec σ s j) ≠ none := by
          by_contra hno
          exact hstill (fun j hj => by
            by_contra hne
            exact hno ⟨j, hj, hne⟩)
        classical
        have hj := Nat.find_spec hex
        have hmin := fun i (hi : i < Nat.find hex) => Nat.find_min hex hi
        have he : exec σ s (Nat.find hex) = exec σ s k := by
          refine exec_still _ hj.1 ?_
          intro i h1 h2
          by_contra hne
          exact hmin i h2 ⟨h1, hne⟩
        cases ht : step (σ (Nat.find hex)) (exec σ s (Nat.find hex)) with
        | none => exact (hj.2 ht).elim
        | some t =>
          have hI := inv_of_reachable (reachable_exec hr σ (Nat.find hex))
          have hs := exec_step ht
          rcases count_step ht with ⟨e1, _⟩ | ⟨_, _, hlt, e1, _⟩
          · have hdec := variant_step hI (trans_of_step ht) (hprop _) e1
            obtain ⟨K, hK, hall⟩ := ihb (variant t) (by rw [← hb, ← he]; exact hdec)
              (Nat.find hex + 1) (by rw [hs, e1, he]; exact ha) (by rw [hs])
            exact ⟨K, by omega, hall⟩
          · obtain ⟨K, hK, hall⟩ := iha (INT_MAX - t.count).toNat (by
                rw [← ha, ← he, e1]
                omega) (variant t) (Nat.find hex + 1) (by rw [hs]) (by rw [hs])
            exact ⟨K, by omega, hall⟩

theorem roundRobin_proper (N k : Nat) : Label.proper (roundRobin N k) = true := by
  simp only [roundRobin]
  split
  · rfl
  · split <;> rfl

theorem roundRobin_at (N k r : Nat) (hr : r ≤ 2 * N) :
    k ≤ k * (2 * N + 1) + r ∧ (k * (2 * N + 1) + r) % (2 * N + 1) = r := by
  constructor
  · have : k ≤ k * (2 * N + 1) := Nat.le_mul_of_pos_right k (by omega)
    omega
  · rw [Nat.mul_comm, Nat.mul_add_mod]
    exact Nat.mod_eq_of_lt (by omega)

theorem roundRobin_main_none (N k : Nat) : ∃ j, k ≤ j ∧ roundRobin N j = Label.main none := by
  obtain ⟨h1, h2⟩ := roundRobin_at N k 0 (by omega)
  exact ⟨_, h1, by simp [roundRobin, h2]⟩

theorem roundRobin_main_some (N k i : Nat) (hi : i < N) :
    ∃ j, k ≤ j ∧ roundRobin N j = Label.main (some i) := by
  obtain ⟨h1, h2⟩ := roundRobin_at N k (i + 1) (by omega)
  refine ⟨_, h1, ?_⟩
  simp only [roundRobin, h2]
  rw [if_neg (by omega), if_pos (by omega)]
  simp

theorem roundRobin_producer (N k i : Nat) (hi : i < N) :
    ∃ j, k ≤ j ∧ roundRobin N j = Label.producer i := by
  obtain ⟨h1, h2⟩ := roundRobin_at N k (N + 1 + i) (by omega)
  refine ⟨_, h1, ?_⟩
  simp only [roundRobin, h2]
  rw [if_neg (by omega), if_neg (by omega)]
  congr 1
  omega

theorem length_kinds (ps : List Producer) :
    total (isKind Atom.HYDROGEN) ps + total (isKind Atom.OXYGEN) ps = ps.length := by
  induction ps with
  | nil => rfl
  | cons p ps ih =>
    obtain ⟨pa, ppc, px⟩ := p
    simp only [total, List.length_cons]
    cases pa <;> simp [isKind] <;> omega

/-- A statement the assembler can execute with some choice of the woken
producer, it can execute waking nobody, unless the statement is a signal that
wakes a producer of the table. -/
theorem main_label_normal {s t : State} {w : Option Nat} (h : Trans (Label.main w) s t) :
    (∃ j, w = some j ∧ j < s.producers.length) ∨ Trans (Label.main none) s t := by
  cases h
  case rLoopWake j q hn hmin hq hpc hk =>
    refine Or.inl ⟨j, rfl, ?_⟩
    rw [List.getElem?_eq_some] at hq
    exact hq.1
  case rLoopMiss hn hmin hnone => exact Or.inr (Trans.rLoopMiss hn hmin hnone)
  case call151 => exact Or.inr Trans.call151
  case call152 => exact Or.inr Trans.call152
  case call154 => exact Or.inr Trans.call154
  case call155 => exact Or.inr Trans.call155
  case rLock hfree => exact Or.inr (Trans.rLock hfree)
  case rSet => exact Or.inr Trans.rSet
  case rLoopExit => exact Or.inr Trans.rLoopExit
  case rUnlock => exact Or.inr Trans.rUnlock
  case gLock hfree => exact Or.inr (Trans.gLock hfree)
  case gCheckPass hz => exact Or.inr (Trans.gCheckPass hz)
  case gCheckWait hz => exact Or.inr (Trans.gCheckWait hz)
  case gWoken hfree => exact Or.inr (Trans.gWoken hfree)
  case gUnlock => exact Or.inr Trans.gUnlock
  case fLock hfree => exact Or.inr (Trans.fLock hfree)
  case fInc hmax => exact Or.inr (Trans.fInc hmax)
  case fBcast => exact Or.inr Trans.fBcast
  case fUnlock => exact Or.inr Trans.fUnlock

/-- The round-robin schedule is fair. -/
theorem fair_roundRobin {nH nO : Nat} {s : State} (hr : Reachable nH nO s) :
    Fair (roundRobin (nH + nO)) s := by
  intro u hio k
  obtain ⟨K, _, hstill⟩ := eventually_still hr (roundRobin (nH + nO))
    (roundRobin_proper _) _ _ 0 rfl rfl
  have hconst : ∀ j, K ≤ j → exec (roundRobin (nH + nO)) s j = exec (roundRobin (nH + nO)) s K :=
    fun j hj => exec_still j hj (fun i h1 _ => hstill i h1)
  obtain ⟨j, hj, l, t, hth, ht⟩ := hio K
  rw [hconst j hj] at ht
  have hI := inv_of_reachable (reachable_exec hr (roundRobin (nH + nO)) K)
  have hlen := length_kinds (exec (roundRobin (nH + nO)) s K).producers
  rw [hI.kinds.1, hI.kinds.2] at hlen
  have hhit : ∃ j1, K ≤ j1 ∧
      ∃ t1, step (roundRobin (nH + nO) j1) (exec (roundRobin (nH + nO)) s K) = some t1 := by
    cases l with
    | spurious v => simp [Label.thread] at hth
    | producer i =>
      have hi : i < nH + nO := by
        rw [hlen]
        simp only [step, produceAtoms] at ht
        cases hp : (exec (roundRobin (nH + nO)) s K).producers[i]? with
        | none => simp [hp] at ht
        | some p =>
          rw [List.getElem?_eq_some] at hp
          exact hp.1
      obtain ⟨j1, h1, h2⟩ := roundRobin_producer (nH + nO) K i hi
      exact ⟨j1, h1, t, by rw [h2]; exact ht⟩
    | main w =>
      rcases main_label_normal (trans_of_step ht) with ⟨i, hw, hi⟩ | hn
      · obtain ⟨j1, h1, h2⟩ := roundRobin_main_some (nH + nO) K i (by rw [hlen]; exact hi)
        exact ⟨j1, h1, t, by rw [h2, ← hw]; exact ht⟩
      · obtain ⟨j1, h1, h2⟩ := roundRobin_main_none (nH + nO) K
        exact ⟨j1, h1, t, by rw [h2]; exact step_of_trans hn⟩
  obtain ⟨j1, h1, t1, ht1⟩ := hhit
  rw [← hconst j1 h1, hstill j1 h1] at ht1
  cases ht1

/-! ## Deadlock freedom and progress -/

/-- C2 (as amended).  With at least 2 hydrogen producers and at least 1 oxygen
producer, in every reachable state: `count` is at most `INT_MAX`; some thread
has an enabled program step, unless the assembler stands at `++count` with
`count = INT_MAX` (the increment would overflow; nothing is claimed for that
state); and under every fair schedule, whatever spurious wake-ups it
contains, few or infinitely many, `count` reaches every value from its current
one up to `INT_MAX`.  Fair schedules exist: round robin is one. -/
theorem progress (nH nO : Nat) (s : State) (hr : Reachable nH nO s) (hH : 2 ≤ nH)
    (hO : 1 ≤ nO) :
    s.count ≤ INT_MAX ∧
    ((s.main.pc = ALoc.fInc → s.count < INT_MAX) →
      ∃ l t, Label.proper l = true ∧ step l s = some t) ∧
    (∀ (σ : Nat → Label) (n : Int), Fair σ s → s.count ≤ n → n ≤ INT_MAX →
      ∃ k, (exec σ s k).count = n) ∧
    Fair (roundRobin (nH + nO)) s := by
  have hI := inv_of_reachable hr
  refine ⟨hI.count_range.2, not_stuck hI hH hO, ?_, fair_roundRobin hr⟩
  intro σ n hfair h1 h2
  obtain ⟨j, _, hj⟩ := fair_progress hr hH hO hfair (n - s.count).toNat 0 (by
    rw [Int.toNat_of_nonneg (by omega)]
    simp only [exec]
    omega)
  refine ⟨j, ?_⟩
  rw [hj, Int.toNat_of_nonneg (by omega)]
  simp only [exec]
  ring

/-- Witness for C2: under the round-robin schedule the system with 2 hydrogen
and 1 oxygen producers completes 5 cycles from its initial state. -/
theorem progress_witness :
    Reachable 2 1 (init 2 1) ∧ 2 ≤ 2 ∧ 1 ≤ 1 ∧
    ∃ k, (exec (roundRobin 3) (init 2 1) k).count = 5 :=
  ⟨⟨[], rfl⟩, le_refl _, le_refl _,
    (progress 2 1 (init 2 1) ⟨[], rfl⟩ (le_refl _) (le_refl _)).2.2.1 (roundRobin 3) 5
      (progress 2 1 (init 2 1) ⟨[], rfl⟩ (le_refl _) (le_refl _)).2.2.2 (by decide)
      (by decide)⟩

/-- Counterexample to C2 as stated: `count` is an `int`, so it does not grow
without bound.  In the system with 2 hydrogen and 1 oxygen producers no
reachable state has `count` above `INT_MAX`; in particular under the fair
round-robin schedule `count` never exceeds `INT_MAX`. -/
theorem count_bounded :
    (¬ ∀ B : Int, ∃ s, Reachable 2 1 s ∧ B < s.count) ∧
    Fair (roundRobin 3) (init 2 1) ∧
    ¬ ∀ B : Int, ∃ k, B < (exec (roundRobin 3) (init 2 1) k).count := by
  have h0 : Reachable 2 1 (init 2 1) := ⟨[], rfl⟩
  refine ⟨?_, fair_roundRobin h0, ?_⟩
  · intro h
    obtain ⟨s, hr, hlt⟩ := h INT_MAX
    have := (inv_of_reachable hr).count_range.2
    omega
  · intro h
    obtain ⟨k, hlt⟩ := h INT_MAX
    have := (inv_of_reachable (reachable_exec h0 (roundRobin 3) k)).count_range.2
    omega

/-! ## The history invariant -/

theorem cur_step {nH nO : Nat} {l : Label} {s t : State}
    (hI : Inv nH nO s) (hH : Hist s) (h : Trans l s t) :
    ∀ k, (deliveries k (sinceFinalize t.trace) : Int) + t.required k = target k t.main := by
  obtain ⟨req, c, mu, ⟨pc, k, n, r⟩, ps, tr⟩ := s
  have hd := hH.cur
  have ha := hI.args
  have hr := hI.req_nonneg
  have hz := hI.zero
  cases h
  case rSet =>
    intro k1
    have h1 := hd k1
    have h2 := hr k1
    simp only [argsOK] at ha
    simp only at h1 h2 ⊢
    rcases ha with ⟨e1, e2, _⟩ | ⟨e1, e2, _⟩ <;> subst e1 <;> subst e2 <;> cases k1 <;>
      simp [target, demanded, pos, setRequired, recipe, sinceFinalize, Event.isFinalize,
        deliveries] at h1 ⊢ <;> omega
  case rUnlock =>
    intro k1
    have h1 := hd k1
    simp only [argsOK] at ha
    rcases ha with ⟨e1, e2⟩ | ⟨e1, e2⟩ <;> subst e1 <;> subst e2 <;> cases k1 <;>
      simpa [target, demanded, pos] using h1
  case gUnlock =>
    intro k1
    have h1 := hd k1
    simp only [argsOK] at ha
    rcases ha with ⟨e1, e2⟩ | ⟨e1, e2⟩ <;> subst e1 <;> subst e2 <;> cases k1 <;>
      simpa [target, demanded, pos] using h1
  case fInc hmax =>
    intro k1
    have h1 := hz k1 (by cases k1 <;> simp [idle, pos])
    simp only at h1 ⊢
    rw [h1]
    cases k1 <;> simp [target, demanded, pos, sinceFinalize, Event.isFinalize, deliveries]
  case decr i k2 x hmin hp =>
    intro k1
    have h1 := hd k1
    simp only at h1 ⊢
    by_cases hk : k2 = k1
    · subst hk
      simp [setRequired, sinceFinalize, Event.isFinalize, deliveries] at h1 ⊢
      omega
    · have hk1 : ¬ k1 = k2 := fun h => hk h.symm
      simp [setRequired, sinceFinalize, Event.isFinalize, deliveries, hk, hk1] at h1 ⊢
      omega
  case checkLastSignal i k2 x hz0 hp =>
    intro k1
    have h1 := hd k1
    simp only [target_wakeMain] at h1 ⊢
    simpa [sinceFinalize, Event.isFinalize, deliveries] using h1
  all_goals first
    | exact hd
    | (intro k1
       have h1 := hd k1
       cases k1 <;> cases k <;>
         simpa [target, demanded, pos, sinceFinalize, Event.isFinalize, deliveries] using h1)

theorem tot_step {nH nO : Nat} {l : Label} {s t : State}
    (hI : Inv nH nO s) (hH : Hist s) (h : Trans l s t) :
    ∀ k, (deliveries k t.trace : Int) =
      recipe k * t.count + deliveries k (sinceFinalize t.trace) := by
  obtain ⟨req, c, mu, ⟨pc, k, n, r⟩, ps, tr⟩ := s
  have hd := hH.tot
  have hc := hH.cur
  have hz := hI.zero
  cases h
  case fInc hmax =>
    intro k1
    have h1 := hd k1
    have h2 := hc k1
    have h3 := hz k1 (by cases k1 <;> simp [idle, pos])
    simp only at h1 h2 h3 ⊢
    rw [h3] at h2
    have h4 : target k1 ⟨ALoc.fInc, k, n, r⟩ = recipe k1 := by
      cases k1 <;> simp [target, demanded, pos]
    rw [h4] at h2
    simp only [deliveries, sinceFinalize, Event.isFinalize, if_true]
    rw [h1]
    simp only [Nat.cast_zero]
    rw [mul_add]
    omega
  case decr i k2 x hmin hp =>
    intro k1
    have h1 := hd k1
    simp only at h1 ⊢
    simp [sinceFinalize, Event.isFinalize, deliveries, h1]
    ring
  all_goals first
    | exact hd

theorem cycles_step {nH nO : Nat} {l : Label} {s t : State}
    (hI : Inv nH nO s) (hH : Hist s) (h : Trans l s t) : cyclesOK t.trace := by
  obtain ⟨req, c, mu, ⟨pc, k, n, r⟩, ps, tr⟩ := s
  have hd := hH.cycles
  have hc := hH.cur
  have hf := hH.fresh
  have hz := hI.zero
  cases h
  case fInc hmax =>
    refine ⟨fun _ => ⟨?_, ?_, hf.1⟩, hd⟩
    · have h2 := hc Atom.HYDROGEN
      have h3 := hz Atom.HYDROGEN (by simp [idle, pos])
      simp only at h2 h3 ⊢
      rw [h3] at h2
      simp [target, demanded, pos, recipe] at h2
      omega
    · have h2 := hc Atom.OXYGEN
      have h3 := hz Atom.OXYGEN (by simp [idle, pos])
      simp only at h2 h3 ⊢
      rw [h3] at h2
      simp [target, demanded, pos, recipe] at h2
      omega
  all_goals first
    | exact hd
    | (refine ⟨?_, hd⟩
       intro h
       cases h)

theorem deliveries_since_le (k : Atom) :
    ∀ tr : List Event, deliveries k (sinceFinalize tr) ≤ deliveries k tr
  | [] => le_refl _
  | e :: tr => by
    have ih := deliveries_since_le k tr
    cases e <;> simp [sinceFinalize, Event.isFinalize, deliveries] <;> omega

theorem open_req_step {nH nO : Nat} {l : Label} {s t : State}
    (hI : Inv nH nO s) (hH : Hist s) (h : Trans l s t) :
    ∀ k,
      (∀ a, lastRequire k t.trace = some a →
        a = recipe k ∧ (deliveries k (sinceRequire k t.trace) : Int) + t.required k = a) ∧
      (lastRequire k t.trace = none →
        deliveries k t.trace = 0 ∧ t.required k = 0 ∧ readies k t.trace = 0) := by
  obtain ⟨req, c, mu, ⟨pc, k, n, r⟩, ps, tr⟩ := s
  have ho := hH.open_req
  have hc := hH.cur
  have ha := hI.args
  have hdp := hI.decr_pos
  have hdl := hI.deliv
  have hse := hI.snap_eq
  cases h
  case rSet =>
    intro k1
    have h1 := ho k1
    simp only at h1 ⊢
    by_cases hk : k = k1
    · subst hk
      simp only [argsOK] at ha
      have hn : n = recipe k := by
        rcases ha with ⟨e1, e2, _⟩ | ⟨e1, e2, _⟩ <;> subst e1 <;> subst e2 <;> rfl
      simp [lastRequire, sinceRequire, Event.isRequire, deliveries, setRequired, hn]
    · have hk1 : ¬ k1 = k := fun h => hk h.symm
      simpa [lastRequire, sinceRequire, Event.isRequire, deliveries, readies, setRequired, hk,
        hk1] using h1
  case decr i k2 x hmin hp =>
    intro k1
    have h1 := ho k1
    simp only at h1 ⊢
    by_cases hk : k2 = k1
    · subst hk
      have h2 := hdp i _ hp rfl
      simp only at h2
      simp only [lastRequire, sinceRequire, Event.isRequire, deliveries, readies, setRequired,
        if_true]
      constructor
      · intro a hla
        have := h1.1 a hla
        refine ⟨this.1, ?_⟩
        have h3 := this.2
        simp [deliveries]
        omega
      · intro hla
        have := (h1.2 hla).2.1
        omega
    · have hk1 : ¬ k1 = k2 := fun h => hk h.symm
      simpa [lastRequire, sinceRequire, Event.isRequire, deliveries, readies, setRequired, hk,
        hk1] using h1
  case checkLastSignal i k2 x hz0 hp =>
    intro k1
    have h1 := ho k1
    simp only at h1 ⊢
    by_cases hk : k2 = k1
    · subst hk
      simp only [lastRequire, sinceRequire, Event.isRequire, deliveries, readies, if_true]
      constructor
      · intro a hla
        have := h1.1 a hla
        simpa [deliveries] using this
      · intro hla
        exfalso
        have h2 := (h1.2 hla).1
        have h3 := hc k2
        have h4 := hdl k2
        have h5 := le_total (delivered k2 c) hp
        have h6 := hse i _ hp (Or.inl rfl)
        have h7 := deliveries_since_le k2 tr
        simp only at h3 h4 h6
        simp [delivered, hasDelivered, PLoc.afterSnap, h6] at h5
        omega
    · simpa [lastRequire, sinceRequire, Event.isRequire, deliveries, readies, hk] using h1
  all_goals exact ho

theorem closed_req_step {nH nO : Nat} {l : Label} {s t : State}
    (hI : Inv nH nO s) (hH : Hist s) (h : Trans l s t) :
    ∀ k, requiresOK k t.trace := by
  obtain ⟨req, c, mu, ⟨pc, k, n, r⟩, ps, tr⟩ := s
  have hcl := hH.closed_req
  have ho := hH.open_req
  have hro := hH.ready_open
  have hz := hI.zero
  have hq := hI.quiet
  cases h
  case rSet =>
    intro k1
    refine ⟨?_, hcl k1⟩
    intro hk
    simp only [Event.isRequire, decide_eq_true_eq] at hk
    subst hk
    have hid : idle k ⟨ALoc.rSet, k, n, r⟩ = true := by cases k <;> simp [idle, pos]
    have h0 := hz k hid
    have h1 := ho k
    have h2 := hro k
    have h3 : total (signalling k) ps = 0 := by
      apply total_eq_zero
      intro p hp
      obtain ⟨j, hj⟩ := List.getElem?_of_mem hp
      by_cases hk : p.atom = k
      · have := hq k hid j p hj hk
        obtain ⟨pa, ppc, px⟩ := p
        cases ppc <;> simp [signalling, PLoc.busy] at this ⊢
      · simp [signalling, hk]
    simp only at h0 h1 h2 ⊢
    constructor
    · intro a0 hla
      have h4 := (h1.1 a0 hla).2
      rw [h0] at h4
      rw [h2]
      simp only [add_zero] at h4
      exact ⟨h4, by simp [hla, h0, h3]⟩
    · intro hla
      have := h1.2 hla
      exact ⟨this.1, this.2.2⟩
  all_goals first
    | exact hcl
    | (intro k1
       refine ⟨?_, hcl k1⟩
       intro hk
       simp [Event.isRequire] at hk)

theorem hasDelivered_wakeFin (c : Int) (y : Producer) :
    hasDelivered c (wakeFin y) = hasDelivered c y := by
  unfold wakeFin
  split
  · rename_i h
    simp [hasDelivered, h, PLoc.afterSnap]
  · rfl

theorem fresh_set {ps : List Producer} {i j : Nat} {p q : Producer} {c : Int}
    (hp : ps[i]? = some p) (hq : hasDelivered c q = hasDelivered c p) :
    (∃ y, (ps.set i q)[j]? = some y ∧ hasDelivered c y = true) ↔
      (∃ y, ps[j]? = some y ∧ hasDelivered c y = true) := by
  by_cases hji : j = i
  · subst hji
    rw [getElem?_set_at hp, hp]
    constructor
    · rintro ⟨y, h1, h2⟩
      cases h1
      exact ⟨p, rfl, by rw [← hq]; exact h2⟩
    · rintro ⟨y, h1, h2⟩
      cases h1
      exact ⟨q, rfl, by rw [hq]; exact h2⟩
  · rw [List.getElem?_set_ne (Ne.symm hji)]

theorem fresh_map {ps : List Producer} {j : Nat} {c : Int} :
    (∃ y, (ps.map wakeFin)[j]? = some y ∧ hasDelivered c y = true) ↔
      (∃ y, ps[j]? = some y ∧ hasDelivered c y = true) := by
  rw [List.getElem?_map]
  cases ps[j]? with
  | none => simp
  | some y0 => simp [hasDelivered_wakeFin]

theorem fresh_step {nH nO : Nat} {l : Label} {s t : State}
    (hI : Inv nH nO s) (hH : Hist s) (h : Trans l s t) :
    (deliverers (sinceFinalize t.trace)).Nodup ∧
    ∀ i, i ∈ deliverers (sinceFinalize t.trace) ↔
      ∃ p, t.producers[i]? = some p ∧ hasDelivered t.count p = true := by
  obtain ⟨req, c, mu, ⟨pc, k, n, r⟩, ps, tr⟩ := s
  have hf := hH.fresh
  have hq := hI.quiet
  have hle := hI.snap_le
  cases h
  case fInc hmax =>
    refine ⟨by simp [sinceFinalize, Event.isFinalize, deliverers], ?_⟩
    intro i
    simp only [sinceFinalize, Event.isFinalize, if_true, deliverers, List.not_mem_nil,
      false_iff]
    rintro ⟨y, hy, hd⟩
    have h3 := hq y.atom (by cases y.atom <;> simp [idle, pos]) i y hy rfl
    have h4 := hle i y hy
    simp only [hasDelivered, Bool.or_eq_true, Bool.and_eq_true, decide_eq_true_eq] at hd
    rcases hd with h5 | ⟨h5, h6⟩
    · simp [h5, PLoc.busy] at h3
    · have := h4 h5
      simp only at this
      omega
  case rLoopWake j q hpc hk hn hmin hq1 =>
    refine ⟨by simpa [sinceFinalize, Event.isFinalize, deliverers] using hf.1, ?_⟩
    intro i
    simp only [sinceFinalize, Event.isFinalize, deliverers, Bool.false_eq_true, if_false]
    rw [fresh_set hq1 (by simp [hasDelivered, hpc, PLoc.afterSnap])]
    exact hf.2 i
  case fBcast =>
    refine ⟨by simpa [sinceFinalize, Event.isFinalize, deliverers] using hf.1, ?_⟩
    intro i
    simp only [sinceFinalize, Event.isFinalize, deliverers, Bool.false_eq_true, if_false]
    rw [fresh_map]
    exact hf.2 i
  case decr i k2 x hmin hp =>
    have hni : i ∉ deliverers (sinceFinalize tr) := by
      intro hmem
      obtain ⟨y, hy, hd⟩ := (hf.2 i).mp hmem
      simp only at hy
      rw [hp] at hy
      cases hy
      simp [hasDelivered, PLoc.afterSnap] at hd
    constructor
    · simp only [sinceFinalize, Event.isFinalize, deliverers, Bool.false_eq_true, if_false]
      exact List.nodup_cons.mpr ⟨hni, hf.1⟩
    · intro j
      simp only [sinceFinalize, Event.isFinalize, deliverers, Bool.false_eq_true, if_false,
        List.mem_cons]
      by_cases hji : j = i
      · subst hji
        simp only [true_or, true_iff]
        exact ⟨_, getElem?_set_at hp, by simp [hasDelivered]⟩
      · rw [List.getElem?_set_ne (Ne.symm hji)]
        simp only [hji, false_or]
        exact hf.2 j
  case checkFinPass i k2 x hne hp =>
    refine ⟨hf.1, ?_⟩
    intro j
    rw [fresh_set hp (by simp [hasDelivered, PLoc.afterSnap, hne])]
    exact hf.2 j
  case checkLastSignal i k2 x hz0 hp =>
    refine ⟨by simpa [sinceFinalize, Event.isFinalize, deliverers] using hf.1, ?_⟩
    intro j
    simp only [sinceFinalize, Event.isFinalize, deliverers, Bool.false_eq_true, if_false]
    rw [fresh_set hp (by simp [hasDelivered, PLoc.afterSnap])]
    exact hf.2 j
  all_goals first
    | exact hf
    | (rename_i hp
       refine ⟨hf.1, ?_⟩
       intro j
       rw [fresh_set hp (by simp [hasDelivered, PLoc.afterSnap])]
       exact hf.2 j)

theorem total_le_one (f : Producer → Nat) (hf : ∀ p, f p ≤ 1) :
    ∀ ps : List Producer,
      (∀ (i j : Nat) (p q : Producer), ps[i]? = some p → ps[j]? = some q → 0 < f p → 0 < f q →
        i = j) → total f ps ≤ 1
  | [], _ => by simp [total]
  | x :: xs, h => by
    simp only [total]
    by_cases hx : 0 < f x
    · have h0 : total f xs = 0 := by
        apply total_eq_zero
        intro y hy
        obtain ⟨j, hj⟩ := List.getElem?_of_mem hy
        by_contra hne
        have := h 0 (j + 1) x y (by simp) (by simpa using hj) hx (Nat.pos_of_ne_zero hne)
        omega
      have := hf x
      omega
    · have ih := total_le_one f hf xs (fun i j p q hp hq h1 h2 => by
        have := h (i + 1) (j + 1) p q (by simpa using hp) (by simpa using hq) h1 h2
        omega)
      omega

theorem signalling_le_one {nH nO : Nat} {s : State} (hI : Inv nH nO s) (k : Atom) :
    total (signalling k) s.producers ≤ 1 := by
  apply total_le_one
  · intro p
    unfold signalling
    split <;> omega
  · intro i j p q hp hq h1 h2
    have e1 : holdsP p = some (Mx.atom k) := by
      unfold signalling at h1
      split at h1
      · rename_i h
        obtain ⟨ha, hpc⟩ := h
        rcases hpc with hpc | hpc <;> simp [holdsP, hpc, ha]
      · omega
    have e2 : holdsP q = some (Mx.atom k) := by
      unfold signalling at h2
      split at h2
      · rename_i h
        obtain ⟨ha, hpc⟩ := h
        rcases hpc with hpc | hpc <;> simp [holdsP, hpc, ha]
      · omega
    exact excl_prod hI hp hq e1 e2

theorem signalling_wakeFin (k : Atom) (y : Producer) :
    signalling k (wakeFin y) = signalling k y := by
  unfold wakeFin
  split
  · rename_i h
    simp [signalling, h]
  · rfl

theorem ready_open_step {nH nO : Nat} {l : Label} {s t : State}
    (hI : Inv nH nO s) (hH : Hist s) (h : Trans l s t) :
    ∀ k, readies k (sinceRequire k t.trace) =
      if (lastRequire k t.trace).isSome = true ∧ t.required k = 0 ∧
        total (signalling k) t.producers = 0 then 1 else 0 := by
  have hs1 := fun k => signalling_le_one hI k
  obtain ⟨req, c, mu, ⟨pc, k, n, r⟩, ps, tr⟩ := s
  have hro := hH.ready_open
  have ho := hH.open_req
  have hc := hH.cur
  have ha := hI.args
  have hdp := hI.decr_pos
  have hdl := hI.deliv
  have hse := hI.snap_eq
  cases h
  case rSet =>
    intro k1
    have h1 := hro k1
    simp only at h1 ⊢
    by_cases hk : k = k1
    · subst hk
      simp only [argsOK] at ha
      have hn : n ≠ 0 := by
        rcases ha with ⟨_, e2, _⟩ | ⟨_, e2, _⟩ <;> omega
      simp [lastRequire, sinceRequire, Event.isRequire, readies, setRequired, hn]
    · have hk1 : ¬ k1 = k := fun h => hk h.symm
      simpa [lastRequire, sinceRequire, Event.isRequire, readies, setRequired, hk, hk1] using h1
  case rLoopWake j q hpc hk hn hmin hq1 =>
    intro k1
    have h1 := hro k1
    have h2 := le_total (signalling k1) hq1
    simp only at h1 ⊢
    rw [total_set_eq _ _ hq1]
    simp only [signalling, hpc] at h2 ⊢
    simpa [lastRequire, sinceRequire, Event.isRequire, readies] using h1
  case fBcast =>
    intro k1
    have h1 := hro k1
    simp only at h1 ⊢
    rw [total_map, total_congr _ (signalling k1) ps (fun y _ => signalling_wakeFin k1 y)]
    simpa [lastRequire, sinceRequire, Event.isRequire, readies] using h1
  case decr i k2 x hmin hp =>
    intro k1
    have h1 := hro k1
    have h2 := le_total (signalling k1) hp
    have h3 := hdp i _ hp rfl
    simp only at h1 h3 ⊢
    rw [total_set_eq _ _ hp]
    by_cases hk : k2 = k1
    · subst hk
      have h4 : ¬ req k2 = 0 := by omega
      simp [lastRequire, sinceRequire, Event.isRequire, readies, setRequired, signalling, h4]
        at h1 h2 ⊢
      exact h1
    · have hk1 : ¬ k1 = k2 := fun h => hk h.symm
      simp [lastRequire, sinceRequire, Event.isRequire, readies, setRequired, signalling, hk,
        hk1] at h1 h2 ⊢
      exact h1
  case checkLastSignal i k2 x hz0 hp =>
    intro k1
    have h1 := hro k1
    have h2 := le_total (signalling k1) hp
    simp only at h1 ⊢
    rw [total_set_eq _ _ hp]
    by_cases hk : k2 = k1
    · subst hk
      have h3 := hs1 k2
      have hsome : (lastRequire k2 tr).isSome = true := by
        cases hla : lastRequire k2 tr with
        | some a => rfl
        | none =>
          exfalso
          have h4 := ((ho k2).2 hla).1
          have h5 := hc k2
          have h6 := hdl k2
          have h7 := le_total (delivered k2 c) hp
          have h8 := hse i _ hp (Or.inl rfl)
          have h9 := deliveries_since_le k2 tr
          simp only at h4 h5 h6 h8
          simp [delivered, hasDelivered, PLoc.afterSnap, h8] at h7
          omega
      simp only at h3
      simp [signalling] at h2
      have h4 : total (signalling k2) ps = 1 := by omega
      simp [lastRequire, sinceRequire, Event.isRequire, readies, signalling, h4, hz0, hsome]
        at h1 ⊢
      exact h1
    · simp [lastRequire, sinceRequire, Event.isRequire, readies, signalling, hk] at h1 h2 ⊢
      exact h1
  case checkLastSkip i k2 x hz0 hp =>
    intro k1
    have h1 := hro k1
    have h2 := le_total (signalling k1) hp
    simp only at h1 ⊢
    rw [total_set_eq _ _ hp]
    by_cases hk : k2 = k1
    · subst hk
      simp [signalling, hz0] at h1 h2 ⊢
      exact h1
    · simp [signalling, hk] at h1 h2 ⊢
      exact h1
  all_goals first
    | exact hro
    | (intro k1
       have h1 := hro k1
       simpa [lastRequire, sinceRequire, Event.isRequire, readies] using h1)
    | (rename_i hp
       intro k1
       have h1 := hro k1
       have h2 := le_total (signalling k1) hp
       simp only at h1 ⊢
       rw [total_set_eq _ _ hp]
       simp [signalling] at h1 h2 ⊢
       exact h1)

theorem readiesOK_cons {k : Atom} {e : Event} {tr : List Event}
    (he : ∀ i, e ≠ Event.ready i k) (h : readiesOK k tr) : readiesOK k (e :: tr) :=
  ⟨fun i hi => ((he i) hi).elim, h⟩

theorem ready_by_step {nH nO : Nat} {l : Label} {s t : State}
    (hI : Inv nH nO s) (hH : Hist s) (h : Trans l s t) :
    ∀ k, readiesOK k t.trace ∧
      ∀ (i : Nat) (p : Producer), t.producers[i]? = some p → p.atom = k →
        p.pc = PLoc.snap ∨ p.pc = PLoc.checkLast → lastDeliverer k t.trace = some i := by
  obtain ⟨req, c, mu, ⟨pc, k, n, r⟩, ps, tr⟩ := s
  have hrb := hH.ready_by
  cases h
  case rLoopWake j q hpc hk hn hmin hq1 =>
    intro k1
    refine ⟨readiesOK_cons (fun i h => by cases h) (hrb k1).1, ?_⟩
    refine forall_set hq1 (fun i y hy _ => (hrb k1).2 i y hy) ?_
    intro _ h
    simp at h
  case fBcast =>
    intro k1
    refine ⟨readiesOK_cons (fun i h => by cases h) (hrb k1).1, ?_⟩
    refine forall_map_wakeFin ?_
    intro i y hy hk hpc
    have h1 : wakeFin y = y := by
      unfold wakeFin at hpc ⊢
      split at hpc
      · simp at hpc
      · rename_i h; simp [h]
    rw [h1] at hpc hk
    exact (hrb k1).2 i y hy hk hpc
  case decr i k2 x hmin hp =>
    intro k1
    refine ⟨readiesOK_cons (fun i h => by cases h) (hrb k1).1, ?_⟩
    refine forall_set hp ?_ ?_
    · intro j y hy hji hk hpc
      by_cases hkk : k2 = k1
      · subst hkk
        refine (hji (excl_prod hI hy hp (m := Mx.atom k2) ?_ rfl)).elim
        rcases hpc with h | h <;> simp [holdsP, h, hk]
      · simp only [lastDeliverer, hkk, if_false]
        exact (hrb k1).2 j y hy hk hpc
    · intro hk _
      simp only at hk
      subst hk
      simp [lastDeliverer]
  case snap i k2 x hp =>
    intro k1
    refine ⟨(hrb k1).1, ?_⟩
    refine forall_set hp (fun j y hy _ => (hrb k1).2 j y hy) ?_
    intro hk _
    exact (hrb k1).2 i _ hp hk (Or.inl rfl)
  case checkLastSignal i k2 x hz0 hp =>
    intro k1
    constructor
    · refine ⟨?_, (hrb k1).1⟩
      intro j h
      cases h
      exact (hrb k2).2 i _ hp rfl (Or.inr rfl)
    · refine forall_set hp (fun j y hy _ => (hrb k1).2 j y hy) ?_
      intro _ h
      simp at h
  all_goals first
    | exact hrb
    | (intro k1
       exact ⟨readiesOK_cons (fun i h => by cases h) (hrb k1).1, (hrb k1).2⟩)
    | (rename_i hp
       intro k1
       refine ⟨(hrb k1).1, ?_⟩
       refine forall_set hp (fun j y hy _ => (hrb k1).2 j y hy) ?_
       intro _ h
       simp at h)

theorem pc_wakeMain_eq_fBcast {a : Assembler} (h : (wakeMain a).pc = ALoc.fBcast) :
    a.pc = ALoc.fBcast := by
  unfold wakeMain at h
  split at h
  · simp at h
  · exact h

theorem released_step {nH nO : Nat} {l : Label} {s t : State}
    (hI : Inv nH nO s) (hH : Hist s) (h : Trans l s t) :
    t.main.pc = ALoc.fBcast →
      ∀ k, (total (delivered k (t.count - 1)) t.producers : Int) = recipe k := by
  obtain ⟨req, c, mu, ⟨pc, k, n, r⟩, ps, tr⟩ := s
  have hrl := hH.released
  have ha := hI.args
  have hdl := hI.deliv
  have hz := hI.zero
  have hq := hI.quiet
  cases h
  case fInc hmax =>
    intro _ k1
    have h1 := hdl k1
    have h2 := hz k1 (by cases k1 <;> simp [idle, pos])
    simp only at h1 h2 ⊢
    rw [h2] at h1
    have h3 : c + 1 - 1 = c := by ring
    rw [h3]
    cases k1 <;> simp [target, demanded, pos] at h1 <;> omega
  case rUnlock =>
    intro h
    simp only [argsOK] at ha
    rcases ha with ⟨_, e2⟩ | ⟨_, e2⟩ <;> subst e2 <;> simp at h
  case gUnlock =>
    intro h
    simp only [argsOK] at ha
    rcases ha with ⟨_, e2⟩ | ⟨_, e2⟩ <;> subst e2 <;> simp at h
  case checkLastSignal i k2 x hz0 hp =>
    intro h
    have h1 := pc_wakeMain_eq_fBcast h
    simp only at h1
    subst h1
    have := hq k2 (by cases k2 <;> simp [idle, pos]) i _ hp rfl
    simp [PLoc.busy] at this
  all_goals first
    | (intro h
       simp at h
       done)
    | (rename_i hp
       intro h
       simp only at h
       subst h
       intro k1
       have h1 := hrl rfl k1
       have h2 := le_total (delivered k1 (c - 1)) hp
       simp only at h1 ⊢
       rw [total_set_eq _ _ hp]
       first
         | (exfalso
            exact excl_main hI hp (m := Mx.FINISHED) rfl rfl)
         | (exfalso
            rename_i k2 _
            have hb := hq k2 (by cases k2 <;> simp [idle, pos]) _ _ hp rfl
            simp [PLoc.busy] at hb
            done)
         | (exfalso
            rename_i k2 _ _
            have hb := hq k2 (by cases k2 <;> simp [idle, pos]) _ _ hp rfl
            simp [PLoc.busy] at hb
            done)
         | (simp [delivered, hasDelivered, PLoc.afterSnap] at h2 ⊢
            omega))

theorem amounts_step {nH nO : Nat} {l : Label} {s t : State}
    (hI : Inv nH nO s) (hH : Hist s) (h : Trans l s t) :
    ∀ (k : Atom) (a : Int), Event.require k a ∈ t.trace → a = recipe k := by
  obtain ⟨req, c, mu, ⟨pc, k, n, r⟩, ps, tr⟩ := s
  have hm := hH.amounts
  have ha := hI.args
  cases h
  case rSet =>
    intro k1 a hmem
    simp only [List.mem_cons, Event.require.injEq] at hmem
    rcases hmem with ⟨e1, e2⟩ | hmem
    · subst e1
      subst e2
      simp only [argsOK] at ha
      rcases ha with ⟨e1, e2, _⟩ | ⟨e1, e2, _⟩ <;> subst e1 <;> subst e2 <;> rfl
    · exact hm k1 a hmem
  all_goals first
    | exact hm
    | (intro k1 a hmem
       simp only [List.mem_cons] at hmem
       rcases hmem with h | h
       · cases h
       · exact hm k1 a h)

theorem hist_init (nH nO : Nat) : Hist (init nH nO) where
  cur := by
    intro k
    cases k <;> simp [init, sinceFinalize, deliveries, target, demanded, pos]
  tot := by
    intro k
    simp [init, sinceFinalize, deliveries]
  cycles := by simp [init, cyclesOK]
  open_req := by
    intro k
    simp [init, lastRequire, deliveries, readies]
  closed_req := by
    intro k
    simp [init, requiresOK]
  fresh := by
    refine ⟨by simp [init, sinceFinalize, deliverers], ?_⟩
    intro i
    simp only [init, sinceFinalize, deliverers, List.not_mem_nil, false_iff]
    rintro ⟨p, hp, hd⟩
    have hm := mem_of_getElem? hp
    simp only [List.mem_append, List.mem_replicate] at hm
    rcases hm with ⟨_, rfl⟩ | ⟨_, rfl⟩ <;> simp [hasDelivered, PLoc.afterSnap] at hd
  ready_open := by
    intro k
    simp [init, lastRequire, sinceRequire, readies]
  ready_by := by
    intro k
    refine ⟨by simp [init, readiesOK], ?_⟩
    intro i p hp _ hpc
    have hm := mem_of_getElem? hp
    simp only [init, List.mem_append, List.mem_replicate] at hm
    rcases hm with ⟨_, rfl⟩ | ⟨_, rfl⟩ <;> simp at hpc
  released := by simp [init]
  amounts := by simp [init]

theorem hist_step {nH nO : Nat} {l : Label} {s t : State}
    (hI : Inv nH nO s) (hH : Hist s) (h : step l s = some t) : Hist t :=
  have ht := trans_of_step h
  { cur := cur_step hI hH ht
    tot := tot_step hI hH ht
    cycles := cycles_step hI hH ht
    open_req := open_req_step hI hH ht
    closed_req := closed_req_step hI hH ht
    fresh := fresh_step hI hH ht
    ready_open := ready_open_step hI hH ht
    ready_by := ready_by_step hI hH ht
    released := released_step hI hH ht
    amounts := amounts_step hI hH ht }

theorem hist_run {nH nO : Nat} :
    ∀ (ls : List Label) (s t : State), Inv nH nO s → Hist s → run ls s = some t → Hist t
  | [], s, t, _, hH, h => by
    simp only [run] at h
    cases h
    exact hH
  | l :: ls, s, t, hI, hH, h => by
    simp only [run] at h
    split at h
    · cases h
    · rename_i s1 h1
      exact hist_run ls s1 t (inv_step hI h1) (hist_step hI hH h1) h

theorem hist_of_reachable {nH nO : Nat} {s : State} (h : Reachable nH nO s) : Hist s := by
  obtain ⟨ls, hls⟩ := h
  exact hist_run ls _ _ (inv_init nH nO) (hist_init nH nO) hls

/-! ## Segments of a history -/

theorem sinceRequire_append (k : Atom) (a : Int) (pre : List Event) :
    ∀ mid : List Event, (∀ e ∈ mid, e.isRequire k = false) →
      sinceRequire k (mid ++ Event.require k a :: pre) = mid ∧
      lastRequire k (mid ++ Event.require k a :: pre) = some a
  | [], _ => by simp [sinceRequire, lastRequire, Event.isRequire]
  | e :: mid, h => by
    have he := h e (by simp)
    have ih := sinceRequire_append k a pre mid (fun x hx => h x (by simp [hx]))
    constructor
    · simp [sinceRequire, he, ih.1]
    · cases e <;> simp [lastRequire, ih.2]
      rename_i k1 a1
      simp [Event.isRequire] at he
      intro hk
      exact (he hk).elim

theorem lastRequire_none (k : Atom) :
    ∀ tr : List Event, (∀ e ∈ tr, e.isRequire k = false) → lastRequire k tr = none
  | [], _ => rfl
  | e :: tr, h => by
    have he := h e (by simp)
    have ih := lastRequire_none k tr (fun x hx => h x (by simp [hx]))
    cases e <;> simp [lastRequire, ih]
    rename_i k1 a1
    simp [Event.isRequire] at he
    exact he

theorem sinceFinalize_append (rest : List Event) :
    ∀ mid : List Event, (∀ e ∈ mid, e.isFinalize = false) →
      sinceFinalize (mid ++ rest) = mid ++ sinceFinalize rest
  | [], _ => by simp
  | e :: mid, h => by
    have he := h e (by simp)
    have ih := sinceFinalize_append rest mid (fun x hx => h x (by simp [hx]))
    simp [sinceFinalize, he, ih]

theorem requiresOK_append (k : Atom) (tr : List Event) :
    ∀ post : List Event, requiresOK k (post ++ tr) → requiresOK k tr
  | [], h => h
  | _ :: post, h => requiresOK_append k tr post h.2

theorem cyclesOK_append (tr : List Event) :
    ∀ post : List Event, cyclesOK (post ++ tr) → cyclesOK tr
  | [], h => h
  | _ :: post, h => cyclesOK_append tr post h.2

theorem readiesOK_append (k : Atom) (tr : List Event) :
    ∀ post : List Event, readiesOK k (post ++ tr) → readiesOK k tr
  | [], h => h
  | _ :: post, h => readiesOK_append k tr post h.2

theorem deliverers_append :
    ∀ xs ys : List Event, deliverers (xs ++ ys) = deliverers xs ++ deliverers ys
  | [], ys => by simp [deliverers]
  | e :: xs, ys => by
    have ih := deliverers_append xs ys
    cases e <;> simp [deliverers, ih]

theorem nodup_since_tail {e : Event} {tr : List Event} (hc : cyclesOK (e :: tr))
    (h : (deliverers (sinceFinalize (e :: tr))).Nodup) :
    (deliverers (sinceFinalize tr)).Nodup := by
  cases e
  case finalize => exact (hc.1 rfl).2.2
  case deliver i k =>
    simp only [sinceFinalize, Event.isFinalize, deliverers, Bool.false_eq_true, if_false] at h
    exact (List.nodup_cons.mp h).2
  all_goals
    simpa [sinceFinalize, Event.isFinalize, deliverers] using h

/-- In a history whose cycles are well formed, the deliveries of any stretch
without `++count` come from pairwise distinct producers. -/
theorem nodup_segment :
    ∀ (post tr : List Event), cyclesOK (post ++ tr) →
      (deliverers (sinceFinalize (post ++ tr))).Nodup →
      ∀ mid rest, tr = mid ++ rest → (∀ e ∈ mid, e.isFinalize = false) →
        (deliverers mid).Nodup
  | [], tr, _, hn, mid, rest, htr, hmid => by
    subst htr
    simp only [List.nil_append] at hn
    rw [sinceFinalize_append rest mid hmid, deliverers_append] at hn
    exact (List.nodup_append.mp hn).1
  | e :: post, tr, hc, hn, mid, rest, htr, hmid =>
    nodup_segment post tr hc.2 (nodup_since_tail hc hn) mid rest htr hmid

/-! ## Exact consumption -/

/-- C1.  Exact consumption.  In every reachable state of the system with any
number of producers, whatever the interleaving, the history satisfies:
between a `required[k] = a` and the assembler's next assignment to
`required[k]` there are exactly `a` deliveries of kind `k`; after the most
recent `required[k] = a` there have been `a - required[k]` deliveries, and `a`
is the recipe amount; before the first one there are none; every completed
cycle (a stretch between two `++count`, or from the start to the first
`++count`) contains exactly 2 hydrogen and 1 oxygen deliveries; and the
deliveries made into completed cycles (all deliveries but those of the current
cycle) number `2 * count` for hydrogen and `count` for oxygen, `count` being
the number of completed cycles. -/
theorem exact_consumption (nH nO : Nat) (s : State) (hr : Reachable nH nO s) :
    (∀ (k : Atom) (a a' : Int) (post mid pre : List Event),
      s.trace = post ++ Event.require k a' :: (mid ++ Event.require k a :: pre) →
      (∀ e ∈ mid, e.isRequire k = false) → (deliveries k mid : Int) = a) ∧
    (∀ (k : Atom) (a : Int) (mid pre : List Event),
      s.trace = mid ++ Event.require k a :: pre → (∀ e ∈ mid, e.isRequire k = false) →
      a = recipe k ∧ (deliveries k mid : Int) + s.required k = a) ∧
    (∀ k : Atom, (∀ e ∈ s.trace, e.isRequire k = false) → deliveries k s.trace = 0) ∧
    (∀ post mid rest : List Event, s.trace = post ++ Event.finalize :: (mid ++ rest) →
      (∀ e ∈ mid, e.isFinalize = false) → (rest = [] ∨ ∃ r, rest = Event.finalize :: r) →
      deliveries Atom.HYDROGEN mid = 2 ∧ deliveries Atom.OXYGEN mid = 1) ∧
    ((deliveries Atom.HYDROGEN s.trace : Int) -
        deliveries Atom.HYDROGEN (sinceFinalize s.trace) = 2 * s.count ∧
      (deliveries Atom.OXYGEN s.trace : Int) -
        deliveries Atom.OXYGEN (sinceFinalize s.trace) = s.count) ∧
    s.count = finalizes s.trace := by
  have hH := hist_of_reachable hr
  refine ⟨?_, ?_, ?_, ?_, ?_, ?_⟩
  · intro k a a' post mid pre htr hmid
    have h1 := hH.closed_req k
    rw [htr] at h1
    have h2 := (requiresOK_append k _ post h1).1 (by simp [Event.isRequire])
    have h3 := sinceRequire_append k a pre mid hmid
    have h4 := (h2.1 a h3.2).1
    rw [h3.1] at h4
    exact h4
  · intro k a mid pre htr hmid
    have h1 := hH.open_req k
    rw [htr] at h1
    have h3 := sinceRequire_append k a pre mid hmid
    have h4 := h1.1 a h3.2
    rw [h3.1] at h4
    exact h4
  · intro k hno
    exact ((hH.open_req k).2 (lastRequire_none k _ hno)).1
  · intro post mid rest htr hmid hrest
    have h1 := hH.cycles
    rw [htr] at h1
    have h2 := (cyclesOK_append _ post h1).1 rfl
    have h3 : sinceFinalize (mid ++ rest) = mid := by
      rw [sinceFinalize_append rest mid hmid]
      rcases hrest with h | ⟨r, h⟩ <;> subst h <;> simp [sinceFinalize, Event.isFinalize]
    rw [h3] at h2
    exact ⟨h2.1, h2.2.1⟩
  · have h1 := hH.tot Atom.HYDROGEN
    have h2 := hH.tot Atom.OXYGEN
    simp only [recipe] at h1 h2
    constructor <;> omega
  · obtain ⟨ls, hls⟩ := hr
    have := (count_run ls _ _ hls).2
    simp only [init, finalizes] at this
    simpa using this

/-- Witness for C1: after the completed cycle of the sample execution
(`count = 1`) the history holds 2 hydrogen deliveries and 1 oxygen delivery,
all in the completed cycle. -/
theorem exact_consumption_witness :
    Reachable 2 1 (sampleState 55) ∧ (sampleState 55).count = 1 ∧
    deliveries Atom.HYDROGEN (sampleState 55).trace = 2 ∧
    deliveries Atom.OXYGEN (sampleState 55).trace = 1 ∧
    ((deliveries Atom.HYDROGEN (sampleState 55).trace : Int) -
        deliveries Atom.HYDROGEN (sinceFinalize (sampleState 55).trace) =
          2 * (sampleState 55).count ∧
      (deliveries Atom.OXYGEN (sampleState 55).trace : Int) -
        deliveries Atom.OXYGEN (sinceFinalize (sampleState 55).trace) =
          (sampleState 55).count) :=
  ⟨⟨sampleSchedule.take 55, rfl⟩, rfl, rfl, rfl,
    (exact_consumption 2 1 (sampleState 55) ⟨sampleSchedule.take 55, rfl⟩).2.2.2.2.1⟩

/-! ## Distinct suppliers -/

/-- C6 (as amended).  Each cycle is supplied by distinct producers.  In every
reachable state: a producer that has just taken its snapshot (lines 70-71)
holds the current value of `count`; the producers that have delivered into the
cycle being assembled are exactly those that are past their decrement with
snapshot equal to `count`; the deliveries of any stretch of the history without
a `++count` come from pairwise distinct producers; when the assembler is at
`++count`, exactly 2 hydrogen producers and 1 oxygen producer have a snapshot
equal to `count`, and each of them is locking or waiting on `FINISHED`; when
the assembler is at the broadcast, exactly 2 hydrogen and 1 oxygen producers
have a snapshot equal to the old value `count - 1`, each of them is locking or
waiting on `FINISHED`, every producer blocked in `WAIT(FINISHED)` is one of
them (so at most 3 are blocked), and the broadcast wakes exactly the blocked
ones and changes no other producer: those of the three that are not blocked
yet are not woken. -/
theorem distinct_suppliers (nH nO : Nat) (s : State) (hr : Reachable nH nO s) :
    (∀ (i : Nat) (p : Producer), s.producers[i]? = some p →
      p.pc = PLoc.checkLast ∨ p.pc = PLoc.unlockAtom → p.currentCount = s.count) ∧
    (∀ i : Nat, i ∈ deliverers (sinceFinalize s.trace) ↔
      ∃ p, s.producers[i]? = some p ∧ hasDelivered s.count p = true) ∧
    (∀ post mid rest : List Event, s.trace = post ++ (mid ++ rest) →
      (∀ e ∈ mid, e.isFinalize = false) → (deliverers mid).Nodup) ∧
    (s.main.pc = ALoc.fInc →
      total (delivered Atom.HYDROGEN s.count) s.producers = 2 ∧
      total (delivered Atom.OXYGEN s.count) s.producers = 1 ∧
      ∀ (i : Nat) (p : Producer), s.producers[i]? = some p → hasDelivered s.count p = true →
        p.pc = PLoc.lockFin ∨ p.pc = PLoc.waitFin ∨ p.pc = PLoc.wokenFin) ∧
    (s.main.pc = ALoc.fBcast →
      total (delivered Atom.HYDROGEN (s.count - 1)) s.producers = 2 ∧
      total (delivered Atom.OXYGEN (s.count - 1)) s.producers = 1 ∧
      (∀ (i : Nat) (p : Producer), s.producers[i]? = some p → p.pc = PLoc.waitFin →
        p.currentCount = s.count - 1) ∧
      (∀ (i : Nat) (p : Producer), s.producers[i]? = some p →
        hasDelivered (s.count - 1) p = true →
        p.pc = PLoc.lockFin ∨ p.pc = PLoc.waitFin ∨ p.pc = PLoc.wokenFin) ∧
      total blockedFin s.producers ≤ 3 ∧
      ∀ w t, step (Label.main w) s = some t →
        t.producers = s.producers.map wakeFin ∧
        (∀ (i : Nat) (p : Producer), s.producers[i]? = some p →
          t.producers[i]? =
            some (if p.pc = PLoc.waitFin then { p with pc := PLoc.wokenFin } else p)) ∧
        total blockedFin t.producers = 0) := by
  have hI := inv_of_reachable hr
  have hH := hist_of_reachable hr
  refine ⟨hI.snap_eq, hH.fresh.2, ?_, ?_, ?_⟩
  · intro post mid rest htr hmid
    have h1 := hH.cycles
    have h2 := hH.fresh.1
    rw [htr] at h1 h2
    exact nodup_segment post _ h1 h2 mid rest rfl hmid
  · intro hpc
    obtain ⟨req, c, mu, ⟨pc, k, n, r⟩, ps, tr⟩ := s
    simp only at hpc
    subst hpc
    have h1 := hI.deliv Atom.HYDROGEN
    have h2 := hI.deliv Atom.OXYGEN
    have h3 := hI.zero Atom.HYDROGEN (by simp [idle, pos])
    have h4 := hI.zero Atom.OXYGEN (by simp [idle, pos])
    simp only at h1 h2 h3 h4
    rw [h3] at h1
    rw [h4] at h2
    simp [target, demanded, pos, recipe] at h1 h2
    refine ⟨?_, ?_, ?_⟩
    · simp only
      omega
    · simp only
      omega
    intro i p hp hd
    have h5 := hI.quiet p.atom (by cases p.atom <;> simp [idle, pos]) i p hp rfl
    obtain ⟨pa, ppc, px⟩ := p
    cases ppc <;> simp [hasDelivered, PLoc.afterSnap, PLoc.busy] at hd h5 ⊢
    exact excl_main hI hp (m := Mx.FINISHED) rfl rfl
  · intro hpc
    have h1 := hH.released hpc Atom.HYDROGEN
    have h2 := hH.released hpc Atom.OXYGEN
    simp only [recipe] at h1 h2
    have hw : ∀ (i : Nat) (p : Producer), s.producers[i]? = some p → p.pc = PLoc.waitFin →
        p.currentCount = s.count - 1 := by
      intro i p hp hw
      have := hI.wait_eq i p hp hw
      simpa [hpc] using this
    refine ⟨by omega, by omega, hw, ?_, ?_, ?_⟩
    · intro i p hp hd
      have hidle : idle p.atom s.main = true := by
        obtain ⟨req, c, mu, ⟨pc, k, n, r⟩, ps, tr⟩ := s
        simp only at hpc
        subst hpc
        cases p.atom <;> simp [idle, pos]
      have h5 := hI.quiet p.atom hidle i p hp rfl
      have h6 : holdsP p ≠ some Mx.FINISHED := fun h =>
        excl_main hI hp (by simp [holdsA, hpc]) h
      obtain ⟨pa, ppc, px⟩ := p
      cases ppc <;> simp [hasDelivered, PLoc.afterSnap, PLoc.busy, holdsP] at hd h5 h6 ⊢
    · have h3 : total blockedFin s.producers ≤
          total (delivered Atom.HYDROGEN (s.count - 1)) s.producers +
            total (delivered Atom.OXYGEN (s.count - 1)) s.producers := by
        rw [← total_add (fun p => delivered Atom.HYDROGEN (s.count - 1) p +
          delivered Atom.OXYGEN (s.count - 1) p) _ _ s.producers (fun _ _ => rfl)]
        refine total_le _ _ _ ?_
        intro p hp
        obtain ⟨i, hi⟩ := List.getElem?_of_mem hp
        have h4 := hw i p hi
        obtain ⟨pa, ppc, px⟩ := p
        simp only [blockedFin]
        split
        · rename_i h5
          subst h5
          have h6 := h4 rfl
          simp only at h6
          cases pa <;> simp [delivered, hasDelivered, PLoc.afterSnap, h6]
        · omega
      omega
    · intro w t hstep
      have ht := trans_of_step hstep
      obtain ⟨req, c, mu, ⟨pc, k, n, r⟩, ps, tr⟩ := s
      simp only at hpc
      subst hpc
      cases ht
      refine ⟨rfl, ?_, ?_⟩
      · intro i p hp
        simp only [List.getElem?_map, hp, Option.map_some', wakeFin]
      · refine total_eq_zero _ _ ?_
        intro q hq
        obtain ⟨q0, _, rfl⟩ := List.mem_map.mp hq
        simp only [blockedFin, wakeFin]
        split <;> simp_all

/-- Witness for C6: at the `++count` of the sample execution the three
producers are the suppliers of the cycle. -/
theorem distinct_suppliers_witness :
    Reachable 2 1 (sampleState 49) ∧ (sampleState 49).main.pc = ALoc.fInc ∧
    total (delivered Atom.HYDROGEN (sampleState 49).count) (sampleState 49).producers = 2 ∧
    total (delivered Atom.OXYGEN (sampleState 49).count) (sampleState 49).producers = 1 :=
  ⟨⟨sampleSchedule.take 49, rfl⟩, rfl,
    ((distinct_suppliers 2 1 (sampleState 49) ⟨sampleSchedule.take 49, rfl⟩).2.2.2.1 rfl).1,
    ((distinct_suppliers 2 1 (sampleState 49) ⟨sampleSchedule.take 49, rfl⟩).2.2.2.1 rfl).2.1⟩

/-- Counterexample to C6 as stated: at the broadcast of the sample execution
(statement 51 of the schedule) the three producers are the suppliers of the
cycle, all with snapshot 0, the old value of `count`; only producer 0 is
blocked in `WAIT(FINISHED)`, producers 1 and 2 are still at `lock(FINISHED)`.
The broadcast wakes producer 0 alone: it does not release the three
suppliers. -/
theorem broadcast_wakes_fewer :
    (sampleState 50).main.pc = ALoc.fBcast ∧ (sampleState 50).count = 1 ∧
    total (delivered Atom.HYDROGEN 0) (sampleState 50).producers = 2 ∧
    total (delivered Atom.OXYGEN 0) (sampleState 50).producers = 1 ∧
    (sampleState 50).producers =
      [⟨Atom.HYDROGEN, PLoc.waitFin, 0⟩, ⟨Atom.HYDROGEN, PLoc.lockFin, 0⟩,
        ⟨Atom.OXYGEN, PLoc.lockFin, 0⟩] ∧
    step (Label.main none) (sampleState 50) = some (sampleState 51) ∧
    (sampleState 51).producers =
      [⟨Atom.HYDROGEN, PLoc.wokenFin, 0⟩, ⟨Atom.HYDROGEN, PLoc.lockFin, 0⟩,
        ⟨Atom.OXYGEN, PLoc.lockFin, 0⟩] :=
  ⟨rfl, rfl, rfl, rfl, rfl, rfl, rfl⟩

/-! ## Edge-triggered ready signal -/

/-- While a producer stands between its decrement and `unlock(atom)`, no step
of the system changes `required` of its kind. -/
theorem required_stable {nH nO : Nat} {s t : State} {l : Label} (hI : Inv nH nO s)
    {i : Nat} {p : Producer} (hp : s.producers[i]? = some p)
    (hpc : p.pc = PLoc.snap ∨ p.pc = PLoc.checkLast) (ht : Trans l s t) :
    t.required p.atom = s.required p.atom := by
  have hh : holdsP p = some (Mx.atom p.atom) := by
    rcases hpc with h | h <;> simp [holdsP, h]
  obtain ⟨req, c, mu, ⟨pc, k, n, r⟩, ps, tr⟩ := s
  cases ht
  case rSet =>
    by_cases hk : p.atom = k
    · subst hk
      exact (excl_main hI hp (m := Mx.atom p.atom) rfl hh).elim
    · simp [setRequired, hk]
  case decr j k2 x hmin hj =>
    by_cases hk : p.atom = k2
    · subst hk
      have hij := excl_prod hI hp hj (m := Mx.atom p.atom) hh rfl
      subst hij
      simp only at hp
      have hpe := Option.some.inj (hj.symm.trans hp)
      rw [← hpe] at hpc
      rcases hpc with h | h <;> simp at h
    · simp [setRequired, hk]
  all_goals rfl

/-- C10.  Edge-triggered ready signal.  In a reachable state: a producer at
its decrement (line 60) finds `required[kind] = r > 0`, and its step sets it
to `r - 1` and records the delivery without signalling; from then until the
producer has executed line 70 no step of any thread changes `required[kind]`;
the producer's step at line 70 executes `sendSignal(READY)` if and only if
`required[kind]` is 0.  Hence in the history: every `required[k] = a` has
`a > 0` (the recipe amount) and between it and the assembler's next assignment
to `required[k]` exactly one `READY` signal is sent for kind `k`; after the
most recent one at most one has been sent, namely exactly when `required[k]`
is 0 and no producer of that kind is still before its line 70; before the
first one none is sent; and every `READY` signal for kind `k` is sent by the
producer of the most recent delivery of kind `k`. -/
theorem edge_triggered (nH nO : Nat) (s : State) (hr : Reachable nH nO s) :
    (∀ (i : Nat) (p : Producer), s.producers[i]? = some p → p.pc = PLoc.decr →
      0 < s.required p.atom ∧
      ∃ t, step (Label.producer i) s = some t ∧
        t.required p.atom = s.required p.atom - 1 ∧
        t.trace = Event.deliver i p.atom :: s.trace ∧ t.main = s.main ∧
        t.producers[i]? = some { p with pc := PLoc.snap }) ∧
    (∀ (i : Nat) (p : Producer), s.producers[i]? = some p →
      p.pc = PLoc.snap ∨ p.pc = PLoc.checkLast →
      ∀ l t, step l s = some t → t.required p.atom = s.required p.atom) ∧
    (∀ (i : Nat) (p : Producer), s.producers[i]? = some p → p.pc = PLoc.checkLast →
      ∃ t, step (Label.producer i) s = some t ∧
        (s.required p.atom = 0 →
          t.trace = Event.ready i p.atom :: s.trace ∧ t.main = wakeMain s.main) ∧
        (s.required p.atom ≠ 0 → t.trace = s.trace ∧ t.main = s.main)) ∧
    (∀ (k : Atom) (a a' : Int) (post mid pre : List Event),
      s.trace = post ++ Event.require k a' :: (mid ++ Event.require k a :: pre) →
      (∀ e ∈ mid, e.isRequire k = false) → 0 < a ∧ readies k mid = 1) ∧
    (∀ (k : Atom) (a : Int) (mid pre : List Event),
      s.trace = mid ++ Event.require k a :: pre → (∀ e ∈ mid, e.isRequire k = false) →
      0 < a ∧ readies k mid =
        if s.required k = 0 ∧ total (signalling k) s.producers = 0 then 1 else 0) ∧
    (∀ k : Atom, (∀ e ∈ s.trace, e.isRequire k = false) → readies k s.trace = 0) ∧
    (∀ (k : Atom) (i : Nat) (post rest : List Event),
      s.trace = post ++ Event.ready i k :: rest → lastDeliverer k rest = some i) := by
  have hI := inv_of_reachable hr
  have hH := hist_of_reachable hr
  have hpos : ∀ k a, Event.require k a ∈ s.trace → 0 < a := by
    intro k a hmem
    rw [hH.amounts k a hmem]
    cases k <;> simp [recipe]
  refine ⟨?_, ?_, ?_, ?_, ?_, ?_, ?_⟩
  · intro i p hp hpc
    have h1 := hI.decr_pos i p hp hpc
    refine ⟨by omega, ?_⟩
    obtain ⟨req, c, mu, a, ps, tr⟩ := s
    obtain ⟨pa, ppc, px⟩ := p
    simp only at hpc hp h1
    subst hpc
    have hmin : INT_MIN < req pa := by
      simp only [INT_MIN]
      omega
    refine ⟨_, step_of_trans (Trans.decr hp hmin), ?_, rfl, rfl, ?_⟩
    · simp [setRequired]
    · exact getElem?_set_at hp
  · intro i p hp hpc l t hstep
    exact required_stable hI hp hpc (trans_of_step hstep)
  · intro i p hp hpc
    obtain ⟨req, c, mu, a, ps, tr⟩ := s
    obtain ⟨pa, ppc, px⟩ := p
    simp only at hpc hp
    subst hpc
    by_cases hz : req pa = 0
    · exact ⟨_, step_of_trans (Trans.checkLastSignal hp hz),
        fun _ => ⟨rfl, rfl⟩, fun h => (h hz).elim⟩
    · exact ⟨_, step_of_trans (Trans.checkLastSkip hp hz),
        fun h => (hz h).elim, fun _ => ⟨rfl, rfl⟩⟩
  · intro k a a' post mid pre htr hmid
    have h1 := hH.closed_req k
    rw [htr] at h1
    have h2 := (requiresOK_append k _ post h1).1 (by simp [Event.isRequire])
    have h3 := sinceRequire_append k a pre mid hmid
    have h4 := (h2.1 a h3.2).2
    rw [h3.1] at h4
    exact ⟨hpos k a (by rw [htr]; simp), h4⟩
  · intro k a mid pre htr hmid
    have h1 := hH.ready_open k
    rw [htr] at h1
    have h3 := sinceRequire_append k a pre mid hmid
    rw [h3.1, h3.2] at h1
    refine ⟨hpos k a (by rw [htr]; simp), ?_⟩
    rw [h1]
    simp
  · intro k hno
    exact ((hH.open_req k).2 (lastRequire_none k _ hno)).2.2
  · intro k i post rest htr
    have h1 := (hH.ready_by k).1
    rw [htr] at h1
    exact (readiesOK_append k _ post h1).1 i rfl

/-- Witness for C10: in the sample execution producer 1 delivers the last
hydrogen unit (`required[HYDROGEN]` from 1 to 0) and is the one that signals
`READY`. -/
theorem edge_triggered_witness :
    Reachable 2 1 (sampleState 28) ∧
    (sampleState 28).producers[1]? = some ⟨Atom.HYDROGEN, PLoc.decr, 0⟩ ∧
    (sampleState 28).required Atom.HYDROGEN = 1 ∧
    (sampleState 31).trace = Event.ready 1 Atom.HYDROGEN :: (sampleState 30).trace ∧
    (0 < (sampleState 28).required Atom.HYDROGEN ∧
      ∃ t, step (Label.producer 1) (sampleState 28) = some t ∧
        t.required Atom.HYDROGEN = (sampleState 28).required Atom.HYDROGEN - 1 ∧
        t.trace = Event.deliver 1 Atom.HYDROGEN :: (sampleState 28).trace ∧
        t.main = (sampleState 28).main ∧
        t.producers[1]? = some ⟨Atom.HYDROGEN, PLoc.snap, 0⟩) :=
  ⟨⟨sampleSchedule.take 28, rfl⟩, rfl, rfl, rfl,
    (edge_triggered 2 1 (sampleState 28) ⟨sampleSchedule.take 28, rfl⟩).1 1
      ⟨Atom.HYDROGEN, PLoc.decr, 0⟩ rfl rfl⟩

/-! ## `require` as a function -/

/-- The effect of the signalling loop of `require` (line 142) followed by
`unlock(atom)`, executed by the assembler without interruption. -/
theorem require_loop (k : Atom) (r : ALoc) :
    ∀ (d : Nat) (req : Atom → Int) (c : Int) (mu : Mx → Option Tid) (n : Int)
      (ps : List Producer) (tr : List Event) (ws : List (Option Nat)) (t : State),
      n = d → ws.length = d + 2 →
      run (ws.map Label.main) ⟨req, c, mu, ⟨ALoc.rLoop, k, n, r⟩, ps, tr⟩ = some t →
      t.main.pc = r ∧ t.required = req ∧ t.count = c ∧ t.mutex = setMutex mu (Mx.atom k) none ∧
      ∃ sig, t.trace = sig ++ tr ∧ sig.length = d ∧ signals k sig = d ∧ broadcasts sig = 0 ∧
        wakeups sig = min d (total (waiting k) ps)
  | 0, req, c, mu, n, ps, tr, ws, t, hn, hlen, hrun => by
    match ws, hlen with
    | [w1, w2], _ =>
      simp only [List.map, run] at hrun
      split at hrun
      · cases hrun
      · rename_i s1 h1
        have t1 := trans_of_step h1
        cases t1
        case rLoopWake hpc hk hn0 hmin hq => exact (hn0 (by simpa using hn)).elim
        case rLoopMiss hn0 hmin hnone => exact (hn0 (by simpa using hn)).elim
        case rLoopExit =>
          split at hrun
          · cases hrun
          · rename_i s2 h2
            have t2 := trans_of_step h2
            cases t2
            cases hrun
            exact ⟨rfl, rfl, rfl, rfl, [], rfl, rfl, rfl, rfl, by simp [wakeups]⟩
  | d + 1, req, c, mu, n, ps, tr, ws, t, hn, hlen, hrun => by
    match ws, hlen with
    | w :: ws1, hlen1 =>
      simp only [List.map, run] at hrun
      split at hrun
      · cases hrun
      · rename_i s1 h1
        have t1 := trans_of_step h1
        cases t1
        case rLoopExit =>
          push_cast at hn
          omega
        case rLoopWake j q hpc hk hn0 hmin hq =>
          have ih := require_loop k r d req c mu (n - 1) _ _ ws1 t
            (by push_cast at hn; omega) (by simpa using hlen1) hrun
          obtain ⟨e1, e2, e3, e4, sig, e5, e6, e7, e8, e9⟩ := ih
          refine ⟨e1, e2, e3, e4, sig ++ [Event.signal k (some j)], ?_, ?_, ?_, ?_, ?_⟩
          · rw [e5]
            simp
          · simp [e6]
          · have : ∀ xs : List Event, signals k (xs ++ [Event.signal k (some j)]) =
                signals k xs + 1 := by
              intro xs
              induction xs with
              | nil => simp [signals]
              | cons x xs ih =>
                cases x <;> simp [signals, ih]
                omega
            rw [this, e7]
          · have : ∀ xs : List Event, broadcasts (xs ++ [Event.signal k (some j)]) =
                broadcasts xs := by
              intro xs
              induction xs with
              | nil => simp [broadcasts]
              | cons x xs ih => cases x <;> simp [broadcasts, ih]
            rw [this, e8]
          · have : ∀ xs : List Event, wakeups (xs ++ [Event.signal k (some j)]) =
                wakeups xs + 1 := by
              intro xs
              induction xs with
              | nil => simp [wakeups]
              | cons x xs ih =>
                cases x <;> simp [wakeups, ih]
                rename_i k1 w1
                cases w1 <;> simp [wakeups, ih]
            rw [this, e9, total_set_eq _ _ hq]
            have h3 := le_total (waiting k) hq
            simp [waiting, waitsOn, hpc, hk] at h3 ⊢
            omega
        case rLoopMiss hn0 hmin hnone =>
          have ih := require_loop k r d req c mu (n - 1) _ _ ws1 t
            (by push_cast at hn; omega) (by simpa using hlen1) hrun
          obtain ⟨e1, e2, e3, e4, sig, e5, e6, e7, e8, e9⟩ := ih
          have hw0 := total_waiting_of_any ps hnone
          refine ⟨e1, e2, e3, e4, sig ++ [Event.signal k none], ?_, ?_, ?_, ?_, ?_⟩
          · rw [e5]
            simp
          · simp [e6]
          · have : ∀ xs : List Event, signals k (xs ++ [Event.signal k none]) =
                signals k xs + 1 := by
              intro xs
              induction xs with
              | nil => simp [signals]
              | cons x xs ih =>
                cases x <;> simp [signals, ih]
                omega
            rw [this, e7]
          · have : ∀ xs : List Event, broadcasts (xs ++ [Event.signal k none]) =
                broadcasts xs := by
              intro xs
              induction xs with
              | nil => simp [broadcasts]
              | cons x xs ih => cases x <;> simp [broadcasts, ih]
            rw [this, e8]
          · have : ∀ xs : List Event, wakeups (xs ++ [Event.signal k none]) =
                wakeups xs := by
              intro xs
              induction xs with
              | nil => simp [wakeups]
              | cons x xs ih =>
                cases x <;> simp [wakeups, ih]
                rename_i k1 w1
                cases w1 <;> simp [wakeups, ih]
            rw [this, e9, hw0]
            simp

/-- The signalling loop of `require` followed by `unlock(atom)` can always be
executed to the end. -/
theorem require_loop_runs (k : Atom) (r : ALoc) :
    ∀ (d : Nat) (req : Atom → Int) (c : Int) (mu : Mx → Option Tid) (n : Int)
      (ps : List Producer) (tr : List Event), n = d →
      ∃ ws t, ws.length = d + 2 ∧
        run (List.map Label.main ws) ⟨req, c, mu, ⟨ALoc.rLoop, k, n, r⟩, ps, tr⟩ = some t
  | 0, req, c, mu, n, ps, tr, hn => by
    have h0 : n = 0 := by simpa using hn
    subst h0
    have h1 : step (Label.main none) ⟨req, c, mu, ⟨ALoc.rLoop, k, 0, r⟩, ps, tr⟩ =
        some ⟨req, c, mu, ⟨ALoc.rUnlock, k, -1, r⟩, ps, tr⟩ := step_of_trans Trans.rLoopExit
    have h2 : step (Label.main none) ⟨req, c, mu, ⟨ALoc.rUnlock, k, -1, r⟩, ps, tr⟩ =
        some ⟨req, c, setMutex mu (Mx.atom k) none, ⟨r, k, -1, r⟩, ps, tr⟩ :=
      step_of_trans Trans.rUnlock
    refine ⟨[none, none], ⟨req, c, setMutex mu (Mx.atom k) none, ⟨r, k, -1, r⟩, ps, tr⟩,
      rfl, ?_⟩
    simp only [List.map, run, h1, h2]
  | d + 1, req, c, mu, n, ps, tr, hn => by
    have hn0 : n ≠ 0 := by
      push_cast at hn
      omega
    have hmin : INT_MIN < n := by
      simp only [INT_MIN]
      push_cast at hn
      omega
    cases hany : ps.any (waitsOn k) with
    | false =>
      obtain ⟨ws, t, hlen, hrun⟩ := require_loop_runs k r d req c mu (n - 1) ps
        (Event.signal k none :: tr) (by push_cast at hn; omega)
      refine ⟨none :: ws, t, by simp [hlen], ?_⟩
      simp only [List.map, run, step_of_trans (Trans.rLoopMiss hn0 hmin hany)]
      exact hrun
    | true =>
      rw [List.any_eq_true] at hany
      obtain ⟨q, hq, hw⟩ := hany
      obtain ⟨j, hj⟩ := List.getElem?_of_mem hq
      simp only [waitsOn, Bool.and_eq_true, decide_eq_true_eq] at hw
      obtain ⟨ws, t, hlen, hrun⟩ := require_loop_runs k r d req c mu (n - 1)
        (ps.set j { q with pc := PLoc.wokenAtom }) (Event.signal k (some j) :: tr)
        (by push_cast at hn; omega)
      refine ⟨some j :: ws, t, by simp [hlen], ?_⟩
      simp only [List.map, run, step_of_trans (Trans.rLoopWake hn0 hmin hj hw.1 hw.2)]
      exact hrun

/-- C7 (as amended).  `require(k, a)` with `a ≥ 0`, called with `mutex[k]`
free and executed by the assembler without interruption: the call can always
be run to its return, which it reaches after `a + 4` statements; it leaves
`required[k] = a`, the other kind's `required` and `count` unchanged and
`mutex[k]` free; it records the assignment and then sends exactly `a`
single-wake signals on condition `k` and nothing else (no broadcast); each
signal wakes one producer blocked in `WAIT(k)` if there is one and none
otherwise, so the call wakes `min a W` producers, `W` being the number of
producers of kind `k` blocked in `WAIT(k)` at the call. -/
theorem require_spec (s : State) (k : Atom) (a : Int) (r : ALoc)
    (hm : s.main = ⟨ALoc.rLock, k, a, r⟩) (ha : 0 ≤ a) (hfree : s.mutex (Mx.atom k) = none) :
    (∃ ws t, ws.length = a.toNat + 4 ∧ run (List.map Label.main ws) s = some t) ∧
    ∀ (ws : List (Option Nat)) (t : State), ws.length = a.toNat + 4 →
      run (List.map Label.main ws) s = some t →
      t.main.pc = r ∧ t.required k = a ∧ (∀ k1, k1 ≠ k → t.required k1 = s.required k1) ∧
      t.count = s.count ∧ t.mutex (Mx.atom k) = none ∧
      ∃ sig, t.trace = sig ++ Event.require k a :: s.trace ∧ sig.length = a.toNat ∧
        signals k sig = a.toNat ∧ broadcasts sig = 0 ∧
        wakeups sig = min a.toNat (total (waiting k) s.producers) := by
  obtain ⟨req, c, mu, m, ps, tr⟩ := s
  simp only at hm hfree
  subst hm
  have hnat : a = (a.toNat : Int) := (Int.toNat_of_nonneg ha).symm
  have h1 : step (Label.main none) ⟨req, c, mu, ⟨ALoc.rLock, k, a, r⟩, ps, tr⟩ =
      some ⟨req, c, setMutex mu (Mx.atom k) (some Tid.main), ⟨ALoc.rSet, k, a, r⟩, ps, tr⟩ :=
    step_of_trans (Trans.rLock hfree)
  have h2 : step (Label.main none)
      ⟨req, c, setMutex mu (Mx.atom k) (some Tid.main), ⟨ALoc.rSet, k, a, r⟩, ps, tr⟩ =
      some ⟨setRequired req k a, c, setMutex mu (Mx.atom k) (some Tid.main),
        ⟨ALoc.rLoop, k, a, r⟩, ps, Event.require k a :: tr⟩ :=
    step_of_trans Trans.rSet
  constructor
  · obtain ⟨ws, t, hlen, hrun⟩ := require_loop_runs k r a.toNat (setRequired req k a) c
      (setMutex mu (Mx.atom k) (some Tid.main)) a ps (Event.require k a :: tr) hnat
    refine ⟨none :: none :: ws, t, by simp [hlen], ?_⟩
    simp only [List.map, run, h1, h2]
    exact hrun
  · intro ws t hlen hrun
    match ws, hlen with
    | w1 :: w2 :: ws1, hlen1 =>
      simp only [List.map, run] at hrun
      split at hrun
      · cases hrun
      · rename_i s1 e1
        have t1 := trans_of_step e1
        cases t1
        split at hrun
        · cases hrun
        · rename_i s2 e2
          have t2 := trans_of_step e2
          cases t2
          have hl := require_loop k r a.toNat _ _ _ a _ _ ws1 t hnat
            (by simpa using hlen1) hrun
          obtain ⟨e1, e2, e3, e4, sig, e5, e6, e7, e8, e9⟩ := hl
          refine ⟨e1, ?_, ?_, e3, ?_, sig, e5, e6, e7, e8, e9⟩
          · rw [e2]
            simp [setRequired]
          · intro k1 hk
            rw [e2]
            simp [setRequired, hk]
          · rw [e4]
            simp [setMutex]

/-- Witness for C7 (as amended): the call `require(HYDROGEN, 2)` of the sample
execution, made while one producer is blocked in `WAIT(HYDROGEN)`, can be run
to its return. -/
theorem require_spec_witness :
    (sampleState 4).main = ⟨ALoc.rLock, Atom.HYDROGEN, 2, ALoc.call152⟩ ∧
    (sampleState 4).mutex (Mx.atom Atom.HYDROGEN) = none ∧
    total (waiting Atom.HYDROGEN) (sampleState 4).producers = 1 ∧
    ∃ ws t, ws.length = (2 : Int).toNat + 4 ∧
      run (List.map Label.main ws) (sampleState 4) = some t :=
  ⟨rfl, rfl, rfl,
    (require_spec (sampleState 4) Atom.HYDROGEN 2 ALoc.call152 rfl (by decide) rfl).1⟩

/-- Counterexample to C7 as stated: in the sample execution the call
`require(HYDROGEN, 2)` (statements 5 to 10 of the schedule) returns to line
152 with `required[HYDROGEN] = 2` having sent 2 signals, but it has woken
1 producer, not 2: only one producer was blocked in `WAIT(HYDROGEN)`. -/
theorem require_wakes_fewer :
    (sampleState 4).main = ⟨ALoc.rLock, Atom.HYDROGEN, 2, ALoc.call152⟩ ∧
    (sampleState 10).main.pc = ALoc.call152 ∧
    (sampleState 10).required Atom.HYDROGEN = 2 ∧
    signals Atom.HYDROGEN (sampleState 10).trace = 2 ∧
    wakeups (sampleState 10).trace = 1 ∧ wakeups (sampleState 4).trace = 0 :=
  ⟨rfl, rfl, rfl, rfl, rfl, rfl⟩

/-! ## Zero demand -/

/-- C8 (as amended).  Zero demand.  For every kind `k`: the first statement
of `require(k, 0)` can be executed exactly when `mutex[k]` is free, and once it
is executed the call returns after 3 more statements of the assembler, leaving
`required[k] = 0`, recording the assignment and sending no signal (the
producers are untouched); the first statement of `gather(k)`, called with
`required[k] = 0`, can be executed exactly when `mutex[k]` is free, and once
it is executed the call returns after 2 more statements of the assembler
(test, unlock) without passing through `wait(READY, atom)` and without
changing `required`, `count`, the producers or the history, so with the mutex
free it needs no producer step; in a reachable state in which the assembler
is at the lock or the test of `gather` with `required[atom] = 0`, no step of
any thread changes `required[atom]` or `count`, and the assembler does not get
to wait on `READY`; and in such a state with the assembler at the lock and
`mutex[atom]` taken, the assembler has no step, the owner of the mutex is a
producer of that kind inside lines 59-71, and that producer has a step, which
leaves the assembler, `required` and `count` as they are: `gather` returns
only after the producer has released the mutex. -/
theorem zero_demand (s : State) (k : Atom) (n : Int) (r : ALoc) (w1 w2 w3 w4 : Option Nat) :
    (s.main = ⟨ALoc.rLock, k, 0, r⟩ →
      ((∃ s1, step (Label.main w1) s = some s1) ↔ s.mutex (Mx.atom k) = none) ∧
      ∀ s1, step (Label.main w1) s = some s1 →
        ∃ t, run [Label.main w2, Label.main w3, Label.main w4] s1 = some t ∧
          t.main.pc = r ∧ t.required k = 0 ∧ t.trace = Event.require k 0 :: s.trace ∧
          t.producers = s.producers ∧ t.count = s.count) ∧
    (s.main = ⟨ALoc.gLock, k, n, r⟩ → s.required k = 0 →
      ((∃ s1, step (Label.main w1) s = some s1) ↔ s.mutex (Mx.atom k) = none) ∧
      ∀ s1, step (Label.main w1) s = some s1 → s1.main.pc = ALoc.gCheck ∧
        ∃ s2 t, step (Label.main w2) s1 = some s2 ∧ s2.main.pc = ALoc.gUnlock ∧
          step (Label.main w3) s2 = some t ∧ t.main.pc = r ∧
          t.required = s.required ∧ t.count = s.count ∧ t.producers = s.producers ∧
          t.trace = s.trace) ∧
    (∀ nH nO, Reachable nH nO s → s.main.pc = ALoc.gLock ∨ s.main.pc = ALoc.gCheck →
      s.required s.main.atom = 0 →
      ∀ l t, step l s = some t →
        t.main.atom = s.main.atom ∧ t.required s.main.atom = 0 ∧ t.count = s.count ∧
        (t.main.pc = ALoc.gLock ∨ t.main.pc = ALoc.gCheck ∨ t.main.pc = ALoc.gUnlock)) ∧
    (∀ nH nO, Reachable nH nO s → s.main.pc = ALoc.gLock → s.required s.main.atom = 0 →
      ∀ u, s.mutex (Mx.atom s.main.atom) = some u →
        (∀ w, step (Label.main w) s = none) ∧
        ∃ (i : Nat) (p : Producer), u = Tid.producer i ∧ s.producers[i]? = some p ∧
          p.atom = s.main.atom ∧
          (p.pc = PLoc.checkReq ∨ p.pc = PLoc.snap ∨ p.pc = PLoc.checkLast ∨
            p.pc = PLoc.unlockAtom) ∧
          ∃ t, step (Label.producer i) s = some t ∧ t.main = s.main ∧
            t.required = s.required ∧ t.count = s.count) := by
  refine ⟨?_, ?_, ?_, ?_⟩
  · intro hm
    obtain ⟨req, c, mu, m, ps, tr⟩ := s
    simp only at hm
    subst hm
    refine ⟨?_, ?_⟩
    · constructor
      · rintro ⟨s1, h1⟩
        have ht := trans_of_step h1
        cases ht
        assumption
      · intro hfree
        exact ⟨_, step_of_trans (Trans.rLock hfree)⟩
    intro s1 hs1
    have ht := trans_of_step hs1
    cases ht
    have h2 : step (Label.main w2)
        ⟨req, c, setMutex mu (Mx.atom k) (some Tid.main), ⟨ALoc.rSet, k, 0, r⟩, ps, tr⟩ =
        some ⟨setRequired req k 0, c, setMutex mu (Mx.atom k) (some Tid.main),
          ⟨ALoc.rLoop, k, 0, r⟩, ps, Event.require k 0 :: tr⟩ :=
      step_of_trans Trans.rSet
    have h3 : step (Label.main w3)
        ⟨setRequired req k 0, c, setMutex mu (Mx.atom k) (some Tid.main),
          ⟨ALoc.rLoop, k, 0, r⟩, ps, Event.require k 0 :: tr⟩ =
        some ⟨setRequired req k 0, c, setMutex mu (Mx.atom k) (some Tid.main),
          ⟨ALoc.rUnlock, k, -1, r⟩, ps, Event.require k 0 :: tr⟩ :=
      step_of_trans Trans.rLoopExit
    have h4 : step (Label.main w4)
        ⟨setRequired req k 0, c, setMutex mu (Mx.atom k) (some Tid.main),
          ⟨ALoc.rUnlock, k, -1, r⟩, ps, Event.require k 0 :: tr⟩ =
        some ⟨setRequired req k 0, c,
          setMutex (setMutex mu (Mx.atom k) (some Tid.main)) (Mx.atom k) none,
          ⟨r, k, -1, r⟩, ps, Event.require k 0 :: tr⟩ :=
      step_of_trans Trans.rUnlock
    refine ⟨⟨setRequired req k 0, c,
      setMutex (setMutex mu (Mx.atom k) (some Tid.main)) (Mx.atom k) none,
      ⟨r, k, -1, r⟩, ps, Event.require k 0 :: tr⟩, ?_, rfl, ?_, rfl, rfl, rfl⟩
    · simp only [run, h2, h3, h4]
    · simp [setRequired]
  · intro hm hz
    obtain ⟨req, c, mu, m, ps, tr⟩ := s
    simp only at hm hz
    subst hm
    refine ⟨?_, ?_⟩
    · constructor
      · rintro ⟨s1, h1⟩
        have ht := trans_of_step h1
        cases ht
        assumption
      · intro hfree
        exact ⟨_, step_of_trans (Trans.gLock hfree)⟩
    intro s1 hs1
    have ht := trans_of_step hs1
    cases ht
    exact ⟨rfl, _, _, step_of_trans (Trans.gCheckPass hz), rfl, step_of_trans Trans.gUnlock,
      rfl, rfl, rfl, rfl, rfl⟩
  · intro nH nO hr hpc hz l t hstep
    have hI := inv_of_reachable hr
    have ht := trans_of_step hstep
    obtain ⟨req, c, mu, ⟨pc, k1, n1, r1⟩, ps, tr⟩ := s
    simp only at hpc hz
    cases ht
    case decr i k2 x hmin hp =>
      have h1 := hI.decr_pos i _ hp rfl
      simp only at h1
      refine ⟨rfl, ?_, rfl, hpc.elim Or.inl (fun h => Or.inr (Or.inl h))⟩
      by_cases hk : k1 = k2
      · subst hk
        omega
      · simp [setRequired, hk, hz]
    case checkLastSignal i k2 x hz0 hp =>
      have h1 : wakeMain ⟨pc, k1, n1, r1⟩ = ⟨pc, k1, n1, r1⟩ := by
        unfold wakeMain
        rcases hpc with h | h <;> simp [h]
      rw [h1]
      exact ⟨rfl, hz, rfl, hpc.elim Or.inl (fun h => Or.inr (Or.inl h))⟩
    case gCheckPass => exact ⟨rfl, hz, rfl, Or.inr (Or.inr rfl)⟩
    case gCheckWait hz0 => exact (hz0 hz).elim
    case gLock => exact ⟨rfl, hz, rfl, Or.inr (Or.inl rfl)⟩
    all_goals first
      | exact ⟨rfl, hz, rfl, hpc.elim Or.inl (fun h => Or.inr (Or.inl h))⟩
      | (rcases hpc with h | h <;> cases h)
  · intro nH nO hr hpc hz u hu
    have hI := inv_of_reachable hr
    have e1 := (hI.owner _ _).mp hu
    refine ⟨?_, ?_⟩
    · intro w
      simp [step, main, gather, hpc, hu]
    · cases u with
      | main => simp [held, holdsA, hpc] at e1
      | producer i =>
        simp only [held] at e1
        cases hp : s.producers[i]? with
        | none => simp [hp] at e1
        | some p =>
          simp only [hp] at e1
          obtain ⟨t, ht⟩ := holder_enabled hI hu
          have hd := hI.decr_pos i p hp
          have htr := trans_of_step ht
          obtain ⟨req, c, mu, ⟨pc, k1, n1, r1⟩, ps, tr⟩ := s
          obtain ⟨pa, ppc, px⟩ := p
          simp only at hpc hz hp hd
          subst hpc
          have hloc : pa = k1 ∧ (ppc = PLoc.checkReq ∨ ppc = PLoc.snap ∨
              ppc = PLoc.checkLast ∨ ppc = PLoc.unlockAtom) := by
            cases ppc <;> simp [holdsP] at e1 hd ⊢
            all_goals first
              | exact e1
              | (subst e1
                 omega)
          refine ⟨i, ⟨pa, ppc, px⟩, rfl, hp, hloc.1, hloc.2, _, ht, ?_⟩
          cases htr
          case decr =>
            rename_i hp2
            rw [hp] at hp2
            cases hp2
            simp at hloc
          all_goals exact ⟨rfl, rfl, rfl⟩

/-- Witness for C8: the call `gather(OXYGEN)` of the sample execution finds
`required[OXYGEN] = 0` and `mutex[OXYGEN]` free, and returns to line 157 in
three statements. -/
theorem zero_demand_witness :
    (sampleState 43).main = ⟨ALoc.gLock, Atom.OXYGEN, -1, ALoc.fLock⟩ ∧
    (sampleState 43).required Atom.OXYGEN = 0 ∧
    step (Label.main none) (sampleState 43) = some (sampleState 44) ∧
    (sampleState 44).main.pc = ALoc.gCheck ∧
    ∃ s2 t, step (Label.main none) (sampleState 44) = some s2 ∧ s2.main.pc = ALoc.gUnlock ∧
      step (Label.main none) s2 = some t ∧ t.main.pc = ALoc.fLock ∧
      t.required = (sampleState 43).required ∧ t.count = (sampleState 43).count ∧
      t.producers = (sampleState 43).producers ∧ t.trace = (sampleState 43).trace :=
  ⟨rfl, rfl, rfl,
    ((zero_demand (sampleState 43) Atom.OXYGEN (-1) ALoc.fLock none none none none).2.1
      (by rfl) (by rfl)).2 (sampleState 44) (by rfl)⟩

/-- Counterexample to C8 as stated: in the system with 2 hydrogen and 2 oxygen
producers, after the first 43 steps of the sample schedule the assembler
calls `gather(OXYGEN)` with `required[OXYGEN] = 0`; the second oxygen producer
then locks `mutex[OXYGEN]` for its test of line 59.  In that reachable state
the assembler has no step: `gather` cannot return before the producer has
made a step and released the mutex. -/
theorem gather_needs_release :
    Reachable 2 2 contendedState ∧
    contendedState.main = ⟨ALoc.gLock, Atom.OXYGEN, -1, ALoc.fLock⟩ ∧
    contendedState.required Atom.OXYGEN = 0 ∧
    contendedState.mutex (Mx.atom Atom.OXYGEN) = some (Tid.producer 3) ∧
    contendedState.producers[3]? = some ⟨Atom.OXYGEN, PLoc.checkReq, 0⟩ ∧
    (∀ w, step (Label.main w) contendedState = none) ∧
    step (Label.spurious Tid.main) contendedState = none :=
  ⟨⟨sampleSchedule.take 43 ++ [Label.producer 3, Label.producer 3], rfl⟩, rfl, rfl, rfl, rfl,
    fun _ => rfl, rfl⟩

end WaterMolecule
